import Mathlib

/-!
# vcd2step / vcd2verilog: name canonicalisation, value re-encoding, emitters

A shallow embedding of `src/main.c++` (the step-script tool) and of
`src/vcd2verilog.c++` (the harness generator).

* A `std::string` is a `List Char`; a `char` buffer is a `List Char` whose
  length is the size of the array.  Every C primitive that reads or writes
  the buffer is bounds-checked and returns `none` when it would leave it.
* `LINE_MAX` comes from `<limits.h>`, which is not part of the repository:
  it is a parameter of both canonicalisers.
* Loops whose trip count is not syntactically bounded carry a fuel argument.
-/

namespace Vcd2Step

/-! ## C strings and the `<string.h>` primitives used by the sources -/

/-- The terminator of a C string. -/
def NUL : Char := Char.ofNat 0

/-- What `s.c_str()` shows of a `std::string`: the bytes before the first NUL. -/
def c_str : List Char → List Char
  | [] => []
  | c :: cs => if c = NUL then [] else c :: c_str cs

/-- `strncpy(buffer, src, n)` into a fresh buffer of `n` bytes: the bytes of `src`
up to its terminator, then NUL padding up to exactly `n` bytes (no terminator is
written when `src` has `n` or more bytes). -/
def strncpy : Nat → List Char → List Char
  | 0, _ => []
  | n + 1, [] => NUL :: strncpy n []
  | n + 1, c :: cs => if c = NUL then NUL :: strncpy n [] else c :: strncpy n cs

/-- Number of bytes before the first NUL of a byte sequence; `none` when there
is no NUL, i.e. when the scan would run past the end of the array. -/
def strlenFrom : List Char → Option Nat
  | [] => none
  | c :: cs => if c = NUL then some 0 else (strlenFrom cs).map (· + 1)

/-- `strlen(buffer + i)`. -/
def strlen (buffer : List Char) (i : Nat) : Option Nat :=
  strlenFrom (buffer.drop i)

/-- `memmove(buffer + dst, buffer + src, n)`: afterwards byte `dst + k` holds what
byte `src + k` held before, for `k < n`; `none` if either range leaves the array. -/
def memmove (buffer : List Char) (dst src n : Nat) : Option (List Char) :=
  if src + n ≤ buffer.length ∧ dst + n ≤ buffer.length then
    some (buffer.take dst ++ (buffer.drop src).take n ++ buffer.drop (dst + n))
  else none

/-- `buffer[i] = c`, bounds-checked. -/
def store (buffer : List Char) (i : Nat) (c : Char) : Option (List Char) :=
  if i < buffer.length then some (buffer.set i c) else none

/-- Position of the first `'.'` of a byte sequence that ends at its first NUL:
`some none` is `NULL` (no period before the terminator), `none` is a scan that
leaves the array. -/
def strstrFrom : List Char → Option (Option Nat)
  | [] => none
  | c :: cs =>
    if c = NUL then some none
    else if c = '.' then some (some 0)
    else (strstrFrom cs).map (fun r => r.map (· + 1))

/-- `strstr(buffer, ".")`, as an index into `buffer`. -/
def strstr_dot (buffer : List Char) : Option (Option Nat) :=
  strstrFrom buffer

/-- The `std::string` built from `buffer + p`: the bytes from `p` up to the NUL. -/
def string_at (buffer : List Char) (p : Nat) : Option (List Char) :=
  (strlen buffer p).map (fun n => (buffer.drop p).take n)

/-! ## The name canonicalisers -/

/-- The inner loop of both canonicalisers (main.c++ 104-105, vcd2verilog.c++ 278-279):
`while (buffer[i] == ':' && buffer[i+1] == ':') memmove(buffer + i, buffer + i + 1, strlen(buffer + i));` -/
def collapse_while : Nat → List Char → Nat → Option (List Char)
  | 0, _, _ => none
  | fuel + 1, buffer, i =>
    match buffer[i]? with
    | none => none
    | some c =>
      if c = ':' then
        match buffer[i + 1]? with
        | none => none
        | some d =>
          if d = ':' then
            match strlen buffer i with
            | none => none
            | some n =>
              match memmove buffer i (i + 1) n with
              | none => none
              | some buffer1 => collapse_while fuel buffer1 i
          else some buffer
      else some buffer

/-- The outer loop of both canonicalisers (main.c++ 103-108, vcd2verilog.c++ 277-282):
`for (size_t i = 0; i < strlen(buffer); ++i) { while ...; if (buffer[i] == ':') buffer[i] = '.'; }` -/
def collapse_for : Nat → List Char → Nat → Option (List Char)
  | 0, _, _ => none
  | fuel + 1, buffer, i =>
    match strlen buffer 0 with
    | none => none
    | some len =>
      if i < len then
        match collapse_while (buffer.length + 1) buffer i with
        | none => none
        | some buffer1 =>
          match buffer1[i]? with
          | none => none
          | some c =>
            if c = ':' then
              match store buffer1 i '.' with
              | none => none
              | some buffer2 => collapse_for fuel buffer2 (i + 1)
            else collapse_for fuel buffer1 (i + 1)
      else some buffer

/-- The function `vcd2chisel` of main.c++ (lines 98-111). -/
def vcd2chisel (LINE_MAX : Nat) (vcd_name : List Char) : Option (List Char) :=
  let buffer := strncpy LINE_MAX vcd_name
  match collapse_for (LINE_MAX + 1) buffer 0 with
  | none => none
  | some buffer1 => string_at buffer1 0

/-- The second loop of `vcd2name` (vcd2verilog.c++ 290-292):
`for (size_t i = 0; i < strlen(bufferp); ++i) if (bufferp[i] == '.') bufferp[i] = '_';`
with `bufferp = buffer + p`. -/
def flatten_for : Nat → List Char → Nat → Nat → Option (List Char)
  | 0, _, _, _ => none
  | fuel + 1, buffer, p, i =>
    match strlen buffer p with
    | none => none
    | some len =>
      if i < len then
        match buffer[p + i]? with
        | none => none
        | some c =>
          if c = '.' then
            match store buffer (p + i) '_' with
            | none => none
            | some buffer1 => flatten_for fuel buffer1 p (i + 1)
          else flatten_for fuel buffer p (i + 1)
      else some buffer

/-- The function `vcd2name` of vcd2verilog.c++ (lines 272-295). -/
def vcd2name (LINE_MAX : Nat) (vcd_name : List Char) : Option (List Char) :=
  let buffer := strncpy LINE_MAX vcd_name
  match collapse_for (LINE_MAX + 1) buffer 0 with
  | none => none
  | some buffer1 =>
    match strstr_dot buffer1 with
    | none => none
    | some r =>
      let bufferp := match r with
        | none => 0
        | some k => k + 1
      match flatten_for (LINE_MAX + 1) buffer1 bufferp 0 with
      | none => none
      | some buffer2 => string_at buffer2 bufferp


/-! ## The value re-encoders -/

/-- How a run of the program can end abnormally. -/
inductive Fault where
  /-- `abort()` was called after a diagnostic on `stderr`. -/
  | abort
  /-- The constructor of `mpz_class` threw `std::invalid_argument`; nothing catches it, so
  the process is terminated. -/
  | invalid_argument
  /-- A read or write outside `buffer[LINE_MAX]` (undefined behaviour). -/
  | out_of_bounds
  /-- A write through the null pointer that a failed `fopen` returned (undefined behaviour;
  in practice the process is killed by a segmentation fault). -/
  | null_stream
  deriving DecidableEq, Repr

/-- `isspace` in the "C" locale. -/
def isspace (c : Char) : Bool :=
  c = ' ' ∨ c = '\t' ∨ c = '\n' ∨ c = Char.ofNat 11 ∨ c = Char.ofNat 12 ∨ c = '\r'

/-- Value of a digit character in GMP for bases up to 36 (letters in either case). -/
def digit_value (c : Char) : Option Nat :=
  if '0' ≤ c ∧ c ≤ '9' then some (c.toNat - '0'.toNat)
  else if 'a' ≤ c ∧ c ≤ 'z' then some (c.toNat - 'a'.toNat + 10)
  else if 'A' ≤ c ∧ c ≤ 'Z' then some (c.toNat - 'A'.toNat + 10)
  else none

/-- The digit loop of `mpz_set_str`: white space is skipped, every other character has to
be a digit of the base. -/
def mpz_digits (base : Nat) : List Char → Nat → Option Nat
  | [], acc => some acc
  | c :: cs, acc =>
    if isspace c then mpz_digits base cs acc
    else
      match digit_value c with
      | none => none
      | some d => if d < base then mpz_digits base cs (acc * base + d) else none

/-- GMP's `mpz_set_str(str, base)` for `2 ≤ base ≤ 36` (the library is not part of the
repository; this follows its manual and `mpz/set_str.c`): leading white space is skipped, one
`'-'` may follow, the next character has to be a digit of the base, and from there on white
space is ignored and every other character has to be a digit.  `none` is the return value -1. -/
def mpz_set_str (str : List Char) (base : Nat) : Option Int :=
  let s := str.dropWhile isspace
  let negative := s.head? = some '-'
  let t := if negative then s.drop 1 else s
  match t with
  | [] => none
  | c :: _ =>
    match digit_value c with
    | none => none
    | some d =>
      if d < base then
        match mpz_digits base t 0 with
        | none => none
        | some n => some (if negative then - (n : Int) else (n : Int))
      else none

/-- GMP's `mpz_class::get_str(base)` for `2 ≤ base ≤ 36`: a `'-'` for a negative number, then
the digits of the absolute value, most significant first, letters in lower case, no padding. -/
def mpz_get_str (base : Nat) (z : Int) : List Char :=
  (if z < 0 then ['-'] else []) ++ Nat.toDigits base z.natAbs

/-- The function `bits2int` of main.c++ (lines 113-122). -/
def bits2int (value_bits : List Char) : Except Fault (List Char) :=
  if (c_str value_bits).head? ≠ some 'b' then Except.error Fault.abort
  else
    match mpz_set_str ((c_str value_bits).drop 1) 2 with
    | none => Except.error Fault.invalid_argument
    | some gmp => Except.ok (mpz_get_str 10 gmp)

/-- The function `bits2hex` of vcd2verilog.c++ (lines 297-306). -/
def bits2hex (value_bits : List Char) : Except Fault (List Char) :=
  if (c_str value_bits).head? ≠ some 'b' then Except.error Fault.abort
  else
    match mpz_set_str ((c_str value_bits).drop 1) 2 with
    | none => Except.error Fault.invalid_argument
    | some gmp => Except.ok (mpz_get_str 16 gmp)


/-! ## The collaborators: netlist and trace -/

/-- Modelled from the spec: the opcode of a netlist operation (`libflo::opcode`, declared
outside the repository).  The sources only compare it with `IN` and `OUT`; every other opcode
is `other`. -/
inductive opcode where
  | IN
  | OUT
  | other (code : Nat)
  deriving DecidableEq, Repr

/-- Modelled from the spec: one entry of `flo->operations()`, with its opcode `op()` and the
name `d()->name()` of its destination signal. -/
structure operation where
  op : opcode
  d : List Char
  deriving DecidableEq, Repr

/-- Modelled from the spec: what the trace reader shows of one cycle after `vcd.step()`:
the names enumerated by `all_long_names()`, each paired with the bit-string that
`long_name_to_bits` returns for it in this cycle. -/
abbrev cycle := List (List Char × List Char)

/-- Modelled from the spec: the trace, one entry per cycle; `has_more_cycles()` holds while
entries remain. -/
abbrev vcd := List cycle

/-- A `std::unordered_map<std::string, bool>` that is only written with `m[k] = true` and read
with `m.find(k) == m.end()`: the list of its keys. -/
abbrev name_set := List (List Char)

/-- `m[k] = true`. -/
def name_set.insert (m : name_set) (k : List Char) : name_set :=
  if k ∈ m then m else k :: m

/-- A stream opened for writing: its path and the bytes written to it so far.  A `FILE *` is
an `Option FILE`, `none` being the null pointer. -/
structure FILE where
  path : List Char
  data : List Char
  deriving DecidableEq, Repr

/-- `fopen(path, "w")`.  Whether the file can be created or truncated is up to the operating
system (a directory on the way may be missing, a component too long, the permission or a free
descriptor lacking): `openable path` is its answer for `path`, and a refusal gives the null
pointer.  No run opens a path twice, so an answer per path covers every way the system can
answer in a run. -/
def fopen_w (openable : List Char → Bool) (path : List Char) : Option FILE :=
  if openable path then some ⟨path, []⟩ else none

/-- Appending the formatted text of one `fprintf` call to a stream. -/
def FILE.fprintf (file : FILE) (text : List Char) : FILE :=
  ⟨file.path, file.data ++ text⟩

/-- The call `fprintf(file, ...)` on a `FILE *` that nothing has checked: `text` is the
formatted text. -/
def fprintf (file : Option FILE) (text : List Char) : Except Fault FILE :=
  match file with
  | none => Except.error Fault.null_stream
  | some stream => Except.ok (stream.fprintf text)

/-- The conversion `%s` applied to `s.c_str()`. -/
def fmt_s (s : List Char) : List Char := c_str s

/-- The conversion `%d`. -/
def fmt_d (z : Int) : List Char :=
  (if z < 0 then ['-'] else []) ++ Nat.toDigits 10 z.natAbs

/-! ## The step-script tool (main.c++) -/

/-- The loop that builds `should_poke` in main.c++ (lines 62-65). -/
def step_should_poke (LINE_MAX : Nat) : List operation → name_set → Option name_set
  | [], should_poke => some should_poke
  | op :: ops, should_poke =>
    if op.op = opcode.IN then
      match vcd2chisel LINE_MAX op.d with
      | none => none
      | some chisel_name => step_should_poke LINE_MAX ops (should_poke.insert chisel_name)
    else step_should_poke LINE_MAX ops should_poke

/-- The text of `fprintf(step, "wire_poke %s %s\n", chisel_name.c_str(), value_int.c_str())`. -/
def wire_poke (chisel_name value_int : List Char) : List Char :=
  "wire_poke ".toList ++ fmt_s chisel_name ++ " ".toList ++ fmt_s value_int ++ "\n".toList

/-- The loop over `vcd.all_long_names()` of main.c++ (lines 71-87); `step` is what has been
written to the step file.  A fault carries what had been written when it happened. -/
def step_names (LINE_MAX : Nat) (should_poke : name_set) :
    cycle → List Char → Except (Fault × List Char) (List Char)
  | [], step => Except.ok step
  | (vcd_name, value_bits) :: rest, step =>
    match vcd2chisel LINE_MAX vcd_name with
    | none => Except.error (Fault.out_of_bounds, step)
    | some chisel_name =>
      if chisel_name ∉ should_poke then step_names LINE_MAX should_poke rest step
      else
        match bits2int value_bits with
        | Except.error f => Except.error (f, step)
        | Except.ok value_int =>
          step_names LINE_MAX should_poke rest (step ++ wire_poke chisel_name value_int)

/-- The loop `while (vcd.has_more_cycles())` of main.c++ (lines 68-90). -/
def step_cycles (LINE_MAX : Nat) (should_poke : name_set) :
    vcd → List Char → Except (Fault × List Char) (List Char)
  | [], step => Except.ok step
  | c :: cs, step =>
    match step_names LINE_MAX should_poke c step with
    | Except.error e => Except.error e
    | Except.ok step1 => step_cycles LINE_MAX should_poke cs (step1 ++ "step 1\n".toList)

/-- Lines 68-92 of main.c++: the cycle loop on an empty step file, then `quit`. -/
def step_emit (LINE_MAX : Nat) (should_poke : name_set) (trace : vcd) :
    Except (Fault × List Char) (List Char) :=
  match step_cycles LINE_MAX should_poke trace [] with
  | Except.error e => Except.error e
  | Except.ok step => Except.ok (step ++ "quit\n".toList)

/-- The class `generic_signal` of vcd2verilog.c++ (lines 38-46).  The `int` field `width` is
an `Int`: the conversion of `value_bits.length() - 1` to `int` is exact for every string of
fewer than 2^31 bytes. -/
structure generic_signal where
  width : Int
  name : List Char
  deriving DecidableEq, Repr

/-- The loop that builds `should_poke` in vcd2verilog.c++ (lines 82-86). -/
def harness_should_poke (LINE_MAX : Nat) : List operation → name_set → Option name_set
  | [], should_poke => some should_poke
  | op :: ops, should_poke =>
    if op.op = opcode.IN then
      match vcd2name LINE_MAX op.d with
      | none => none
      | some n => harness_should_poke LINE_MAX ops (should_poke.insert n)
    else harness_should_poke LINE_MAX ops should_poke

/-- The loop that builds `should_poke_or_peek` in vcd2verilog.c++ (lines 88-94). -/
def harness_should_poke_or_peek (LINE_MAX : Nat) : List operation → name_set → Option name_set
  | [], m => some m
  | op :: ops, m =>
    let m1 :=
      if op.op = opcode.IN then
        match vcd2name LINE_MAX op.d with
        | none => none
        | some n => some (m.insert n)
      else some m
    match m1 with
    | none => none
    | some m1 =>
      if op.op = opcode.OUT then
        match vcd2name LINE_MAX op.d with
        | none => none
        | some n => harness_should_poke_or_peek LINE_MAX ops (m1.insert n)
      else harness_should_poke_or_peek LINE_MAX ops m1

/-- `signal2file.find(k)` on a `std::unordered_map<std::string, FILE *>`; `none` is `end()`. -/
def find (signal2file : List (List Char × Option FILE)) (k : List Char) :
    Option (Option FILE) :=
  match signal2file with
  | [] => none
  | (k1, file) :: rest => if k1 = k then some file else find rest k

/-- `signal2file[k] = file`; also used for the effect of writing through the handle stored
under `k`. -/
def assign (signal2file : List (List Char × Option FILE)) (k : List Char)
    (file : Option FILE) : List (List Char × Option FILE) :=
  match signal2file with
  | [] => [(k, file)]
  | (k1, file1) :: rest =>
    if k1 = k then (k, file) :: rest else (k1, file1) :: assign rest k file

/-- The two containers filled by phase 1 of vcd2verilog.c++ (lines 98-99). -/
structure harness_state where
  signal2file : List (List Char × Option FILE)
  signals : List generic_signal
  deriving DecidableEq, Repr

/-- Lines 128-146 of vcd2verilog.c++: on the first observation of `verilog_name` its file
is opened, the pointer is entered in `signal2file`, unchecked, and a signal record is
appended; then the value is written as one line through the pointer found in the map.  `dir`
is `argv[3]`. -/
def harness_record (openable : List Char → Bool) (dir : List Char) (st : harness_state)
    (verilog_name value_bits value_int : List Char) :
    Except (Fault × harness_state) harness_state :=
  match find st.signal2file verilog_name with
  | some file =>
    match fprintf file (fmt_s value_int ++ "\n".toList) with
    | Except.error f => Except.error (f, st)
    | Except.ok file1 => Except.ok ⟨assign st.signal2file verilog_name (some file1), st.signals⟩
  | none =>
    let file_name := dir ++ "/".toList ++ verilog_name ++ ".dat".toList
    let file := fopen_w openable file_name
    let signal2file := assign st.signal2file verilog_name file
    let signals :=
      st.signals ++ [generic_signal.mk ((value_bits.length : Int) - 1) verilog_name]
    match find signal2file verilog_name with
    | none => Except.error (Fault.abort, ⟨signal2file, signals⟩)
    | some file =>
      match fprintf file (fmt_s value_int ++ "\n".toList) with
      | Except.error f => Except.error (f, ⟨signal2file, signals⟩)
      | Except.ok file1 => Except.ok ⟨assign signal2file verilog_name (some file1), signals⟩

/-- The loop over `vcd.all_long_names()` of vcd2verilog.c++ (lines 109-147).  A fault
carries the state in which it happened. -/
def harness_names (LINE_MAX : Nat) (openable : List Char → Bool) (dir : List Char)
    (should_poke_or_peek : name_set) :
    cycle → harness_state → Except (Fault × harness_state) harness_state
  | [], st => Except.ok st
  | (vcd_name, value_bits) :: rest, st =>
    match vcd2name LINE_MAX vcd_name with
    | none => Except.error (Fault.out_of_bounds, st)
    | some verilog_name =>
      if verilog_name ∉ should_poke_or_peek then
        harness_names LINE_MAX openable dir should_poke_or_peek rest st
      else
        match bits2hex value_bits with
        | Except.error f => Except.error (f, st)
        | Except.ok value_int =>
          match harness_record openable dir st verilog_name value_bits value_int with
          | Except.error e => Except.error e
          | Except.ok st1 => harness_names LINE_MAX openable dir should_poke_or_peek rest st1

/-- The loop `while (vcd.has_more_cycles())` of vcd2verilog.c++ (lines 106-148). -/
def harness_cycles (LINE_MAX : Nat) (openable : List Char → Bool) (dir : List Char)
    (should_poke_or_peek : name_set) :
    vcd → harness_state → Except (Fault × harness_state) harness_state
  | [], st => Except.ok st
  | c :: cs, st =>
    match harness_names LINE_MAX openable dir should_poke_or_peek c st with
    | Except.error e => Except.error e
    | Except.ok st1 => harness_cycles LINE_MAX openable dir should_poke_or_peek cs st1

/-- Lines 167-176: the register of one signal. -/
def reg_decl (v : List Char) (signal : generic_signal) : List Char :=
  if signal.width = 1 then
    v ++ "  reg ".toList ++ fmt_s signal.name ++ ";\n".toList
  else
    v ++ "  reg [".toList ++ fmt_d (signal.width - 1) ++ ":0] ".toList ++ fmt_s signal.name
      ++ ";\n".toList

/-- Lines 178-187: the preload array of one signal. -/
def list_decl (v : List Char) (signal : generic_signal) : List Char :=
  if signal.width = 1 then
    v ++ "  reg __list__".toList ++ fmt_s signal.name ++ " [0:`CYCLE_MAX];\n".toList
  else
    v ++ "  reg [".toList ++ fmt_d (signal.width - 1) ++ ":0] __list__".toList
      ++ fmt_s signal.name ++ " [0:`CYCLE_MAX];\n".toList

/-- Lines 194-199: the port connection of one signal. -/
def port_decl (v : List Char) (signal : generic_signal) : List Char :=
  v ++ "    .".toList ++ fmt_s signal.name ++ " (".toList ++ fmt_s signal.name ++ "),\n".toList

/-- Lines 211-216: the preload directive of one signal. -/
def readmemh_decl (v : List Char) (signal : generic_signal) : List Char :=
  v ++ "    $readmemh(\"@@TEST_BASE_DIR@@/".toList ++ fmt_s signal.name ++ ".dat\", ".toList
    ++ fmt_s signal.name ++ ");\n".toList

/-- Lines 219-237: the cycle counter and termination process. -/
def cycle_process : List Char :=
  ("  reg [31:0] cycle = 0;\n" ++
   "  reg failed = 0;\n" ++
   "  always @(posedge clk);\n" ++
   "    begin\n" ++
   "      cycle <= cycle + 1;\n" ++
   "      if (cycle > `CYCLE_MAX)\n" ++
   "        begin\n" ++
   "          $display(\"*** PASSED TEST ***\");\n" ++
   "          //$vcdplusoff;\n" ++
   "          $finish;\n" ++
   "        end\n" ++
   "      else if (failed)\n" ++
   "        begin\n" ++
   "          $display(\"*** FAILED TEST ***\");\n" ++
   "          $finish;\n" ++
   "        end\n" ++
   "      end\n").toList

/-- Lines 244-252: the body of the first loop of the clocked process for one signal. -/
def poke_stmt (should_poke : name_set) (v : List Char) (signal : generic_signal) : List Char :=
  if signal.name ∉ should_poke then v
  else
    v ++ "      ".toList ++ fmt_s signal.name ++ " <= __list__".toList ++ fmt_s signal.name
      ++ "[cycle];\n".toList

/-- Lines 253-262: the body of the second loop of the clocked process for one signal. -/
def compare_stmt (should_poke : name_set) (v : List Char) (signal : generic_signal) :
    List Char :=
  if ¬ signal.name ∉ should_poke then v
  else
    (v ++ "      if (".toList ++ fmt_s signal.name ++ " != __list__".toList ++ fmt_s signal.name
      ++ "[cycle])\n".toList) ++ "        failed <= 1'b1;\n".toList

/-- Lines 239-263: the clocked poke/compare process, appended to `v`. -/
def poke_compare_process (should_poke : name_set) (signals : List generic_signal)
    (v : List Char) : List Char :=
  let v := v ++ ("  always @(posedge clk)\n" ++ "    begin\n" ++ "      reset <= 1'b0;\n").toList
  let v := signals.foldl (poke_stmt should_poke) v
  let v := signals.foldl (compare_stmt should_poke) v
  v ++ "    end\n".toList

/-- Lines 163-265: everything written to the harness file. -/
def harness_text (class_name : List Char) (should_poke : name_set)
    (signals : List generic_signal) : List Char :=
  let v : List Char := []
  let v := v ++ "// Auto-Generated by vcd2verilog\n".toList
  let v := v ++ "module ".toList ++ fmt_s class_name ++ "_vcd2verilog;\n".toList
  let v := v ++ "  reg clk = 0;\n".toList
  let v := signals.foldl reg_decl v
  let v := signals.foldl list_decl v
  let v := v ++ "  ".toList ++ fmt_s class_name ++ " ".toList ++ fmt_s class_name ++ "\n  (\n".toList
  let v := signals.foldl port_decl v
  let v := v ++ "  );\n".toList
  let v := v ++ ("  initial begin\n" ++ "  end\n").toList
  let v := v ++ "  initial begin\n".toList
  let v := v ++ "    //$vcdpluson;\n".toList
  let v := signals.foldl readmemh_decl v
  let v := v ++ "  end\n".toList
  let v := v ++ cycle_process
  let v := poke_compare_process should_poke signals v
  v ++ "endmodule\n".toList

/-- What a complete run of vcd2verilog leaves behind. -/
structure harness_output where
  signal2file : List (List Char × Option FILE)
  signals : List generic_signal
  v : FILE
  deriving DecidableEq, Repr

/-- The function `main` of vcd2verilog.c++ past the argument checks.  `mkdir_ok` is whether
`mkdir(argv[3], 0777)` returned 0, `dir` is `argv[3]`, `class_name` is `flo->class_name()`.
The pass that closes the `.dat` files (lines 151-156) writes nothing and is left out.  The
harness file is opened unchecked (line 161) and the first `fprintf` (line 163) already goes
through the pointer, so the texts of lines 163-265 are written, or none of them is. -/
def harness_main (LINE_MAX : Nat) (openable : List Char → Bool) (mkdir_ok : Bool)
    (dir class_name : List Char) (operations : List operation) (trace : vcd) :
    Except (Fault × harness_state) harness_output :=
  if ¬ mkdir_ok then Except.error (Fault.abort, ⟨[], []⟩)
  else
    match harness_should_poke LINE_MAX operations [] with
    | none => Except.error (Fault.out_of_bounds, ⟨[], []⟩)
    | some should_poke =>
      match harness_should_poke_or_peek LINE_MAX operations [] with
      | none => Except.error (Fault.out_of_bounds, ⟨[], []⟩)
      | some should_poke_or_peek =>
        match harness_cycles LINE_MAX openable dir should_poke_or_peek trace ⟨[], []⟩ with
        | Except.error e => Except.error e
        | Except.ok st =>
          let v_filename := dir ++ "/".toList ++ class_name ++ "_vcd2verilog.v".toList
          let v := fopen_w openable v_filename
          match fprintf v (harness_text class_name should_poke st.signals) with
          | Except.error f => Except.error (f, st)
          | Except.ok v1 => Except.ok ⟨st.signal2file, st.signals, v1⟩



/-! ## The output directory -/

/-- The part of the file system that the harness tool can change: the paths that exist. -/
abbrev file_system := List (List Char)

/-- The call `mkdir(path, 0777)` of vcd2verilog.c++ (line 75): `none` is a non-zero return,
which happens when the path already exists or when the directory cannot be created
(`creatable` false: a missing parent, no permission, ...); otherwise the path exists
afterwards. -/
def mkdir (fs : file_system) (path : List Char) (creatable : Bool) : Option file_system :=
  if path ∈ fs ∨ creatable = false then none else some (path :: fs)

/-- The paths of the `.dat` files opened so far: those of the pointers in the map that are
not null. -/
def opened (signal2file : List (List Char × Option FILE)) : List (List Char) :=
  signal2file.filterMap (fun e => e.2.map (fun stream => stream.path))

/-- The function `main` of vcd2verilog.c++ past the argument checks, together with its
effect on the file system: `mkdir` is called first (lines 75-78); every `fopen(..., "w")`
that is reached afterwards and succeeds creates its path. -/
def harness_run (LINE_MAX : Nat) (openable : List Char → Bool) (fs : file_system)
    (creatable : Bool) (dir class_name : List Char) (operations : List operation)
    (trace : vcd) :
    Except (Fault × harness_state) harness_output × file_system :=
  match mkdir fs dir creatable with
  | none => (harness_main LINE_MAX openable false dir class_name operations trace, fs)
  | some fs1 =>
    match harness_main LINE_MAX openable true dir class_name operations trace with
    | Except.error (f, st) => (Except.error (f, st), opened st.signal2file ++ fs1)
    | Except.ok out => (Except.ok out, out.v.path :: (opened out.signal2file ++ fs1))
/-! ## Specification-side functions -/

/-- Spec: every `':'` that is followed by another `':'` is dropped and the last
`':'` of each run becomes `'.'`, so each maximal run of colons turns into one period. -/
def dot_runs : List Char → List Char
  | [] => []
  | c :: cs =>
    if c = ':' then
      if cs.head? = some ':' then dot_runs cs else '.' :: dot_runs cs
    else c :: dot_runs cs

/-- What one run of the inner loop does to the text at the cursor: the leading
colons of a run are dropped down to the last one. -/
def squash : List Char → List Char
  | [] => []
  | c :: cs => if c = ':' ∧ cs.head? = some ':' then squash cs else c :: cs

/-- The character map of the second loop of `vcd2name`. -/
def underscore (c : Char) : Char := if c = '.' then '_' else c

/-- The text before the first period (the whole text when there is none). -/
def before_dot : List Char → List Char
  | [] => []
  | c :: cs => if c = '.' then [] else c :: before_dot cs

/-- The text after the first period (empty when there is none). -/
def after_dot : List Char → List Char
  | [] => []
  | c :: cs => if c = '.' then cs else after_dot cs

/-- Spec of the harness flattening: a string without a period is kept; otherwise the
part after the first period is taken and each remaining period becomes an underscore. -/
def flatten (s : List Char) : List Char :=
  if '.' ∈ s then (after_dot s).map underscore else s

/-- Two neighbouring characters belong to the same run of separators. -/
def same_run (a b : Char) : Bool := a == ':' && b == ':'

/-- Spec of claim C1, in its words: the name is cut into its maximal runs of `':'` and
its other characters, each run of `':'` is replaced by exactly one `'.'`, everything else
is kept, in order. -/
def replace_runs (name : List Char) : List Char :=
  ((name.splitBy same_run).map (fun g => if ':' ∈ g then ['.'] else g)).flatten

/-- Prepending the pending group to the first finished group. -/
def push_group {α : Type} (g : List α) : List (List α) → List (List α)
  | [] => []
  | h :: t => (g ++ h) :: t


/-- The unsigned integer whose binary digits, most significant first, are `bits`. -/
def binary_value (bits : List Char) : Nat :=
  bits.foldl (fun acc c => 2 * acc + (if c = '1' then 1 else 0)) 0

/-- Value of one numeral character when a numeral is read back: `0`-`9`, then `a`-`f`. -/
def read_digit (c : Char) : Option Nat :=
  if '0' ≤ c ∧ c ≤ '9' then some (c.toNat - 48)
  else if 'a' ≤ c ∧ c ≤ 'f' then some (c.toNat - 87)
  else none

/-- Reading the rest of a numeral in the given base, most significant digit first. -/
def read_numeral_from (base : Nat) : List Char → Nat → Option Nat
  | [], acc => some acc
  | c :: cs, acc =>
    match read_digit c with
    | none => none
    | some d => if d < base then read_numeral_from base cs (acc * base + d) else none

/-- Reading a text back as an unsigned numeral in the given base; `none` when the text is
empty or holds anything but digits of the base. -/
def read_numeral (base : Nat) (s : List Char) : Option Nat :=
  if s = [] then none else read_numeral_from base s 0

/-- A well-formed bit-string value: the marker `b`, then one or more `0`/`1` characters. -/
def bit_string (value : List Char) : Prop :=
  ∃ bits, value = 'b' :: bits ∧ bits ≠ [] ∧ ∀ c ∈ bits, c = '0' ∨ c = '1'

/-- The canonical name the step tool gives to a trace name: its C string with each run of
colons turned into one period (what `vcd2chisel` returns, see `vcd2chisel_eq`). -/
def chisel_name_of (vcd_name : List Char) : List Char := dot_runs (c_str vcd_name)

/-- The canonical name the harness tool gives to a trace name (what `vcd2name` returns, see
`vcd2name_eq`). -/
def verilog_name_of (vcd_name : List Char) : List Char := flatten (dot_runs (c_str vcd_name))

/-- The base-10 numeral of the bits after the marker (what `bits2int` returns on a
well-formed value, see `bits2int_bits`). -/
def decimal_of (value_bits : List Char) : List Char :=
  Nat.toDigits 10 (binary_value (value_bits.drop 1))

/-- The base-16 numeral of the bits after the marker (what `bits2hex` returns on a
well-formed value, see `bits2hex_bits`). -/
def hex_of (value_bits : List Char) : List Char :=
  Nat.toDigits 16 (binary_value (value_bits.drop 1))

/-- A text made of the given lines, each closed by a newline. -/
def unlines (lines : List (List Char)) : List Char :=
  (lines.map (fun l => l ++ "\n".toList)).flatten

/-- The line `wire_poke <name> <value>` without its newline. -/
def wire_poke_line (chisel_name value_int : List Char) : List Char :=
  "wire_poke ".toList ++ chisel_name ++ " ".toList ++ value_int

/-- Spec of the step script for one cycle: one `wire_poke` line for each enumerated signal
whose canonical name is in the poke set, in enumeration order, then the line `step 1`. -/
def cycle_lines (should_poke : name_set) (c : cycle) : List (List Char) :=
  (c.filter (fun nv => decide (chisel_name_of nv.1 ∈ should_poke))).map
      (fun nv => wire_poke_line (chisel_name_of nv.1) (decimal_of nv.2))
    ++ ["step 1".toList]

/-- Spec: the observations the harness tool tracks, in trace order (cycle order, then
enumeration order): canonical name and value of every enumerated signal whose canonical name
is in the poke-or-peek set. -/
def observations (should_poke_or_peek : name_set) (trace : vcd) :
    List (List Char × List Char) :=
  (trace.flatten.filter (fun nv => decide (verilog_name_of nv.1 ∈ should_poke_or_peek))).map
    (fun nv => (verilog_name_of nv.1, nv.2))

/-- Spec: the lines of `<n>.dat` after a list of observations: the hexadecimal value of
every observation of `n`, in order. -/
def dat_lines (os : List (List Char × List Char)) (n : List Char) : List (List Char) :=
  (os.filter (fun o => decide (o.1 = n))).map (fun o => hex_of o.2)

/-- The path `<dir>/<n>.dat`. -/
def dat_path (dir n : List Char) : List Char :=
  dir ++ "/".toList ++ n ++ ".dat".toList

/-- The path `<dir>/<class_name>_vcd2verilog.v` of the harness file. -/
def harness_path (dir class_name : List Char) : List Char :=
  dir ++ "/".toList ++ class_name ++ "_vcd2verilog.v".toList

/-- Spec: the signal records after a list of observations: one record per name, in the order
of the first observations, with the width taken from the first observed value; `seen` are the
names that already have a record. -/
def first_records (seen : List (List Char)) :
    List (List Char × List Char) → List generic_signal
  | [] => []
  | (n, v) :: os =>
    if n ∈ seen then first_records seen os
    else generic_signal.mk ((v.length : Int) - 1) n :: first_records (n :: seen) os

/-- The state of phase 1 after the observations `os`: each observed name has its file, with
its path and its lines, no other name has one, and the records are those of the first
observations. -/
def phase1_state (dir : List Char) (st : harness_state) (os : List (List Char × List Char)) :
    Prop :=
  (∀ n, find st.signal2file n
      = if n ∈ os.map Prod.fst then some (some ⟨dat_path dir n, unlines (dat_lines os n)⟩)
        else none)
    ∧ st.signals = first_records [] os

/-- What holds of the two containers in every state of phase 1, also one in which the run
stops: the keys of the map are the names among the observations `os` taken up so far, and the
records are those of the first observations. -/
def records_state (st : harness_state) (os : List (List Char × List Char)) : Prop :=
  (∀ n, (∃ file, find st.signal2file n = some file) ↔ n ∈ os.map Prod.fst)
    ∧ st.signals = first_records [] os

/-- Every name among the observations `os` has a stream in the map, and something has been
written to it. -/
def written_state (st : harness_state) (os : List (List Char × List Char)) : Prop :=
  ∀ n ∈ os.map Prod.fst, ∃ file, find st.signal2file n = some (some file) ∧ file.data ≠ []

/-- The state in which a run of phase 1 ends or stops. -/
def final_state : Except (Fault × harness_state) harness_state → harness_state
  | Except.ok st => st
  | Except.error (_, st) => st


/-- The poke assignment of the signal `n`, without its newline. -/
def poke_line (n : List Char) : List Char :=
  "      ".toList ++ n ++ " <= __list__".toList ++ n ++ "[cycle];".toList

/-- The two lines of the compare of the signal `n`, without their newlines. -/
def compare_lines (n : List Char) : List (List Char) :=
  ["      if (".toList ++ n ++ " != __list__".toList ++ n ++ "[cycle])".toList,
    "        failed <= 1'b1;".toList]

/-- Spec: the signal records that are driven, those whose name is in the poke set. -/
def poked (should_poke : name_set) (signals : List generic_signal) : List generic_signal :=
  signals.filter (fun s => decide (s.name ∈ should_poke))

/-- Spec: the signal records that are checked, those whose name is not in the poke set. -/
def compared (should_poke : name_set) (signals : List generic_signal) : List generic_signal :=
  signals.filter (fun s => decide (s.name ∉ should_poke))

/-- Spec: the poke assignments of the clocked process, one per driven record, in the order
of the records. -/
def poke_lines (should_poke : name_set) (signals : List generic_signal) : List (List Char) :=
  (poked should_poke signals).map (fun s => poke_line s.name)

/-- Spec: the compares of the clocked process, one per checked record, in the order of the
records. -/
def compare_blocks (should_poke : name_set) (signals : List generic_signal) :
    List (List Char) :=
  ((compared should_poke signals).map (fun s => compare_lines s.name)).flatten

/-- Spec: the lines of the clocked poke/compare process. -/
def process_lines (should_poke : name_set) (signals : List generic_signal) :
    List (List Char) :=
  ["  always @(posedge clk)".toList, "    begin".toList, "      reset <= 1'b0;".toList]
    ++ poke_lines should_poke signals ++ compare_blocks should_poke signals
    ++ ["    end".toList]

/-! ## Worked examples of the specification -/

/-- The operation list of the worked example of C5. -/
def example_operations : List operation :=
  [⟨opcode.IN, "a".toList⟩, ⟨opcode.OUT, "b".toList⟩, ⟨opcode.IN, "c".toList⟩]

/-- The trace of the worked example of C6: two cycles, one signal going from `b0` to `b1`. -/
def example_toggle : vcd :=
  [[("top::in".toList, "b0".toList)], [("top::in".toList, "b1".toList)]]

/-- A one-cycle trace with an input, an output and an internal signal. -/
def example_cycle : vcd :=
  [[("top::in".toList, "b1".toList), ("top::out".toList, "b1010".toList),
    ("top::tmp".toList, "b0".toList)]]

/-- The operations of the worked example of C8: one input and one output. -/
def example_in_out : List operation :=
  [⟨opcode.IN, "top::in".toList⟩, ⟨opcode.OUT, "top::out".toList⟩]


/-- The harness file of the worked example of C8. -/
def example_harness : List Char :=
  ("// Auto-Generated by vcd2verilog\n" ++
   "module Top_vcd2verilog;\n" ++
   "  reg clk = 0;\n" ++
   "  reg in;\n" ++
   "  reg [3:0] out;\n" ++
   "  reg __list__in [0:`CYCLE_MAX];\n" ++
   "  reg [3:0] __list__out [0:`CYCLE_MAX];\n" ++
   "  Top Top\n" ++
   "  (\n" ++
   "    .in (in),\n" ++
   "    .out (out),\n" ++
   "  );\n" ++
   "  initial begin\n" ++
   "  end\n" ++
   "  initial begin\n" ++
   "    //$vcdpluson;\n" ++
   "    $readmemh(\"@@TEST_BASE_DIR@@/in.dat\", in);\n" ++
   "    $readmemh(\"@@TEST_BASE_DIR@@/out.dat\", out);\n" ++
   "  end\n" ++
   "  reg [31:0] cycle = 0;\n" ++
   "  reg failed = 0;\n" ++
   "  always @(posedge clk);\n" ++
   "    begin\n" ++
   "      cycle <= cycle + 1;\n" ++
   "      if (cycle > `CYCLE_MAX)\n" ++
   "        begin\n" ++
   "          $display(\"*** PASSED TEST ***\");\n" ++
   "          //$vcdplusoff;\n" ++
   "          $finish;\n" ++
   "        end\n" ++
   "      else if (failed)\n" ++
   "        begin\n" ++
   "          $display(\"*** FAILED TEST ***\");\n" ++
   "          $finish;\n" ++
   "        end\n" ++
   "      end\n" ++
   "  always @(posedge clk)\n" ++
   "    begin\n" ++
   "      reset <= 1'b0;\n" ++
   "      in <= __list__in[cycle];\n" ++
   "      if (out != __list__out[cycle])\n" ++
   "        failed <= 1'b1;\n" ++
   "    end\n" ++
   "endmodule\n").toList


/-- The lines of a text: the pieces closed by a newline, in order, and a last unclosed
piece when there is one; `cur` is the piece being read. -/
def split_lines_from (cur : List Char) : List Char → List (List Char)
  | [] => if cur = [] then [] else [cur]
  | c :: cs => if c = '\n' then cur :: split_lines_from [] cs else split_lines_from (cur ++ [c]) cs

/-- The lines of a text. -/
def split_lines (text : List Char) : List (List Char) := split_lines_from [] text

/-! ## Specification-side functions for the further claims -/

/-- Spec: the value that a cycle shows for the canonical name `n`: the bit-string of the
first enumerated signal whose canonical name is `n` (empty when there is none). -/
def value_in (n : List Char) : cycle → List Char
  | [] => []
  | nv :: rest => if verilog_name_of nv.1 = n then nv.2 else value_in n rest

/-- A one-cycle trace in which a signal `b` of a submodule `a` and a top-level signal `a_b`
have the same canonical name `a_b`. -/
def example_collision : vcd :=
  [[("top::a::b".toList, "b1".toList), ("top::a_b".toList, "b0".toList)]]

/-- Spec: the register declaration of a signal record, without its newline: scalar when the
recorded width is 1, else a vector `[width-1:0]`. -/
def reg_line (s : generic_signal) : List Char :=
  if s.width = 1 then "  reg ".toList ++ s.name ++ ";".toList
  else "  reg [".toList ++ fmt_d (s.width - 1) ++ ":0] ".toList ++ s.name ++ ";".toList

/-- Spec: the preload array declaration of a signal record, without its newline, with the
same scalar/vector rule. -/
def list_line (s : generic_signal) : List Char :=
  if s.width = 1 then "  reg __list__".toList ++ s.name ++ " [0:`CYCLE_MAX];".toList
  else
    "  reg [".toList ++ fmt_d (s.width - 1) ++ ":0] __list__".toList ++ s.name
      ++ " [0:`CYCLE_MAX];".toList

/-- Spec: the port connection of a signal record in the module instance, without its
newline. -/
def port_line (s : generic_signal) : List Char :=
  "    .".toList ++ s.name ++ " (".toList ++ s.name ++ "),".toList

/-- The memory-preload directive that reads the file `<file>.dat` into `target`, without its
newline. -/
def readmemh_line (file target : List Char) : List Char :=
  "    $readmemh(\"@@TEST_BASE_DIR@@/".toList ++ file ++ ".dat\", ".toList ++ target
    ++ ");".toList

/-- The name of the preload array of the signal `n`. -/
def list_name (n : List Char) : List Char := "__list__".toList ++ n

/-- Segments joined by one separator character. -/
def join_with (sep : Char) : List (List Char) → List Char
  | [] => []
  | [s] => s
  | s :: t :: rest => s ++ sep :: join_with sep (t :: rest)

/-- One of the characters `0` and `1`. -/
def binary_digit (c : Char) : Bool := c = '0' ∨ c = '1'

/-- Spec: the texts that the big-integer parser accepts in base 2: optional white space, an
optional `-`, a `0` or `1`, and from there on only `0`, `1` and white space. -/
def parser_accepts (rest : List Char) : Bool :=
  let s := rest.dropWhile isspace
  let t := if s.head? = some '-' then s.drop 1 else s
  match t with
  | [] => false
  | c :: cs => binary_digit c && cs.all (fun x => binary_digit x || isspace x)

/-- Spec: the value strings on which the re-encoders return text: the marker `b` followed by
a text that the big-integer parser accepts (the value is read as a C string). -/
def value_accepted (value : List Char) : Bool :=
  match c_str value with
  | [] => false
  | c :: rest => c = 'b' && parser_accepts rest

/-- Position of the first occurrence of a name in a list of names. -/
def first_index (n : List Char) : List (List Char) → Nat
  | [] => 0
  | m :: rest => if m = n then 0 else first_index n rest + 1

/-- The bit-string of the first observation of a canonical name. -/
def first_value (n : List Char) : List (List Char × List Char) → Option (List Char)
  | [] => none
  | o :: rest => if o.1 = n then some o.2 else first_value n rest

/-! ## Auxiliary lemmas -/

theorem NUL_ne_colon : NUL ≠ ':' := by decide
theorem NUL_ne_dot : NUL ≠ '.' := by decide

theorem getElem?_at_length (pre rest : List Char) (k : Nat) :
    (pre ++ rest)[pre.length + k]? = rest[k]? := by
  rw [List.getElem?_append_right (by omega)]
  congr 1
  omega

theorem getElem?_at_length0 (pre rest : List Char) :
    (pre ++ rest)[pre.length]? = rest[0]? := by
  simpa using getElem?_at_length pre rest 0

theorem strlenFrom_append (s pad : List Char) (hs : NUL ∉ s) :
    strlenFrom (s ++ NUL :: pad) = some s.length := by
  induction s with
  | nil => simp [strlenFrom]
  | cons c cs ih =>
    simp only [List.mem_cons, not_or] at hs
    have hc : c ≠ NUL := fun h => hs.1 h.symm
    simp [strlenFrom, hc, ih hs.2]

theorem strlen_append (pre s pad : List Char) (hs : NUL ∉ s) :
    strlen (pre ++ (s ++ NUL :: pad)) pre.length = some s.length := by
  simp [strlen, strlenFrom_append s pad hs]

theorem strlen_zero (s pad : List Char) (hs : NUL ∉ s) :
    strlen (s ++ NUL :: pad) 0 = some s.length := by
  simp [strlen, strlenFrom_append s pad hs]

theorem string_at_append (pre s pad : List Char) (hs : NUL ∉ s) :
    string_at (pre ++ (s ++ NUL :: pad)) pre.length = some s := by
  simp [string_at, strlen_append pre s pad hs]

theorem squash_length_le (s : List Char) : (squash s).length ≤ s.length := by
  induction s with
  | nil => simp [squash]
  | cons c cs ih =>
    unfold squash
    split
    · simp; omega
    · simp

theorem squash_mem (s : List Char) (x : Char) (h : x ∈ squash s) : x ∈ s := by
  induction s with
  | nil => simp [squash] at h
  | cons c cs ih =>
    unfold squash at h
    split at h
    · exact List.mem_cons_of_mem _ (ih h)
    · exact h

theorem dot_runs_squash (s : List Char) : dot_runs (squash s) = dot_runs s := by
  induction s with
  | nil => rfl
  | cons c cs ih =>
    unfold squash
    split
    · rename_i h
      rw [ih]
      conv_rhs => unfold dot_runs
      simp [h.1, h.2]
    · rfl

/-- After squashing, a colon at the cursor is the last one of its run. -/
theorem squash_head (s : List Char) :
    squash s = [] ∧ s = [] ∨ ∃ c cs, squash s = c :: cs ∧ ¬ (c = ':' ∧ cs.head? = some ':') := by
  induction s with
  | nil => left; simp [squash]
  | cons c cs ih =>
    right
    unfold squash
    split
    · rename_i h
      rcases ih with ⟨_, h0⟩ | h1
      · rw [h0] at h; simp at h
      · exact h1
    · rename_i h
      exact ⟨c, cs, rfl, h⟩


theorem collapse_while_stop (fuel : Nat) (buffer : List Char) (i : Nat) (c : Char)
    (h : buffer[i]? = some c) (hc : c ≠ ':') :
    collapse_while (fuel + 1) buffer i = some buffer := by
  simp only [collapse_while, h, if_neg hc]

theorem collapse_while_last (fuel : Nat) (buffer : List Char) (i : Nat) (d : Char)
    (h : buffer[i]? = some ':') (h1 : buffer[i + 1]? = some d) (hd : d ≠ ':') :
    collapse_while (fuel + 1) buffer i = some buffer := by
  simp only [collapse_while, h, h1, if_neg hd, if_true]

theorem collapse_while_step (fuel : Nat) (buffer buffer1 : List Char) (i n : Nat)
    (h : buffer[i]? = some ':') (h1 : buffer[i + 1]? = some ':')
    (hn : strlen buffer i = some n) (hm : memmove buffer i (i + 1) n = some buffer1) :
    collapse_while (fuel + 1) buffer i = collapse_while fuel buffer1 i := by
  simp only [collapse_while, h, h1, hn, hm, if_true]

theorem memmove_shift (pre s pad : List Char) (c : Char) :
    memmove (pre ++ (c :: s ++ NUL :: pad)) pre.length (pre.length + 1) (s.length + 1)
      = some (pre ++ (s ++ NUL :: NUL :: pad)) := by
  unfold memmove
  rw [if_pos (by simp; omega)]
  congr 1
  have e1 : (pre ++ (c :: s ++ NUL :: pad)).take pre.length = pre := by simp
  have e2 : (pre ++ (c :: s ++ NUL :: pad)).drop (pre.length + 1) = s ++ NUL :: pad := by
    simp
  have e3 : (pre ++ (c :: s ++ NUL :: pad)).drop (pre.length + (s.length + 1)) = NUL :: pad := by
    rw [← List.drop_drop, List.drop_left]
    simp
  have e4 : (s ++ NUL :: pad).take (s.length + 1) = s ++ [NUL] := by
    rw [List.take_append_eq_append_take]
    simp
  rw [e1, e2, e3, e4]
  simp

theorem collapse_while_spec (fuel : Nat) : ∀ (s pre pad : List Char), NUL ∉ s → s.length < fuel →
    ∃ pad1, collapse_while fuel (pre ++ (s ++ NUL :: pad)) pre.length
      = some (pre ++ (squash s ++ NUL :: pad1)) := by
  induction fuel with
  | zero => intro s pre pad _ h; omega
  | succ fuel ih =>
    intro s pre pad hs hlen
    cases s with
    | nil =>
      refine ⟨pad, ?_⟩
      exact collapse_while_stop fuel _ _ NUL (by rw [getElem?_at_length0]; simp) NUL_ne_colon
    | cons c cs =>
      simp only [List.mem_cons, not_or] at hs
      have h0 : (pre ++ (c :: cs ++ NUL :: pad))[pre.length]? = some c := by
        rw [getElem?_at_length0]; simp
      by_cases hc : c = ':'
      · subst hc
        cases cs with
        | nil =>
          refine ⟨pad, ?_⟩
          exact collapse_while_last fuel _ _ NUL h0 (by rw [getElem?_at_length]; simp) NUL_ne_colon
        | cons d ds =>
          have h1 : (pre ++ (':' :: d :: ds ++ NUL :: pad))[pre.length + 1]? = some d := by
            rw [getElem?_at_length]; simp
          by_cases hd : d = ':'
          · subst hd
            obtain ⟨pad1, h2⟩ := ih (':' :: ds) pre (NUL :: pad) hs.2
              (by simp only [List.length_cons] at hlen ⊢; omega)
            refine ⟨pad1, ?_⟩
            have hstr := strlen_append pre (':' :: ':' :: ds) pad (by simpa using hs)
            have hmv := memmove_shift pre (':' :: ds) pad ':'
            rw [collapse_while_step fuel _ _ _ _ h0 h1 hstr hmv, h2]
            simp [squash]
          · refine ⟨pad, ?_⟩
            rw [collapse_while_last fuel _ _ d h0 h1 hd]
            simp [squash, hd]
      · refine ⟨pad, ?_⟩
        rw [collapse_while_stop fuel _ _ c h0 hc]
        simp [squash, hc]


theorem store_at_length (pre rest : List Char) (c d : Char) :
    store (pre ++ c :: rest) pre.length d = some (pre ++ d :: rest) := by
  unfold store
  rw [if_pos (by simp)]
  simp

theorem collapse_for_exit (fuel : Nat) (buffer : List Char) (i len : Nat)
    (hn : strlen buffer 0 = some len) (hi : ¬ i < len) :
    collapse_for (fuel + 1) buffer i = some buffer := by
  simp only [collapse_for, hn, if_neg hi]

theorem collapse_for_colon (fuel : Nat) (buffer buffer1 buffer2 : List Char) (i len : Nat)
    (hn : strlen buffer 0 = some len) (hi : i < len)
    (hw : collapse_while (buffer.length + 1) buffer i = some buffer1)
    (hc : buffer1[i]? = some ':') (hs : store buffer1 i '.' = some buffer2) :
    collapse_for (fuel + 1) buffer i = collapse_for fuel buffer2 (i + 1) := by
  simp only [collapse_for, hn, if_pos hi, hw, hc, hs, if_true]

theorem collapse_for_other (fuel : Nat) (buffer buffer1 : List Char) (i len : Nat) (c : Char)
    (hn : strlen buffer 0 = some len) (hi : i < len)
    (hw : collapse_while (buffer.length + 1) buffer i = some buffer1)
    (hc : buffer1[i]? = some c) (hne : c ≠ ':') :
    collapse_for (fuel + 1) buffer i = collapse_for fuel buffer1 (i + 1) := by
  simp only [collapse_for, hn, if_pos hi, hw, hc, if_neg hne]

theorem strlen_whole (pre s pad : List Char) (hp : NUL ∉ pre) (hs : NUL ∉ s) :
    strlen (pre ++ (s ++ NUL :: pad)) 0 = some (pre.length + s.length) := by
  have := strlen_zero (pre ++ s) pad (by simp [hp, hs])
  simpa using this

theorem collapse_for_spec (fuel : Nat) : ∀ (s pre pad : List Char), NUL ∉ pre → NUL ∉ s →
    s.length < fuel →
    ∃ pad1, collapse_for fuel (pre ++ (s ++ NUL :: pad)) pre.length
      = some (pre ++ (dot_runs s ++ NUL :: pad1)) := by
  induction fuel with
  | zero => intro s pre pad _ _ h; omega
  | succ fuel ih =>
    intro s pre pad hp hs hlen
    have hn := strlen_whole pre s pad hp hs
    cases hs0 : s with
    | nil =>
      subst hs0
      refine ⟨pad, ?_⟩
      rw [collapse_for_exit fuel _ _ _ hn (by simp)]
      simp [dot_runs]
    | cons a as =>
      have hi : pre.length < pre.length + s.length := by rw [hs0]; simp
      obtain ⟨pad1, hw⟩ := collapse_while_spec ((pre ++ (s ++ NUL :: pad)).length + 1) s pre pad hs
        (by simp; omega)
      rcases squash_head s with ⟨_, h0⟩ | ⟨c, cs, hsq, hlast⟩
      · rw [hs0] at h0; cases h0
      · have hcs : NUL ∉ cs := fun h =>
          hs (squash_mem s NUL (by rw [hsq]; exact List.mem_cons_of_mem _ h))
        have hc0 : NUL ≠ c := fun h =>
          hs (squash_mem s NUL (by rw [hsq, h]; exact List.mem_cons_self _ _))
        have hlen2 : cs.length < fuel := by
          have := squash_length_le s
          rw [hsq] at this
          simp only [List.length_cons] at this
          omega
        rw [hsq] at hw
        have hget : (pre ++ (c :: cs ++ NUL :: pad1))[pre.length]? = some c := by
          rw [getElem?_at_length0]; simp
        rw [← hs0, ← dot_runs_squash s, hsq]
        by_cases hc : c = ':'
        · subst hc
          have hst := store_at_length pre (cs ++ NUL :: pad1) ':' '.'
          obtain ⟨pad2, h2⟩ := ih cs (pre ++ ['.']) pad1 (by simp [hp, NUL_ne_dot]) hcs hlen2
          refine ⟨pad2, ?_⟩
          rw [collapse_for_colon fuel _ _ _ _ _ hn hi hw hget hst]
          have hhd : ¬ cs.head? = some ':' := fun h => hlast ⟨rfl, h⟩
          simp only [List.length_append, List.length_singleton, List.append_assoc,
            List.singleton_append] at h2
          rw [h2]
          simp [dot_runs, hhd]
        · obtain ⟨pad2, h2⟩ := ih cs (pre ++ [c]) pad1 (by simp [hp, hc0]) hcs hlen2
          refine ⟨pad2, ?_⟩
          rw [collapse_for_other fuel _ _ _ _ c hn hi hw hget hc]
          simp only [List.length_append, List.length_singleton, List.append_assoc,
            List.singleton_append] at h2
          have e : pre ++ (c :: cs ++ NUL :: pad1) = pre ++ c :: (cs ++ NUL :: pad1) := by simp
          rw [e, h2]
          simp [dot_runs, hc]

theorem c_str_not_mem (s : List Char) : NUL ∉ c_str s := by
  induction s with
  | nil => simp [c_str]
  | cons c cs ih =>
    unfold c_str
    split
    · simp
    · rename_i h
      simp only [List.mem_cons, not_or]
      exact ⟨fun e => h e.symm, ih⟩

theorem c_str_length_le (s : List Char) : (c_str s).length ≤ s.length := by
  induction s with
  | nil => simp [c_str]
  | cons c cs ih =>
    unfold c_str
    split <;> simp
    omega

theorem c_str_of_not_mem (s : List Char) (h : NUL ∉ s) : c_str s = s := by
  induction s with
  | nil => rfl
  | cons c cs ih =>
    simp only [List.mem_cons, not_or] at h
    have hc : c ≠ NUL := fun e => h.1 e.symm
    simp [c_str, hc, ih h.2]

theorem strncpy_nil (n : Nat) : strncpy n [] = List.replicate n NUL := by
  induction n with
  | zero => rfl
  | succ n ih => simp [strncpy, ih, List.replicate_succ]

theorem strncpy_spec (n : Nat) : ∀ (src : List Char), (c_str src).length < n →
    strncpy n src = c_str src ++ NUL :: List.replicate (n - (c_str src).length - 1) NUL := by
  induction n with
  | zero => intro src h; omega
  | succ n ih =>
    intro src h
    cases src with
    | nil => simp [strncpy, c_str, strncpy_nil]
    | cons c cs =>
      by_cases hc : c = NUL
      · simp [strncpy, c_str, hc, strncpy_nil]
      · simp only [c_str, if_neg hc, List.length_cons] at h
        simp only [strncpy, c_str, if_neg hc, List.length_cons, List.cons_append]
        rw [ih cs (by omega)]
        have e : n + 1 - ((c_str cs).length + 1) - 1 = n - (c_str cs).length - 1 := by omega
        rw [e]

theorem strncpy_length (n : Nat) : ∀ (src : List Char), (strncpy n src).length = n := by
  induction n with
  | zero => intro src; rfl
  | succ n ih =>
    intro src
    cases src with
    | nil => simp [strncpy, ih]
    | cons c cs =>
      by_cases hc : c = NUL <;> simp [strncpy, hc, ih]

theorem dot_runs_mem (s : List Char) (x : Char) (h : x ∈ dot_runs s) : x ∈ s ∨ x = '.' := by
  induction s with
  | nil => simp [dot_runs] at h
  | cons c cs ih =>
    unfold dot_runs at h
    split at h
    · split at h
      · rcases ih h with h1 | h1
        · exact Or.inl (List.mem_cons_of_mem _ h1)
        · exact Or.inr h1
      · rcases List.mem_cons.1 h with h1 | h1
        · exact Or.inr h1
        · rcases ih h1 with h2 | h2
          · exact Or.inl (List.mem_cons_of_mem _ h2)
          · exact Or.inr h2
    · rcases List.mem_cons.1 h with h1 | h1
      · exact Or.inl (by rw [h1]; exact List.mem_cons_self _ _)
      · rcases ih h1 with h2 | h2
        · exact Or.inl (List.mem_cons_of_mem _ h2)
        · exact Or.inr h2

theorem dot_runs_length_le (s : List Char) : (dot_runs s).length ≤ s.length := by
  induction s with
  | nil => simp [dot_runs]
  | cons c cs ih =>
    unfold dot_runs
    split
    · split
      · simp only [List.length_cons]; omega
      · simp only [List.length_cons]; omega
    · simp only [List.length_cons]; omega

theorem dot_runs_no_colon (s : List Char) : ':' ∉ dot_runs s := by
  induction s with
  | nil => simp [dot_runs]
  | cons c cs ih =>
    unfold dot_runs
    split
    · split
      · exact ih
      · simp only [List.mem_cons, not_or]
        exact ⟨by decide, ih⟩
    · rename_i h
      simp only [List.mem_cons, not_or]
      exact ⟨fun e => h e.symm, ih⟩

theorem dot_runs_of_no_colon (s : List Char) (h : ':' ∉ s) : dot_runs s = s := by
  induction s with
  | nil => rfl
  | cons c cs ih =>
    simp only [List.mem_cons, not_or] at h
    have hc : c ≠ ':' := fun e => h.1 e.symm
    simp [dot_runs, hc, ih h.2]

theorem dot_runs_no_NUL (s : List Char) (h : NUL ∉ s) : NUL ∉ dot_runs s := by
  intro hm
  rcases dot_runs_mem s NUL hm with h1 | h1
  · exact h h1
  · exact NUL_ne_dot h1

/-- On a name whose C string fits the buffer, `vcd2chisel` returns the C string
with every run of colons turned into one period. -/
theorem vcd2chisel_eq (LINE_MAX : Nat) (vcd_name : List Char)
    (h : (c_str vcd_name).length < LINE_MAX) :
    vcd2chisel LINE_MAX vcd_name = some (dot_runs (c_str vcd_name)) := by
  unfold vcd2chisel
  simp only []
  rw [strncpy_spec LINE_MAX vcd_name h]
  obtain ⟨pad1, h1⟩ := collapse_for_spec (LINE_MAX + 1) (c_str vcd_name) [] _
    (by simp) (c_str_not_mem _) (by omega)
  simp only [List.nil_append, List.length_nil] at h1
  rw [h1]
  simp only []
  have := string_at_append [] (dot_runs (c_str vcd_name)) pad1
    (dot_runs_no_NUL _ (c_str_not_mem _))
  simpa using this


theorem NUL_ne_underscore : NUL ≠ '_' := by decide

theorem before_dot_append_after_dot (s : List Char) (h : '.' ∈ s) :
    before_dot s ++ '.' :: after_dot s = s := by
  induction s with
  | nil => simp at h
  | cons c cs ih =>
    by_cases hc : c = '.'
    · simp [before_dot, after_dot, hc]
    · have hm : '.' ∈ cs := by
        rcases List.mem_cons.1 h with e | e
        · exact absurd e.symm hc
        · exact e
      simp [before_dot, after_dot, hc, ih hm]

theorem strstrFrom_spec (s pad : List Char) (hs : NUL ∉ s) :
    strstrFrom (s ++ NUL :: pad)
      = some (if '.' ∈ s then some (before_dot s).length else none) := by
  induction s with
  | nil => simp [strstrFrom]
  | cons c cs ih =>
    simp only [List.mem_cons, not_or] at hs
    have hc : c ≠ NUL := fun e => hs.1 e.symm
    by_cases hd : c = '.'
    · subst hd
      simp [strstrFrom, hc, before_dot]
    · have hd2 : ¬ '.' = c := fun e => hd e.symm
      have e : strstrFrom (c :: cs ++ NUL :: pad)
          = (strstrFrom (cs ++ NUL :: pad)).map (fun r => r.map (· + 1)) := by
        rw [List.cons_append]
        simp only [strstrFrom, if_neg hc, if_neg hd]
      rw [e, ih hs.2]
      by_cases hm : '.' ∈ cs
      · simp [hm, hd2, hd, before_dot]
      · simp [hm, hd2]

theorem flatten_for_exit (fuel : Nat) (buffer : List Char) (p i len : Nat)
    (hn : strlen buffer p = some len) (hi : ¬ i < len) :
    flatten_for (fuel + 1) buffer p i = some buffer := by
  simp only [flatten_for, hn, if_neg hi]

theorem flatten_for_dot (fuel : Nat) (buffer buffer1 : List Char) (p i len : Nat)
    (hn : strlen buffer p = some len) (hi : i < len)
    (hc : buffer[p + i]? = some '.') (hs : store buffer (p + i) '_' = some buffer1) :
    flatten_for (fuel + 1) buffer p i = flatten_for fuel buffer1 p (i + 1) := by
  simp only [flatten_for, hn, if_pos hi, hc, hs, if_true]

theorem flatten_for_other (fuel : Nat) (buffer : List Char) (p i len : Nat) (c : Char)
    (hn : strlen buffer p = some len) (hi : i < len)
    (hc : buffer[p + i]? = some c) (hne : c ≠ '.') :
    flatten_for (fuel + 1) buffer p i = flatten_for fuel buffer p (i + 1) := by
  simp only [flatten_for, hn, if_pos hi, hc, if_neg hne]

theorem flatten_for_spec (fuel : Nat) : ∀ (s pre done pad : List Char), NUL ∉ done → NUL ∉ s →
    s.length < fuel →
    flatten_for fuel (pre ++ (done ++ (s ++ NUL :: pad))) pre.length done.length
      = some (pre ++ (done ++ (s.map underscore ++ NUL :: pad))) := by
  induction fuel with
  | zero => intro s pre done pad _ _ h; omega
  | succ fuel ih =>
    intro s pre done pad hd hs hlen
    have hn : strlen (pre ++ (done ++ (s ++ NUL :: pad))) pre.length
        = some (done.length + s.length) := by
      have := strlen_append pre (done ++ s) pad (by simp [hd, hs])
      simpa using this
    cases s with
    | nil =>
      rw [flatten_for_exit fuel _ _ _ _ hn (by simp)]
      simp
    | cons c cs =>
      simp only [List.mem_cons, not_or] at hs
      have hi : done.length < done.length + (c :: cs).length := by simp
      have hget : (pre ++ (done ++ (c :: cs ++ NUL :: pad)))[pre.length + done.length]? = some c := by
        have := getElem?_at_length0 (pre ++ done) (c :: cs ++ NUL :: pad)
        simpa using this
      have hlen2 : cs.length < fuel := by simp only [List.length_cons] at hlen; omega
      by_cases hc : c = '.'
      · subst hc
        have hst : store (pre ++ (done ++ ('.' :: cs ++ NUL :: pad))) (pre.length + done.length) '_'
            = some (pre ++ (done ++ ('_' :: cs ++ NUL :: pad))) := by
          have := store_at_length (pre ++ done) (cs ++ NUL :: pad) '.' '_'
          simpa using this
        rw [flatten_for_dot fuel _ _ _ _ _ hn hi hget hst]
        have h2 := ih cs pre (done ++ ['_']) pad (by simp [hd, NUL_ne_underscore]) hs.2 hlen2
        simp only [List.length_append, List.length_singleton, List.append_assoc,
          List.singleton_append] at h2
        simp only [List.cons_append]
        rw [h2]
        simp [underscore]
      · rw [flatten_for_other fuel _ _ _ _ c hn hi hget hc]
        have h2 := ih cs pre (done ++ [c]) pad (by simp [hd, hs.1]) hs.2 hlen2
        simp only [List.length_append, List.length_singleton, List.append_assoc,
          List.singleton_append] at h2
        simp only [List.cons_append]
        rw [h2]
        simp [underscore, hc]

theorem underscore_ne_NUL (s : List Char) (h : NUL ∉ s) : NUL ∉ s.map underscore := by
  intro hm
  obtain ⟨c, hc, he⟩ := List.mem_map.1 hm
  unfold underscore at he
  split at he
  · exact NUL_ne_underscore he.symm
  · exact h (he ▸ hc)

theorem map_underscore_of_no_dot (s : List Char) (h : '.' ∉ s) : s.map underscore = s := by
  induction s with
  | nil => rfl
  | cons c cs ih =>
    simp only [List.mem_cons, not_or] at h
    have hc : c ≠ '.' := fun e => h.1 e.symm
    simp [underscore, hc]
    simpa [underscore] using ih h.2

/-- On a name whose C string fits the buffer, `vcd2name` returns the flattening of
the dotted form of the C string. -/
theorem vcd2name_eq (LINE_MAX : Nat) (vcd_name : List Char)
    (h : (c_str vcd_name).length < LINE_MAX) :
    vcd2name LINE_MAX vcd_name = some (flatten (dot_runs (c_str vcd_name))) := by
  unfold vcd2name
  simp only []
  rw [strncpy_spec LINE_MAX vcd_name h]
  obtain ⟨pad1, h1⟩ := collapse_for_spec (LINE_MAX + 1) (c_str vcd_name) [] _
    (by simp) (c_str_not_mem _) (by omega)
  simp only [List.nil_append, List.length_nil] at h1
  rw [h1]
  simp only []
  have hno : NUL ∉ dot_runs (c_str vcd_name) := dot_runs_no_NUL _ (c_str_not_mem _)
  have hlen : (dot_runs (c_str vcd_name)).length < LINE_MAX :=
    Nat.lt_of_le_of_lt (dot_runs_length_le _) h
  generalize dot_runs (c_str vcd_name) = d at hno hlen ⊢
  rw [strstr_dot, strstrFrom_spec d pad1 hno]
  simp only []
  by_cases hm : '.' ∈ d
  · rw [if_pos hm]
    simp only []
    have hsplit := before_dot_append_after_dot d hm
    have hno2 : NUL ∉ before_dot d ++ ['.'] ∧ NUL ∉ after_dot d := by
      rw [← hsplit] at hno
      simp only [List.mem_append, List.mem_cons, not_or] at hno
      simp [hno.1, hno.2.1, hno.2.2]
    have hlen2 : (after_dot d).length < LINE_MAX + 1 := by
      have : (before_dot d ++ '.' :: after_dot d).length = d.length := by rw [hsplit]
      simp only [List.length_append, List.length_cons] at this
      omega
    have hf := flatten_for_spec (LINE_MAX + 1) (after_dot d) (before_dot d ++ ['.']) [] pad1
      (by simp) hno2.2 hlen2
    simp only [List.length_append, List.length_singleton, List.append_assoc,
      List.singleton_append, List.nil_append, List.length_nil] at hf
    have hs2 : string_at (before_dot d ++ '.' :: (List.map underscore (after_dot d) ++ NUL :: pad1))
        ((before_dot d).length + 1) = some ((after_dot d).map underscore) := by
      have := string_at_append (before_dot d ++ ['.']) ((after_dot d).map underscore) pad1
        (underscore_ne_NUL _ hno2.2)
      simpa using this
    have e : d ++ NUL :: pad1 = before_dot d ++ '.' :: (after_dot d ++ NUL :: pad1) := by
      conv_lhs => rw [← hsplit]
      simp
    rw [e, hf]
    simp only []
    rw [hs2, flatten, if_pos hm]
  · rw [if_neg hm]
    simp only []
    have := flatten_for_spec (LINE_MAX + 1) d [] [] pad1 (by simp) hno (by omega)
    simp only [List.nil_append, List.length_nil] at this
    rw [this]
    simp only []
    rw [map_underscore_of_no_dot d hm]
    have := string_at_append [] d pad1 hno
    simp only [List.nil_append, List.length_nil] at this
    rw [this, flatten, if_neg hm]


theorem after_dot_mem (s : List Char) (x : Char) (h : x ∈ after_dot s) : x ∈ s := by
  induction s with
  | nil => simp [after_dot] at h
  | cons c cs ih =>
    unfold after_dot at h
    split at h
    · exact List.mem_cons_of_mem _ h
    · exact List.mem_cons_of_mem _ (ih h)

theorem after_dot_length_le (s : List Char) : (after_dot s).length ≤ s.length := by
  induction s with
  | nil => simp [after_dot]
  | cons c cs ih =>
    unfold after_dot
    split <;> simp only [List.length_cons] <;> omega

theorem map_underscore_no_dot (s : List Char) : '.' ∉ s.map underscore := by
  intro hm
  obtain ⟨c, _, he⟩ := List.mem_map.1 hm
  unfold underscore at he
  split at he
  · exact absurd he (by decide)
  · rename_i h
    exact h he

theorem map_underscore_mem (s : List Char) (x : Char) (h : x ∈ s.map underscore) :
    x ∈ s ∨ x = '_' := by
  obtain ⟨c, hc, he⟩ := List.mem_map.1 h
  unfold underscore at he
  split at he
  · exact Or.inr he.symm
  · exact Or.inl (he ▸ hc)

theorem flatten_no_dot (s : List Char) : '.' ∉ flatten s := by
  unfold flatten
  split
  · exact map_underscore_no_dot _
  · assumption

theorem flatten_mem (s : List Char) (x : Char) (h : x ∈ flatten s) : x ∈ s ∨ x = '_' := by
  unfold flatten at h
  split at h
  · rcases map_underscore_mem _ x h with h1 | h1
    · exact Or.inl (after_dot_mem s x h1)
    · exact Or.inr h1
  · exact Or.inl h

theorem flatten_length_le (s : List Char) : (flatten s).length ≤ s.length := by
  unfold flatten
  split
  · simpa using after_dot_length_le s
  · exact Nat.le_refl _

theorem flatten_of_no_dot (s : List Char) (h : '.' ∉ s) : flatten s = s := by
  rw [flatten, if_neg h]

theorem splitBy_loop_eq {α : Type} (R : α → α → Bool) (l : List α) :
    ∀ (a : α) (g : List α) (gs : List (List α)),
    List.splitBy.loop R l a g gs
      = gs.reverse ++ push_group g.reverse (List.splitBy.loop R l a [] []) := by
  induction l with
  | nil => intro a g gs; simp [List.splitBy.loop, push_group]
  | cons b l ih =>
    intro a g gs
    cases hR : R a b with
    | true =>
      simp only [List.splitBy.loop, hR]
      rw [ih b (a :: g) gs, ih b [a] []]
      cases List.splitBy.loop R l b [] [] with
      | nil => simp [push_group]
      | cons h t => simp [push_group]
    | false =>
      simp only [List.splitBy.loop, hR]
      rw [ih b [] ((a :: g).reverse :: gs), ih b [] [[a].reverse]]
      cases List.splitBy.loop R l b [] [] with
      | nil => simp [push_group]
      | cons h t => simp [push_group]

theorem splitBy_cons_cons {α : Type} (R : α → α → Bool) (a b : α) (l : List α) :
    (a :: b :: l).splitBy R
      = if R a b then push_group [a] ((b :: l).splitBy R) else [a] :: (b :: l).splitBy R := by
  cases hR : R a b with
  | true =>
    simp only [List.splitBy, List.splitBy.loop, hR, if_true]
    rw [splitBy_loop_eq R l b [a] []]
    simp
  | false =>
    simp only [List.splitBy, List.splitBy.loop, hR]
    rw [splitBy_loop_eq R l b [] [[a].reverse]]
    cases h : List.splitBy.loop R l b [] [] with
    | nil => simp [push_group]
    | cons h t => simp [push_group]

theorem splitBy_singleton {α : Type} (R : α → α → Bool) (a : α) : [a].splitBy R = [[a]] := by
  simp [List.splitBy, List.splitBy.loop]

theorem splitBy_head_head {α : Type} (R : α → α → Bool) (b : α) (l : List α) :
    ∃ h t, (b :: l).splitBy R = (b :: h) :: t := by
  induction l generalizing b with
  | nil => exact ⟨[], [], splitBy_singleton R b⟩
  | cons c l ih =>
    obtain ⟨h, t, e⟩ := ih c
    rw [splitBy_cons_cons, e]
    cases R b c with
    | true => exact ⟨c :: h, t, by simp [push_group]⟩
    | false => exact ⟨[], (c :: h) :: t, by simp⟩

theorem dot_runs_eq_replace_runs (name : List Char) : dot_runs name = replace_runs name := by
  induction name with
  | nil => simp [dot_runs, replace_runs]
  | cons a l ih =>
    cases l with
    | nil =>
      by_cases ha : a = ':'
      · simp [dot_runs, replace_runs, splitBy_singleton, ha]
      · have : ¬ ':' = a := fun e => ha e.symm
        simp [dot_runs, replace_runs, splitBy_singleton, ha, this]
    | cons b l =>
      obtain ⟨h, t, e⟩ := splitBy_head_head same_run b l
      unfold replace_runs at ih ⊢
      rw [splitBy_cons_cons, e]
      rw [e] at ih
      unfold dot_runs
      rw [ih]
      by_cases ha : a = ':'
      · by_cases hb : b = ':'
        · simp [same_run, ha, hb, push_group]
        · have : ¬ ':' = b := fun e => hb e.symm
          simp [same_run, ha, hb, push_group]
      · have : ¬ ':' = a := fun e => ha e.symm
        simp [same_run, ha, push_group, this]


theorem c_str_mem (s : List Char) (x : Char) (h : x ∈ c_str s) : x ∈ s := by
  induction s with
  | nil => simp [c_str] at h
  | cons c cs ih =>
    unfold c_str at h
    split at h
    · simp at h
    · rcases List.mem_cons.1 h with h1 | h1
      · rw [h1]; exact List.mem_cons_self _ _
      · exact List.mem_cons_of_mem _ (ih h1)

theorem length_lt_of_c_str (LINE_MAX : Nat) (name : List Char) (h : name.length < LINE_MAX) :
    (c_str name).length < LINE_MAX :=
  Nat.lt_of_le_of_lt (c_str_length_le name) h


/-! ### The big-integer model -/

theorem toDigitsCore_append (b : Nat) (fuel : Nat) : ∀ (n : Nat) (ds : List Char),
    Nat.toDigitsCore b fuel n ds = Nat.toDigitsCore b fuel n [] ++ ds := by
  induction fuel with
  | zero => intro n ds; simp [Nat.toDigitsCore]
  | succ fuel ih =>
    intro n ds
    simp only [Nat.toDigitsCore]
    split
    · simp
    · rw [ih (n / b) (Nat.digitChar (n % b) :: ds), ih (n / b) [Nat.digitChar (n % b)]]
      simp

theorem read_digit_digitChar (k : Nat) (hk : k < 16) : read_digit (Nat.digitChar k) = some k := by
  interval_cases k <;> decide

theorem read_numeral_from_append (base : Nat) (s t : List Char) : ∀ (acc v : Nat),
    read_numeral_from base s acc = some v →
    read_numeral_from base (s ++ t) acc = read_numeral_from base t v := by
  induction s with
  | nil =>
    intro acc v h
    simp only [read_numeral_from, Option.some.injEq] at h
    simp [h]
  | cons c cs ih =>
    intro acc v h
    simp only [read_numeral_from, List.cons_append] at h ⊢
    cases hd : read_digit c with
    | none => rw [hd] at h; simp at h
    | some d =>
      rw [hd] at h
      simp only at h ⊢
      by_cases hlt : d < base
      · rw [if_pos hlt] at h ⊢
        exact ih _ _ h
      · rw [if_neg hlt] at h; simp at h

/-- Reading back the digits that `Nat.toDigits` prints gives the number printed. -/
theorem toDigitsCore_read (b : Nat) (hb : 2 ≤ b) (hb16 : b ≤ 16) (fuel : Nat) :
    ∀ (n : Nat), n < fuel →
    read_numeral_from b (Nat.toDigitsCore b fuel n []) 0 = some n := by
  induction fuel with
  | zero => intro n h; omega
  | succ fuel ih =>
    intro n hn
    have hmod : n % b < b := Nat.mod_lt _ (by omega)
    have hd : read_digit (Nat.digitChar (n % b)) = some (n % b) :=
      read_digit_digitChar _ (by omega)
    simp only [Nat.toDigitsCore]
    split
    · rename_i h0
      simp only [read_numeral_from, hd, if_pos hmod]
      have := Nat.div_add_mod n b
      rw [h0] at this
      simp only [Nat.mul_zero, Nat.zero_add, Nat.zero_mul] at this ⊢
      rw [this]
    · rename_i h0
      have hlt : n / b < fuel := by
        have : n / b < n := Nat.div_lt_self (by
          rcases Nat.eq_zero_or_pos n with h | h
          · rw [h] at h0; simp at h0
          · exact h) (by omega)
        omega
      rw [toDigitsCore_append]
      rw [read_numeral_from_append b _ _ 0 (n / b) (ih (n / b) hlt)]
      simp only [read_numeral_from, hd, if_pos hmod]
      have := Nat.div_add_mod n b
      rw [Nat.mul_comm] at this
      rw [this]

theorem toDigitsCore_ne_nil (b fuel n : Nat) (h : 0 < fuel) :
    Nat.toDigitsCore b fuel n [] ≠ [] := by
  cases fuel with
  | zero => omega
  | succ fuel =>
    simp only [Nat.toDigitsCore]
    split
    · simp
    · rw [toDigitsCore_append]
      simp

theorem toDigits_read (b : Nat) (hb : 2 ≤ b) (hb16 : b ≤ 16) (n : Nat) :
    read_numeral b (Nat.toDigits b n) = some n := by
  unfold read_numeral Nat.toDigits
  rw [if_neg (toDigitsCore_ne_nil b (n + 1) n (by omega))]
  exact toDigitsCore_read b hb hb16 (n + 1) n (by omega)

theorem toDigitsCore_mem (b : Nat) (hb : 0 < b) (fuel : Nat) : ∀ (n : Nat) (c : Char),
    c ∈ Nat.toDigitsCore b fuel n [] → ∃ k, k < b ∧ c = Nat.digitChar k := by
  induction fuel with
  | zero => intro n c h; simp [Nat.toDigitsCore] at h
  | succ fuel ih =>
    intro n c h
    simp only [Nat.toDigitsCore] at h
    split at h
    · simp only [List.mem_singleton] at h
      exact ⟨n % b, Nat.mod_lt _ hb, h⟩
    · rw [toDigitsCore_append] at h
      rcases List.mem_append.1 h with h1 | h1
      · exact ih _ _ h1
      · simp only [List.mem_singleton] at h1
        exact ⟨n % b, Nat.mod_lt _ hb, h1⟩

theorem toDigits_mem (b : Nat) (hb : 0 < b) (n : Nat) (c : Char) (h : c ∈ Nat.toDigits b n) :
    ∃ k, k < b ∧ c = Nat.digitChar k :=
  toDigitsCore_mem b hb (n + 1) n c h

theorem toDigits_decimal (n : Nat) (c : Char) (h : c ∈ Nat.toDigits 10 n) :
    c ∈ "0123456789".toList := by
  obtain ⟨k, hk, rfl⟩ := toDigits_mem 10 (by omega) n c h
  interval_cases k <;> decide

theorem toDigits_hex (n : Nat) (c : Char) (h : c ∈ Nat.toDigits 16 n) :
    c ∈ "0123456789abcdef".toList := by
  obtain ⟨k, hk, rfl⟩ := toDigits_mem 16 (by omega) n c h
  interval_cases k <;> decide

theorem toDigits_no_NUL (b : Nat) (hb : 0 < b) (hb16 : b ≤ 16) (n : Nat) :
    NUL ∉ Nat.toDigits b n := by
  intro h
  obtain ⟨k, hk, e⟩ := toDigits_mem b hb n NUL h
  have hk16 : k < 16 := by omega
  revert e
  interval_cases k <;> decide

theorem mpz_digits_cons (base : Nat) (c : Char) (cs : List Char) (acc d : Nat)
    (h1 : isspace c = false) (h2 : digit_value c = some d) (h3 : d < base) :
    mpz_digits base (c :: cs) acc = mpz_digits base cs (acc * base + d) := by
  simp [mpz_digits, h1, h2, h3]

theorem mpz_digits_bits (bits : List Char) (h01 : ∀ c ∈ bits, c = '0' ∨ c = '1') :
    ∀ acc, mpz_digits 2 bits acc
      = some (bits.foldl (fun acc c => 2 * acc + (if c = '1' then 1 else 0)) acc) := by
  induction bits with
  | nil => intro acc; rfl
  | cons c cs ih =>
    intro acc
    have hcs : ∀ c ∈ cs, c = '0' ∨ c = '1' := fun x hx => h01 x (List.mem_cons_of_mem _ hx)
    rcases h01 c (List.mem_cons_self _ _) with h | h
    · subst h
      rw [mpz_digits_cons 2 '0' cs acc 0 (by decide) (by decide) (by decide), ih hcs]
      simp [Nat.mul_comm]
    · subst h
      rw [mpz_digits_cons 2 '1' cs acc 1 (by decide) (by decide) (by decide), ih hcs]
      simp [Nat.mul_comm]

theorem mpz_set_str_bits (bits : List Char) (hne : bits ≠ [])
    (h01 : ∀ c ∈ bits, c = '0' ∨ c = '1') :
    mpz_set_str bits 2 = some (binary_value bits : Int) := by
  cases bits with
  | nil => exact absurd rfl hne
  | cons c cs =>
    have hd := mpz_digits_bits (c :: cs) h01 0
    rcases h01 c (List.mem_cons_self _ _) with h | h
    · subst h
      have e1 : isspace '0' = false := by decide
      have e2 : digit_value '0' = some 0 := by decide
      simp [mpz_set_str, List.dropWhile, e1, e2, hd, binary_value]
    · subst h
      have e1 : isspace '1' = false := by decide
      have e2 : digit_value '1' = some 1 := by decide
      simp [mpz_set_str, List.dropWhile, e1, e2, hd, binary_value]

theorem bits_no_NUL (bits : List Char) (h01 : ∀ c ∈ bits, c = '0' ∨ c = '1') : NUL ∉ bits := by
  intro h
  rcases h01 NUL h with e | e <;> exact absurd e (by decide)

theorem mpz_get_str_nat (base n : Nat) : mpz_get_str base (n : Int) = Nat.toDigits base n := by
  simp [mpz_get_str]

/-- On a well-formed bit-string `bits2int` prints the value in base 10. -/
theorem bits2int_bits (bits : List Char) (hne : bits ≠ [])
    (h01 : ∀ c ∈ bits, c = '0' ∨ c = '1') :
    bits2int ('b' :: bits) = Except.ok (Nat.toDigits 10 (binary_value bits)) := by
  have hc : c_str ('b' :: bits) = 'b' :: bits :=
    c_str_of_not_mem _ (by
      simp only [List.mem_cons, not_or]
      exact ⟨by decide, bits_no_NUL bits h01⟩)
  simp [bits2int, hc, mpz_set_str_bits bits hne h01, mpz_get_str_nat]

/-- On a well-formed bit-string `bits2hex` prints the value in base 16. -/
theorem bits2hex_bits (bits : List Char) (hne : bits ≠ [])
    (h01 : ∀ c ∈ bits, c = '0' ∨ c = '1') :
    bits2hex ('b' :: bits) = Except.ok (Nat.toDigits 16 (binary_value bits)) := by
  have hc : c_str ('b' :: bits) = 'b' :: bits :=
    c_str_of_not_mem _ (by
      simp only [List.mem_cons, not_or]
      exact ⟨by decide, bits_no_NUL bits h01⟩)
  simp [bits2hex, hc, mpz_set_str_bits bits hne h01, mpz_get_str_nat]

/-! ### The emitter loops -/

theorem c_str_head_marker (value : List Char) (h : value.head? ≠ some 'b') :
    (c_str value).head? ≠ some 'b' := by
  cases value with
  | nil => simp [c_str]
  | cons c cs =>
    unfold c_str
    split
    · simp
    · simpa using h

theorem bits2int_abort (value : List Char) (h : value.head? ≠ some 'b') :
    bits2int value = Except.error Fault.abort := by
  unfold bits2int
  rw [if_pos (c_str_head_marker value h)]

theorem bits2hex_abort (value : List Char) (h : value.head? ≠ some 'b') :
    bits2hex value = Except.error Fault.abort := by
  unfold bits2hex
  rw [if_pos (c_str_head_marker value h)]

theorem step_names_append (LINE_MAX : Nat) (should_poke : name_set) (a b : cycle) :
    ∀ (step step1 : List Char), step_names LINE_MAX should_poke a step = Except.ok step1 →
    step_names LINE_MAX should_poke (a ++ b) step = step_names LINE_MAX should_poke b step1 := by
  induction a with
  | nil =>
    intro step step1 h
    simp only [step_names, Except.ok.injEq] at h
    simp [h]
  | cons x xs ih =>
    intro step step1 h
    obtain ⟨vcd_name, value_bits⟩ := x
    simp only [List.cons_append, step_names] at h ⊢
    cases hv : vcd2chisel LINE_MAX vcd_name with
    | none => rw [hv] at h; simp at h
    | some chisel_name =>
      rw [hv] at h
      simp only at h ⊢
      by_cases hm : chisel_name ∉ should_poke
      · rw [if_pos hm] at h ⊢
        exact ih _ _ h
      · rw [if_neg hm] at h ⊢
        cases hb : bits2int value_bits with
        | error f => rw [hb] at h; simp at h
        | ok value_int =>
          rw [hb] at h
          simp only at h ⊢
          exact ih _ _ h

theorem step_cycles_append (LINE_MAX : Nat) (should_poke : name_set) (a b : vcd) :
    ∀ (step step1 : List Char), step_cycles LINE_MAX should_poke a step = Except.ok step1 →
    step_cycles LINE_MAX should_poke (a ++ b) step = step_cycles LINE_MAX should_poke b step1 := by
  induction a with
  | nil =>
    intro step step1 h
    simp only [step_cycles, Except.ok.injEq] at h
    simp [h]
  | cons x xs ih =>
    intro step step1 h
    simp only [List.cons_append, step_cycles] at h ⊢
    cases hx : step_names LINE_MAX should_poke x step with
    | error e => rw [hx] at h; simp at h
    | ok s2 =>
      rw [hx] at h
      simp only at h ⊢
      exact ih _ _ h

theorem harness_names_append (LINE_MAX : Nat) (openable : List Char → Bool) (dir : List Char)
    (pp : name_set) (a b : cycle) :
    ∀ (st st1 : harness_state), harness_names LINE_MAX openable dir pp a st = Except.ok st1 →
    harness_names LINE_MAX openable dir pp (a ++ b) st
      = harness_names LINE_MAX openable dir pp b st1 := by
  induction a with
  | nil =>
    intro st st1 h
    simp only [harness_names, Except.ok.injEq] at h
    simp [h]
  | cons x xs ih =>
    intro st st1 h
    obtain ⟨vcd_name, value_bits⟩ := x
    simp only [List.cons_append, harness_names] at h ⊢
    cases hv : vcd2name LINE_MAX vcd_name with
    | none => rw [hv] at h; simp at h
    | some verilog_name =>
      rw [hv] at h
      simp only at h ⊢
      by_cases hm : verilog_name ∉ pp
      · rw [if_pos hm] at h ⊢
        exact ih _ _ h
      · rw [if_neg hm] at h ⊢
        cases hb : bits2hex value_bits with
        | error f => rw [hb] at h; simp at h
        | ok value_int =>
          rw [hb] at h
          simp only at h ⊢
          cases hr : harness_record openable dir st verilog_name value_bits value_int with
          | error e => rw [hr] at h; simp at h
          | ok st2 =>
            rw [hr] at h
            simp only at h ⊢
            exact ih _ _ h

theorem harness_cycles_append (LINE_MAX : Nat) (openable : List Char → Bool) (dir : List Char)
    (pp : name_set) (a b : vcd) :
    ∀ (st st1 : harness_state), harness_cycles LINE_MAX openable dir pp a st = Except.ok st1 →
    harness_cycles LINE_MAX openable dir pp (a ++ b) st
      = harness_cycles LINE_MAX openable dir pp b st1 := by
  induction a with
  | nil =>
    intro st st1 h
    simp only [harness_cycles, Except.ok.injEq] at h
    simp [h]
  | cons x xs ih =>
    intro st st1 h
    simp only [List.cons_append, harness_cycles] at h ⊢
    cases hx : harness_names LINE_MAX openable dir pp x st with
    | error e => rw [hx] at h; simp at h
    | ok s2 =>
      rw [hx] at h
      simp only at h ⊢
      exact ih _ _ h

theorem step_names_abort (LINE_MAX : Nat) (should_poke : name_set) (vcd_name value : List Char)
    (rest : cycle) (step chisel_name : List Char) (hmark : value.head? ≠ some 'b')
    (hc : vcd2chisel LINE_MAX vcd_name = some chisel_name) (hm : chisel_name ∈ should_poke) :
    step_names LINE_MAX should_poke ((vcd_name, value) :: rest) step
      = Except.error (Fault.abort, step) := by
  simp only [step_names, hc, bits2int_abort value hmark]
  rw [if_neg (by simpa using hm)]

theorem harness_names_abort (LINE_MAX : Nat) (openable : List Char → Bool) (dir : List Char)
    (pp : name_set) (vcd_name value : List Char) (rest : cycle) (st : harness_state) (verilog_name : List Char)
    (hmark : value.head? ≠ some 'b')
    (hc : vcd2name LINE_MAX vcd_name = some verilog_name) (hm : verilog_name ∈ pp) :
    harness_names LINE_MAX openable dir pp ((vcd_name, value) :: rest) st
      = Except.error (Fault.abort, st) := by
  simp only [harness_names, hc, bits2hex_abort value hmark]
  rw [if_neg (by simpa using hm)]

/-! ### The direction classifier -/

theorem name_set.mem_insert (m : name_set) (k n : List Char) :
    n ∈ m.insert k ↔ n = k ∨ n ∈ m := by
  unfold name_set.insert
  split
  · rename_i h
    constructor
    · intro hn; exact Or.inr hn
    · intro hn
      rcases hn with e | hn
      · rw [e]; exact h
      · exact hn
  · exact List.mem_cons

theorem name_set.nodup_insert (m : name_set) (k : List Char) (h : m.Nodup) :
    (m.insert k).Nodup := by
  unfold name_set.insert
  split
  · exact h
  · rename_i hk
    exact List.nodup_cons.2 ⟨hk, h⟩

theorem name_set.insert_of_mem (m : name_set) (k : List Char) (h : k ∈ m) : m.insert k = m := by
  unfold name_set.insert
  rw [if_pos h]

theorem step_should_poke_spec (LINE_MAX : Nat) (ops : List operation) :
    ∀ (m : name_set), (∀ op ∈ ops, op.op = opcode.IN → op.d.length < LINE_MAX) →
    ∃ m1, step_should_poke LINE_MAX ops m = some m1
      ∧ (∀ n, n ∈ m1 ↔ n ∈ m ∨ ∃ op ∈ ops, op.op = opcode.IN ∧ vcd2chisel LINE_MAX op.d = some n)
      ∧ (m.Nodup → m1.Nodup) := by
  induction ops with
  | nil => intro m _; exact ⟨m, rfl, by simp, id⟩
  | cons op ops ih =>
    intro m hs
    have hs2 : ∀ o ∈ ops, o.op = opcode.IN → o.d.length < LINE_MAX :=
      fun o ho => hs o (List.mem_cons_of_mem _ ho)
    by_cases hop : op.op = opcode.IN
    · have hv := vcd2chisel_eq LINE_MAX op.d
        (length_lt_of_c_str LINE_MAX op.d (hs op (List.mem_cons_self _ _) hop))
      obtain ⟨m1, h1, h2, h3⟩ := ih (m.insert (dot_runs (c_str op.d))) hs2
      refine ⟨m1, ?_, ?_, ?_⟩
      · simp only [step_should_poke, if_pos hop, hv, h1]
      · intro n
        rw [h2 n, name_set.mem_insert]
        constructor
        · rintro ((e | hm) | ⟨o, ho, h4, h5⟩)
          · exact Or.inr ⟨op, List.mem_cons_self _ _, hop, by rw [hv, e]⟩
          · exact Or.inl hm
          · exact Or.inr ⟨o, List.mem_cons_of_mem _ ho, h4, h5⟩
        · rintro (hm | ⟨o, ho, h4, h5⟩)
          · exact Or.inl (Or.inr hm)
          · rcases List.mem_cons.1 ho with e | ho
            · subst e
              rw [hv] at h5
              exact Or.inl (Or.inl (Option.some.inj h5).symm)
            · exact Or.inr ⟨o, ho, h4, h5⟩
      · intro hn
        exact h3 (name_set.nodup_insert m _ hn)
    · obtain ⟨m1, h1, h2, h3⟩ := ih m hs2
      refine ⟨m1, ?_, ?_, h3⟩
      · simp only [step_should_poke, if_neg hop, h1]
      · intro n
        rw [h2 n]
        constructor
        · rintro (hm | ⟨o, ho, h4, h5⟩)
          · exact Or.inl hm
          · exact Or.inr ⟨o, List.mem_cons_of_mem _ ho, h4, h5⟩
        · rintro (hm | ⟨o, ho, h4, h5⟩)
          · exact Or.inl hm
          · rcases List.mem_cons.1 ho with e | ho
            · subst e; exact absurd h4 hop
            · exact Or.inr ⟨o, ho, h4, h5⟩

theorem harness_should_poke_spec (LINE_MAX : Nat) (ops : List operation) :
    ∀ (m : name_set), (∀ op ∈ ops, op.op = opcode.IN → op.d.length < LINE_MAX) →
    ∃ m1, harness_should_poke LINE_MAX ops m = some m1
      ∧ (∀ n, n ∈ m1 ↔ n ∈ m ∨ ∃ op ∈ ops, op.op = opcode.IN ∧ vcd2name LINE_MAX op.d = some n)
      ∧ (m.Nodup → m1.Nodup) := by
  induction ops with
  | nil => intro m _; exact ⟨m, rfl, by simp, id⟩
  | cons op ops ih =>
    intro m hs
    have hs2 : ∀ o ∈ ops, o.op = opcode.IN → o.d.length < LINE_MAX :=
      fun o ho => hs o (List.mem_cons_of_mem _ ho)
    by_cases hop : op.op = opcode.IN
    · have hv := vcd2name_eq LINE_MAX op.d
        (length_lt_of_c_str LINE_MAX op.d (hs op (List.mem_cons_self _ _) hop))
      obtain ⟨m1, h1, h2, h3⟩ := ih (m.insert (flatten (dot_runs (c_str op.d)))) hs2
      refine ⟨m1, ?_, ?_, ?_⟩
      · simp only [harness_should_poke, if_pos hop, hv, h1]
      · intro n
        rw [h2 n, name_set.mem_insert]
        constructor
        · rintro ((e | hm) | ⟨o, ho, h4, h5⟩)
          · exact Or.inr ⟨op, List.mem_cons_self _ _, hop, by rw [hv, e]⟩
          · exact Or.inl hm
          · exact Or.inr ⟨o, List.mem_cons_of_mem _ ho, h4, h5⟩
        · rintro (hm | ⟨o, ho, h4, h5⟩)
          · exact Or.inl (Or.inr hm)
          · rcases List.mem_cons.1 ho with e | ho
            · subst e
              rw [hv] at h5
              exact Or.inl (Or.inl (Option.some.inj h5).symm)
            · exact Or.inr ⟨o, ho, h4, h5⟩
      · intro hn
        exact h3 (name_set.nodup_insert m _ hn)
    · obtain ⟨m1, h1, h2, h3⟩ := ih m hs2
      refine ⟨m1, ?_, ?_, h3⟩
      · simp only [harness_should_poke, if_neg hop, h1]
      · intro n
        rw [h2 n]
        constructor
        · rintro (hm | ⟨o, ho, h4, h5⟩)
          · exact Or.inl hm
          · exact Or.inr ⟨o, List.mem_cons_of_mem _ ho, h4, h5⟩
        · rintro (hm | ⟨o, ho, h4, h5⟩)
          · exact Or.inl hm
          · rcases List.mem_cons.1 ho with e | ho
            · subst e; exact absurd h4 hop
            · exact Or.inr ⟨o, ho, h4, h5⟩

theorem harness_should_poke_or_peek_spec (LINE_MAX : Nat) (ops : List operation) :
    ∀ (m : name_set),
    (∀ op ∈ ops, op.op = opcode.IN ∨ op.op = opcode.OUT → op.d.length < LINE_MAX) →
    ∃ m1, harness_should_poke_or_peek LINE_MAX ops m = some m1
      ∧ (∀ n, n ∈ m1 ↔ n ∈ m ∨ ∃ op ∈ ops, (op.op = opcode.IN ∨ op.op = opcode.OUT)
          ∧ vcd2name LINE_MAX op.d = some n)
      ∧ (m.Nodup → m1.Nodup) := by
  induction ops with
  | nil => intro m _; exact ⟨m, rfl, by simp, id⟩
  | cons op ops ih =>
    intro m hs
    have hs2 : ∀ o ∈ ops, o.op = opcode.IN ∨ o.op = opcode.OUT → o.d.length < LINE_MAX :=
      fun o ho => hs o (List.mem_cons_of_mem _ ho)
    by_cases hop : op.op = opcode.IN ∨ op.op = opcode.OUT
    · have hv := vcd2name_eq LINE_MAX op.d
        (length_lt_of_c_str LINE_MAX op.d (hs op (List.mem_cons_self _ _) hop))
      obtain ⟨m1, h1, h2, h3⟩ := ih (m.insert (flatten (dot_runs (c_str op.d)))) hs2
      refine ⟨m1, ?_, ?_, ?_⟩
      · rcases hop with hi | ho
        · have hno : ¬ op.op = opcode.OUT := by rw [hi]; decide
          simp only [harness_should_poke_or_peek, if_pos hi, if_neg hno, hv, h1]
        · have hni : ¬ op.op = opcode.IN := by rw [ho]; decide
          simp only [harness_should_poke_or_peek, if_pos ho, if_neg hni, hv, h1]
      · intro n
        rw [h2 n, name_set.mem_insert]
        constructor
        · rintro ((e | hm) | ⟨o, ho, h4, h5⟩)
          · exact Or.inr ⟨op, List.mem_cons_self _ _, hop, by rw [hv, e]⟩
          · exact Or.inl hm
          · exact Or.inr ⟨o, List.mem_cons_of_mem _ ho, h4, h5⟩
        · rintro (hm | ⟨o, ho, h4, h5⟩)
          · exact Or.inl (Or.inr hm)
          · rcases List.mem_cons.1 ho with e | ho
            · subst e
              rw [hv] at h5
              exact Or.inl (Or.inl (Option.some.inj h5).symm)
            · exact Or.inr ⟨o, ho, h4, h5⟩
      · intro hn
        exact h3 (name_set.nodup_insert m _ hn)
    · obtain ⟨m1, h1, h2, h3⟩ := ih m hs2
      have hni : ¬ op.op = opcode.IN := fun h => hop (Or.inl h)
      have hno : ¬ op.op = opcode.OUT := fun h => hop (Or.inr h)
      refine ⟨m1, ?_, ?_, h3⟩
      · simp only [harness_should_poke_or_peek, if_neg hni, if_neg hno, h1]
      · intro n
        rw [h2 n]
        constructor
        · rintro (hm | ⟨o, ho, h4, h5⟩)
          · exact Or.inl hm
          · exact Or.inr ⟨o, List.mem_cons_of_mem _ ho, h4, h5⟩
        · rintro (hm | ⟨o, ho, h4, h5⟩)
          · exact Or.inl hm
          · rcases List.mem_cons.1 ho with e | ho
            · subst e; exact absurd h4 hop
            · exact Or.inr ⟨o, ho, h4, h5⟩

/-! ### The step script -/

theorem chisel_name_of_no_NUL (vcd_name : List Char) : NUL ∉ chisel_name_of vcd_name :=
  dot_runs_no_NUL _ (c_str_not_mem _)

theorem verilog_name_of_no_NUL (vcd_name : List Char) : NUL ∉ verilog_name_of vcd_name := by
  intro h
  rcases flatten_mem _ _ h with h1 | h1
  · exact dot_runs_no_NUL _ (c_str_not_mem _) h1
  · exact NUL_ne_underscore h1

theorem bits2int_of_bit_string (value : List Char) (h : bit_string value) :
    bits2int value = Except.ok (decimal_of value) := by
  obtain ⟨bits, rfl, hne, h01⟩ := h
  exact bits2int_bits bits hne h01

theorem bits2hex_of_bit_string (value : List Char) (h : bit_string value) :
    bits2hex value = Except.ok (hex_of value) := by
  obtain ⟨bits, rfl, hne, h01⟩ := h
  exact bits2hex_bits bits hne h01

theorem fmt_s_of_no_NUL (s : List Char) (h : NUL ∉ s) : fmt_s s = s :=
  c_str_of_not_mem s h

theorem wire_poke_eq (vcd_name value : List Char) :
    wire_poke (chisel_name_of vcd_name) (decimal_of value)
      = wire_poke_line (chisel_name_of vcd_name) (decimal_of value) ++ "\n".toList := by
  unfold wire_poke wire_poke_line
  rw [fmt_s_of_no_NUL _ (chisel_name_of_no_NUL vcd_name),
    fmt_s_of_no_NUL (decimal_of value) (toDigits_no_NUL 10 (by omega) (by omega) _)]

theorem unlines_append (a b : List (List Char)) : unlines (a ++ b) = unlines a ++ unlines b := by
  simp [unlines]

theorem unlines_cons (l : List Char) (ls : List (List Char)) :
    unlines (l :: ls) = l ++ "\n".toList ++ unlines ls := by
  simp [unlines]

theorem unlines_singleton (l : List Char) : unlines [l] = l ++ "\n".toList := by
  simp [unlines]

/-- The `wire_poke` lines of one cycle, without the closing `step 1`. -/
theorem step_names_spec (LINE_MAX : Nat) (should_poke : name_set) (c : cycle) :
    ∀ (step : List Char), (∀ nv ∈ c, nv.1.length < LINE_MAX ∧ bit_string nv.2) →
    step_names LINE_MAX should_poke c step
      = Except.ok (step ++ unlines
          ((c.filter (fun nv => decide (chisel_name_of nv.1 ∈ should_poke))).map
            (fun nv => wire_poke_line (chisel_name_of nv.1) (decimal_of nv.2)))) := by
  induction c with
  | nil => intro step _; simp [step_names, unlines]
  | cons x xs ih =>
    intro step h
    obtain ⟨vcd_name, value_bits⟩ := x
    have hx := h (vcd_name, value_bits) (List.mem_cons_self _ _)
    have hxs : ∀ nv ∈ xs, nv.1.length < LINE_MAX ∧ bit_string nv.2 :=
      fun nv hnv => h nv (List.mem_cons_of_mem _ hnv)
    have hv : vcd2chisel LINE_MAX vcd_name = some (chisel_name_of vcd_name) :=
      vcd2chisel_eq LINE_MAX vcd_name (length_lt_of_c_str LINE_MAX vcd_name hx.1)
    simp only [step_names, hv]
    by_cases hm : chisel_name_of vcd_name ∈ should_poke
    · rw [if_neg (by simpa using hm), bits2int_of_bit_string value_bits hx.2]
      simp only []
      rw [ih _ hxs, List.filter_cons_of_pos (by simpa using hm), List.map_cons, unlines_cons,
        wire_poke_eq]
      simp
    · rw [if_pos hm, ih _ hxs, List.filter_cons_of_neg (by simpa using hm)]

theorem step_cycles_spec (LINE_MAX : Nat) (should_poke : name_set) (trace : vcd) :
    ∀ (step : List Char),
    (∀ c ∈ trace, ∀ nv ∈ c, nv.1.length < LINE_MAX ∧ bit_string nv.2) →
    step_cycles LINE_MAX should_poke trace step
      = Except.ok (step ++ unlines ((trace.map (cycle_lines should_poke)).flatten)) := by
  induction trace with
  | nil => intro step _; simp [step_cycles, unlines]
  | cons c cs ih =>
    intro step h
    have hc := h c (List.mem_cons_self _ _)
    have hcs : ∀ c ∈ cs, ∀ nv ∈ c, nv.1.length < LINE_MAX ∧ bit_string nv.2 :=
      fun c1 hc1 => h c1 (List.mem_cons_of_mem _ hc1)
    simp only [step_cycles, step_names_spec LINE_MAX should_poke c step hc]
    rw [ih _ hcs]
    have e : "step 1\n".toList = "step 1".toList ++ "\n".toList := by decide
    simp only [List.map_cons, List.flatten_cons, cycle_lines, unlines_append, unlines_singleton,
      List.append_assoc, e]

theorem find_assign_self (m : List (List Char × Option FILE)) (k : List Char)
    (f : Option FILE) : find (assign m k f) k = some f := by
  induction m with
  | nil => simp [assign, find]
  | cons e m ih =>
    obtain ⟨k1, f1⟩ := e
    by_cases h : k1 = k
    · simp [assign, find, h]
    · simp [assign, find, h, ih]

theorem find_assign_other (m : List (List Char × Option FILE)) (k k2 : List Char)
    (f : Option FILE) (hk : k2 ≠ k) : find (assign m k f) k2 = find m k2 := by
  induction m with
  | nil =>
    have : ¬ k = k2 := fun e => hk e.symm
    simp [assign, find, this]
  | cons e m ih =>
    obtain ⟨k1, f1⟩ := e
    by_cases h : k1 = k
    · have : ¬ k = k2 := fun e => hk e.symm
      have h2 : ¬ k1 = k2 := by rw [h]; exact this
      simp [assign, find, h, this]
    · by_cases h2 : k1 = k2
      · subst h2
        simp [assign, find, hk]
      · simp [assign, find, h, h2, ih]

/-- Lines 128-146 when the name has a stream in the map. -/
theorem harness_record_found (openable : List Char → Bool) (dir : List Char)
    (st : harness_state) (n value_bits value_int : List Char) (stream : FILE)
    (hf : find st.signal2file n = some (some stream)) :
    harness_record openable dir st n value_bits value_int
      = Except.ok ⟨assign st.signal2file n
          (some (stream.fprintf (fmt_s value_int ++ "\n".toList))), st.signals⟩ := by
  unfold harness_record
  rw [hf]
  rfl

/-- Lines 128-146 when the name has the null pointer in the map. -/
theorem harness_record_found_null (openable : List Char → Bool) (dir : List Char)
    (st : harness_state) (n value_bits value_int : List Char)
    (hf : find st.signal2file n = some none) :
    harness_record openable dir st n value_bits value_int
      = Except.error (Fault.null_stream, st) := by
  unfold harness_record
  rw [hf]
  rfl

/-- Lines 128-146 at the first observation of a name whose file can be opened. -/
theorem harness_record_new (openable : List Char → Bool) (dir : List Char)
    (st : harness_state) (n value_bits value_int : List Char)
    (hf : find st.signal2file n = none) (hopen : openable (dat_path dir n) = true) :
    harness_record openable dir st n value_bits value_int
      = Except.ok ⟨assign (assign st.signal2file n (some ⟨dat_path dir n, []⟩)) n
          (some ((FILE.mk (dat_path dir n) []).fprintf (fmt_s value_int ++ "\n".toList))),
          st.signals ++ [generic_signal.mk ((value_bits.length : Int) - 1) n]⟩ := by
  have ho : fopen_w openable (dir ++ "/".toList ++ n ++ ".dat".toList)
      = some ⟨dat_path dir n, []⟩ := by
    unfold fopen_w
    rw [show dir ++ "/".toList ++ n ++ ".dat".toList = dat_path dir n from rfl, hopen]
    rfl
  unfold harness_record
  rw [hf]
  simp only []
  rw [ho, find_assign_self]
  rfl

/-- Lines 128-146 at the first observation of a name whose file cannot be opened: the null
pointer is entered in the map, the record is appended, and the write goes through the null
pointer. -/
theorem harness_record_null (openable : List Char → Bool) (dir : List Char)
    (st : harness_state) (n value_bits value_int : List Char)
    (hf : find st.signal2file n = none) (hopen : openable (dat_path dir n) = false) :
    harness_record openable dir st n value_bits value_int
      = Except.error (Fault.null_stream, ⟨assign st.signal2file n none,
          st.signals ++ [generic_signal.mk ((value_bits.length : Int) - 1) n]⟩) := by
  have ho : fopen_w openable (dir ++ "/".toList ++ n ++ ".dat".toList) = none := by
    unfold fopen_w
    rw [show dir ++ "/".toList ++ n ++ ".dat".toList = dat_path dir n from rfl, hopen]
    rfl
  unfold harness_record
  rw [hf]
  simp only []
  rw [ho, find_assign_self]
  rfl

theorem dat_lines_append (os : List (List Char × List Char)) (n v k : List Char) :
    dat_lines (os ++ [(n, v)]) k
      = if n = k then dat_lines os k ++ [hex_of v] else dat_lines os k := by
  unfold dat_lines
  by_cases h : n = k
  · simp [List.filter_append, h]
  · simp [List.filter_append, h]

theorem dat_lines_of_not_mem (os : List (List Char × List Char)) (k : List Char)
    (h : k ∉ os.map Prod.fst) : dat_lines os k = [] := by
  unfold dat_lines
  rw [List.map_eq_nil_iff, List.filter_eq_nil_iff]
  intro o ho
  simp only [decide_eq_true_eq]
  intro e
  exact h (List.mem_map.2 ⟨o, ho, e⟩)

theorem first_records_append (os : List (List Char × List Char)) (n v : List Char) :
    ∀ (seen : List (List Char)),
    first_records seen (os ++ [(n, v)])
      = first_records seen os
        ++ (if n ∈ seen ∨ n ∈ os.map Prod.fst then []
            else [generic_signal.mk ((v.length : Int) - 1) n]) := by
  induction os with
  | nil =>
    intro seen
    by_cases h : n ∈ seen
    · simp [first_records, h]
    · simp [first_records, h]
  | cons o os ih =>
    intro seen
    obtain ⟨n1, v1⟩ := o
    rw [List.cons_append]
    by_cases h1 : n1 ∈ seen
    · simp only [first_records, if_pos h1]
      rw [ih seen]
      congr 1
      apply if_congr _ rfl rfl
      simp only [List.map_cons, List.mem_cons]
      constructor
      · rintro (h | h)
        · exact Or.inl h
        · exact Or.inr (Or.inr h)
      · rintro (h | h | h)
        · exact Or.inl h
        · rw [h]; exact Or.inl h1
        · exact Or.inr h
    · simp only [first_records, if_neg h1]
      rw [ih (n1 :: seen)]
      rw [List.cons_append]
      congr 2
      apply if_congr _ rfl rfl
      simp only [List.map_cons, List.mem_cons]
      constructor
      · rintro ((h | h) | h)
        · exact Or.inr (Or.inl h)
        · exact Or.inl h
        · exact Or.inr (Or.inr h)
      · rintro (h | h | h)
        · exact Or.inl (Or.inr h)
        · exact Or.inl (Or.inl h)
        · exact Or.inr h

theorem phase1_state_record (openable : List Char → Bool) (dir : List Char)
    (st : harness_state) (os : List (List Char × List Char)) (n value_bits : List Char)
    (h : phase1_state dir st os)
    (hopen : n ∉ os.map Prod.fst → openable (dat_path dir n) = true) :
    ∃ st1, harness_record openable dir st n value_bits (hex_of value_bits) = Except.ok st1
      ∧ phase1_state dir st1 (os ++ [(n, value_bits)]) := by
  have hfmt : fmt_s (hex_of value_bits) = hex_of value_bits :=
    fmt_s_of_no_NUL (hex_of value_bits) (toDigits_no_NUL 16 (by omega) (by omega) _)
  have hmem : n ∈ (os ++ [(n, value_bits)]).map Prod.fst := by simp
  have hother : ∀ k, k ≠ n →
      (if k ∈ (os ++ [(n, value_bits)]).map Prod.fst
        then some (some (FILE.mk (dat_path dir k)
          (unlines (dat_lines (os ++ [(n, value_bits)]) k))))
        else none)
      = (if k ∈ os.map Prod.fst
        then some (some (FILE.mk (dat_path dir k) (unlines (dat_lines os k))))
        else none) := by
    intro k hk
    rw [dat_lines_append, if_neg (show ¬ n = k from fun e => hk e.symm)]
    have : k ∈ (os ++ [(n, value_bits)]).map Prod.fst ↔ k ∈ os.map Prod.fst := by
      simp [hk]
    by_cases ho : k ∈ os.map Prod.fst
    · rw [if_pos ho, if_pos (this.2 ho)]
    · rw [if_neg ho, if_neg (fun e => ho (this.1 e))]
  by_cases ho : n ∈ os.map Prod.fst
  · have hf : find st.signal2file n
        = some (some ⟨dat_path dir n, unlines (dat_lines os n)⟩) := by
      rw [h.1 n, if_pos ho]
    refine ⟨_, harness_record_found openable dir st n value_bits _ _ hf, ?_, ?_⟩
    · intro k
      by_cases hk : k = n
      · subst hk
        rw [find_assign_self, if_pos hmem, dat_lines_append, if_pos rfl, unlines_append,
          unlines_singleton, hfmt]
        rfl
      · rw [find_assign_other _ _ _ _ hk, h.1 k, hother k hk]
    · show st.signals = _
      rw [first_records_append, h.2]
      simp [ho]
  · have hf : find st.signal2file n = none := by
      rw [h.1 n, if_neg ho]
    refine ⟨_, harness_record_new openable dir st n value_bits _ hf (hopen ho), ?_, ?_⟩
    · intro k
      by_cases hk : k = n
      · subst hk
        rw [find_assign_self, if_pos hmem, dat_lines_append, if_pos rfl,
          dat_lines_of_not_mem os k ho, hfmt]
        simp [FILE.fprintf, unlines]
      · rw [find_assign_other _ _ _ _ hk, find_assign_other _ _ _ _ hk, h.1 k, hother k hk]
    · show st.signals ++ _ = _
      rw [first_records_append, h.2]
      simp [ho]

theorem harness_names_spec (LINE_MAX : Nat) (openable : List Char → Bool) (dir : List Char)
    (pp : name_set) (c : cycle) :
    ∀ (st : harness_state) (os : List (List Char × List Char)),
    (∀ nv ∈ c, nv.1.length < LINE_MAX
      ∧ (verilog_name_of nv.1 ∈ pp →
          bit_string nv.2 ∧ openable (dat_path dir (verilog_name_of nv.1)) = true)) →
    phase1_state dir st os →
    ∃ st1, harness_names LINE_MAX openable dir pp c st = Except.ok st1
      ∧ phase1_state dir st1 (os ++ observations pp [c]) := by
  induction c with
  | nil =>
    intro st os _ h
    exact ⟨st, rfl, by simpa [observations] using h⟩
  | cons x xs ih =>
    intro st os hyp h
    obtain ⟨vcd_name, value_bits⟩ := x
    have hx := hyp (vcd_name, value_bits) (List.mem_cons_self _ _)
    have hxs : ∀ nv ∈ xs, nv.1.length < LINE_MAX
        ∧ (verilog_name_of nv.1 ∈ pp →
            bit_string nv.2 ∧ openable (dat_path dir (verilog_name_of nv.1)) = true) :=
      fun nv hnv => hyp nv (List.mem_cons_of_mem _ hnv)
    have hv : vcd2name LINE_MAX vcd_name = some (verilog_name_of vcd_name) :=
      vcd2name_eq LINE_MAX vcd_name (length_lt_of_c_str LINE_MAX vcd_name hx.1)
    simp only [harness_names, hv]
    by_cases hm : verilog_name_of vcd_name ∈ pp
    · rw [if_neg (by simpa using hm), bits2hex_of_bit_string value_bits (hx.2 hm).1]
      simp only []
      obtain ⟨st1, h1, h2⟩ := phase1_state_record openable dir st os
        (verilog_name_of vcd_name) value_bits h (fun _ => (hx.2 hm).2)
      rw [h1]
      simp only []
      obtain ⟨st2, h3, h4⟩ := ih st1 _ hxs h2
      refine ⟨st2, h3, ?_⟩
      have e : observations pp [(vcd_name, value_bits) :: xs]
          = (verilog_name_of vcd_name, value_bits) :: observations pp [xs] := by
        simp [observations, hm]
      rw [e]
      simpa using h4
    · rw [if_pos hm]
      obtain ⟨st2, h3, h4⟩ := ih st os hxs h
      refine ⟨st2, h3, ?_⟩
      have e : observations pp [(vcd_name, value_bits) :: xs] = observations pp [xs] := by
        simp [observations, hm]
      rw [e]
      exact h4

theorem observations_cons (pp : name_set) (c : cycle) (cs : vcd) :
    observations pp (c :: cs) = observations pp [c] ++ observations pp cs := by
  simp [observations]

theorem harness_cycles_spec (LINE_MAX : Nat) (openable : List Char → Bool) (dir : List Char)
    (pp : name_set) (trace : vcd) :
    ∀ (st : harness_state) (os : List (List Char × List Char)),
    (∀ c ∈ trace, ∀ nv ∈ c, nv.1.length < LINE_MAX
      ∧ (verilog_name_of nv.1 ∈ pp →
          bit_string nv.2 ∧ openable (dat_path dir (verilog_name_of nv.1)) = true)) →
    phase1_state dir st os →
    ∃ st1, harness_cycles LINE_MAX openable dir pp trace st = Except.ok st1
      ∧ phase1_state dir st1 (os ++ observations pp trace) := by
  induction trace with
  | nil =>
    intro st os _ h
    exact ⟨st, rfl, by simpa [observations] using h⟩
  | cons c cs ih =>
    intro st os hyp h
    have hc := hyp c (List.mem_cons_self _ _)
    have hcs : ∀ c ∈ cs, ∀ nv ∈ c, nv.1.length < LINE_MAX
        ∧ (verilog_name_of nv.1 ∈ pp →
            bit_string nv.2 ∧ openable (dat_path dir (verilog_name_of nv.1)) = true) :=
      fun c1 hc1 => hyp c1 (List.mem_cons_of_mem _ hc1)
    obtain ⟨st1, h1, h2⟩ := harness_names_spec LINE_MAX openable dir pp c st os hc h
    obtain ⟨st2, h3, h4⟩ := ih st1 _ hcs h2
    refine ⟨st2, ?_, ?_⟩
    · simp only [harness_cycles, h1]
      exact h3
    · rw [observations_cons, ← List.append_assoc]
      exact h4

theorem phase1_state_init (dir : List Char) : phase1_state dir ⟨[], []⟩ [] := by
  refine ⟨?_, rfl⟩
  intro n
  simp [find]

/-! ### The records in every state of phase 1 -/

theorem phase1_state_records (dir : List Char) (st : harness_state)
    (os : List (List Char × List Char)) (h : phase1_state dir st os) : records_state st os := by
  refine ⟨?_, h.2⟩
  intro n
  rw [h.1 n]
  by_cases hn : n ∈ os.map Prod.fst
  · simp [hn]
  · simp [hn]

theorem records_state_step (st st1 : harness_state) (os : List (List Char × List Char))
    (n v : List Char) (p : Option FILE) (h : records_state st os)
    (hn : find st1.signal2file n = some p)
    (hk : ∀ k, k ≠ n → find st1.signal2file k = find st.signal2file k)
    (hs : st1.signals
      = if n ∈ os.map Prod.fst then st.signals
        else st.signals ++ [generic_signal.mk ((v.length : Int) - 1) n]) :
    records_state st1 (os ++ [(n, v)]) := by
  refine ⟨?_, ?_⟩
  · intro k
    by_cases e : k = n
    · subst e
      constructor
      · intro _
        simp
      · intro _
        exact ⟨p, hn⟩
    · rw [hk k e, h.1 k]
      simp [e]
  · rw [hs, first_records_append, h.2]
    by_cases ho : n ∈ os.map Prod.fst
    · simp [ho]
    · simp [ho]

/-- Lines 128-146 keep the records in step with the observations, whether the write succeeds
or goes through the null pointer. -/
theorem harness_record_records (openable : List Char → Bool) (dir : List Char)
    (st : harness_state) (os : List (List Char × List Char))
    (n value_bits value_int : List Char) (h : records_state st os) :
    (∀ st1, harness_record openable dir st n value_bits value_int = Except.ok st1 →
        records_state st1 (os ++ [(n, value_bits)]))
      ∧ (∀ f st1, harness_record openable dir st n value_bits value_int
            = Except.error (f, st1) →
          records_state st1 os ∨ records_state st1 (os ++ [(n, value_bits)])) := by
  cases hf : find st.signal2file n with
  | some file =>
    have hn : n ∈ os.map Prod.fst := (h.1 n).1 ⟨file, hf⟩
    cases file with
    | none =>
      rw [harness_record_found_null openable dir st n value_bits value_int hf]
      refine ⟨?_, ?_⟩
      · intro st1 e
        cases e
      · intro f st1 e
        cases e
        exact Or.inl h
    | some stream =>
      rw [harness_record_found openable dir st n value_bits value_int stream hf]
      refine ⟨?_, ?_⟩
      · intro st1 e
        cases e
        exact records_state_step st _ os n value_bits _ h (find_assign_self _ _ _)
          (fun k hk => find_assign_other _ _ _ _ hk) (by simp [hn])
      · intro f st1 e
        cases e
  | none =>
    have hn : n ∉ os.map Prod.fst := fun hm => by
      obtain ⟨file, e⟩ := (h.1 n).2 hm
      rw [hf] at e
      cases e
    cases ho : openable (dat_path dir n) with
    | true =>
      rw [harness_record_new openable dir st n value_bits value_int hf ho]
      refine ⟨?_, ?_⟩
      · intro st1 e
        cases e
        refine records_state_step st _ os n value_bits _ h (find_assign_self _ _ _)
          (fun k hk => ?_) (by simp [hn])
        show find (assign (assign st.signal2file n _) n _) k = _
        rw [find_assign_other _ _ _ _ hk, find_assign_other _ _ _ _ hk]
      · intro f st1 e
        cases e
    | false =>
      rw [harness_record_null openable dir st n value_bits value_int hf ho]
      refine ⟨?_, ?_⟩
      · intro st1 e
        cases e
      · intro f st1 e
        cases e
        exact Or.inr (records_state_step st _ os n value_bits _ h (find_assign_self _ _ _)
          (fun k hk => find_assign_other _ _ _ _ hk) (by simp [hn]))

/-- The loop over the names of one cycle, whatever its outcome: the state in which it ends or
stops has the records of the observations taken up to there. -/
theorem harness_names_records (LINE_MAX : Nat) (openable : List Char → Bool) (dir : List Char)
    (pp : name_set) (c : cycle) :
    ∀ (st : harness_state) (os : List (List Char × List Char)),
    (∀ nv ∈ c, nv.1.length < LINE_MAX) → records_state st os →
    ∃ os1 more, observations pp [c] = os1 ++ more
      ∧ records_state (final_state (harness_names LINE_MAX openable dir pp c st)) (os ++ os1)
      ∧ (∀ st1, harness_names LINE_MAX openable dir pp c st = Except.ok st1 → more = []) := by
  induction c with
  | nil =>
    intro st os _ h
    exact ⟨[], [], rfl, by simpa [harness_names, final_state] using h, fun _ _ => rfl⟩
  | cons x xs ih =>
    intro st os hyp h
    obtain ⟨vcd_name, value_bits⟩ := x
    have hx := hyp (vcd_name, value_bits) (List.mem_cons_self _ _)
    have hxs : ∀ nv ∈ xs, nv.1.length < LINE_MAX :=
      fun nv hnv => hyp nv (List.mem_cons_of_mem _ hnv)
    have hv : vcd2name LINE_MAX vcd_name = some (verilog_name_of vcd_name) :=
      vcd2name_eq LINE_MAX vcd_name (length_lt_of_c_str LINE_MAX vcd_name hx)
    simp only [harness_names, hv]
    by_cases hm : verilog_name_of vcd_name ∈ pp
    · have e : observations pp [(vcd_name, value_bits) :: xs]
          = (verilog_name_of vcd_name, value_bits) :: observations pp [xs] := by
        simp [observations, hm]
      rw [if_neg (by simpa using hm), e]
      cases hb : bits2hex value_bits with
      | error f =>
        simp only []
        exact ⟨[], _, rfl, by simpa [final_state] using h, fun st1 e1 => by cases e1⟩
      | ok value_int =>
        simp only []
        obtain ⟨hok, herr⟩ := harness_record_records openable dir st os
          (verilog_name_of vcd_name) value_bits value_int h
        cases hr : harness_record openable dir st (verilog_name_of vcd_name) value_bits
            value_int with
        | error e1 =>
          obtain ⟨f, st1⟩ := e1
          simp only []
          rcases herr f st1 hr with h1 | h1
          · exact ⟨[], _, rfl, by simpa [final_state] using h1, fun st2 e2 => by cases e2⟩
          · exact ⟨[(verilog_name_of vcd_name, value_bits)], observations pp [xs], rfl,
              by simpa [final_state] using h1, fun st2 e2 => by cases e2⟩
        | ok st1 =>
          simp only []
          obtain ⟨os1, more, e1, h1, h2⟩ := ih st1 _ hxs (hok st1 hr)
          refine ⟨(verilog_name_of vcd_name, value_bits) :: os1, more, ?_, ?_, h2⟩
          · rw [e1, List.cons_append]
          · simpa using h1
    · have e : observations pp [(vcd_name, value_bits) :: xs] = observations pp [xs] := by
        simp [observations, hm]
      rw [if_pos hm, e]
      exact ih st os hxs h

/-- The loop over the cycles, whatever its outcome: the state in which it ends or stops has
the records of the observations taken up to there, which are all of them when it ends. -/
theorem harness_cycles_records (LINE_MAX : Nat) (openable : List Char → Bool)
    (dir : List Char) (pp : name_set) (trace : vcd) :
    ∀ (st : harness_state) (os : List (List Char × List Char)),
    (∀ c ∈ trace, ∀ nv ∈ c, nv.1.length < LINE_MAX) → records_state st os →
    ∃ os1 more, observations pp trace = os1 ++ more
      ∧ records_state (final_state (harness_cycles LINE_MAX openable dir pp trace st))
          (os ++ os1)
      ∧ (∀ st1, harness_cycles LINE_MAX openable dir pp trace st = Except.ok st1 →
          more = []) := by
  induction trace with
  | nil =>
    intro st os _ h
    exact ⟨[], [], rfl, by simpa [harness_cycles, final_state] using h, fun _ _ => rfl⟩
  | cons c cs ih =>
    intro st os hyp h
    have hc := hyp c (List.mem_cons_self _ _)
    have hcs : ∀ c ∈ cs, ∀ nv ∈ c, nv.1.length < LINE_MAX :=
      fun c1 hc1 => hyp c1 (List.mem_cons_of_mem _ hc1)
    obtain ⟨os1, more, e1, h1, h2⟩ := harness_names_records LINE_MAX openable dir pp c st os
      hc h
    rw [observations_cons, e1]
    simp only [harness_cycles]
    cases hn : harness_names LINE_MAX openable dir pp c st with
    | error e =>
      simp only []
      rw [hn] at h1
      exact ⟨os1, more ++ observations pp cs, by rw [List.append_assoc], h1,
        fun st1 e2 => by cases e2⟩
    | ok st1 =>
      simp only []
      rw [hn] at h1
      have hmore := h2 st1 hn
      subst hmore
      obtain ⟨os2, more2, e2, h3, h4⟩ := ih st1 _ hcs h1
      refine ⟨os1 ++ os2, more2, ?_, ?_, h4⟩
      · rw [e2, List.append_nil, List.append_assoc]
      · rw [← List.append_assoc]
        exact h3

theorem records_state_init : records_state ⟨[], []⟩ [] := by
  refine ⟨?_, rfl⟩
  intro n
  simp [find]

theorem runs_of_well_formed (LINE_MAX : Nat) (openable : List Char → Bool) (dir : List Char)
    (pp : name_set) (trace : vcd)
    (hyp : ∀ c ∈ trace, ∀ nv ∈ c, nv.1.length < LINE_MAX ∧ bit_string nv.2)
    (hopen : ∀ c ∈ trace, ∀ nv ∈ c, verilog_name_of nv.1 ∈ pp →
      openable (dat_path dir (verilog_name_of nv.1)) = true) :
    ∀ c ∈ trace, ∀ nv ∈ c, nv.1.length < LINE_MAX
      ∧ (verilog_name_of nv.1 ∈ pp →
          bit_string nv.2 ∧ openable (dat_path dir (verilog_name_of nv.1)) = true) :=
  fun c hc nv hnv => ⟨(hyp c hc nv hnv).1, fun hm => ⟨(hyp c hc nv hnv).2, hopen c hc nv hnv hm⟩⟩

/-- A name whose `.dat` file cannot be opened: the signal `top::x/y`, tracked, in a run where
`d/x/y.dat` is refused (the directory `d/x` does not exist).  Phase 1 stops at its first
observation in the write through the null pointer, with the null pointer in the map and the
record made. -/
theorem harness_cycles_unopenable :
    harness_cycles 2048 (fun path => decide (path ≠ "d/x/y.dat".toList)) "d".toList
        ["x/y".toList] [[("top::x/y".toList, "b1".toList)]] ⟨[], []⟩
      = Except.error (Fault.null_stream,
          ⟨[("x/y".toList, none)], [generic_signal.mk 1 "x/y".toList]⟩) := by
  have hv : vcd2name 2048 "top::x/y".toList = some "x/y".toList :=
    (vcd2name_eq 2048 _ (by decide)).trans (by decide)
  have hb : bits2hex "b1".toList = Except.ok "1".toList := by rfl
  have hr := harness_record_null (fun path => decide (path ≠ "d/x/y.dat".toList)) "d".toList
    ⟨[], []⟩ "x/y".toList "b1".toList "1".toList rfl (by decide)
  simp only [harness_cycles, harness_names, hv]
  rw [if_neg (by decide), hb]
  simp only []
  rw [hr]
  rfl

/-! ### The generated harness -/

theorem poke_stmt_eq (should_poke : name_set) (v : List Char) (s : generic_signal)
    (h : NUL ∉ s.name) :
    poke_stmt should_poke v s
      = v ++ (if s.name ∈ should_poke then unlines [poke_line s.name] else []) := by
  unfold poke_stmt
  by_cases hm : s.name ∈ should_poke
  · rw [if_neg (by simpa using hm), if_pos hm, fmt_s_of_no_NUL _ h]
    simp [unlines, poke_line]
  · rw [if_pos hm, if_neg hm]
    simp

theorem compare_stmt_eq (should_poke : name_set) (v : List Char) (s : generic_signal)
    (h : NUL ∉ s.name) :
    compare_stmt should_poke v s
      = v ++ (if s.name ∈ should_poke then [] else unlines (compare_lines s.name)) := by
  unfold compare_stmt
  have e : "        failed <= 1'b1;\n".toList = "        failed <= 1'b1;".toList ++ "\n".toList := by
    decide
  have e2 : "[cycle])\n".toList = "[cycle])".toList ++ "\n".toList := by decide
  by_cases hm : s.name ∈ should_poke
  · rw [if_pos (by simpa using hm), if_pos hm]
    simp
  · rw [if_neg (by simpa using hm), if_neg hm, fmt_s_of_no_NUL _ h, e, e2]
    simp [unlines, compare_lines]

theorem poke_loop_spec (should_poke : name_set) (signals : List generic_signal) :
    ∀ (v : List Char), (∀ s ∈ signals, NUL ∉ s.name) →
    signals.foldl (poke_stmt should_poke) v = v ++ unlines (poke_lines should_poke signals) := by
  induction signals with
  | nil => intro v _; simp [poke_lines, poked, unlines]
  | cons s ss ih =>
    intro v h
    have hs := h s (List.mem_cons_self _ _)
    have hss : ∀ x ∈ ss, NUL ∉ x.name := fun x hx => h x (List.mem_cons_of_mem _ hx)
    rw [List.foldl_cons, ih _ hss, poke_stmt_eq should_poke v s hs]
    by_cases hm : s.name ∈ should_poke
    · rw [if_pos hm]
      have e : poke_lines should_poke (s :: ss) = poke_line s.name :: poke_lines should_poke ss := by
        simp [poke_lines, poked, hm]
      rw [e]
      simp [unlines]
    · rw [if_neg hm]
      have e : poke_lines should_poke (s :: ss) = poke_lines should_poke ss := by
        simp [poke_lines, poked, hm]
      rw [e]
      simp

theorem compare_loop_spec (should_poke : name_set) (signals : List generic_signal) :
    ∀ (v : List Char), (∀ s ∈ signals, NUL ∉ s.name) →
    signals.foldl (compare_stmt should_poke) v
      = v ++ unlines (compare_blocks should_poke signals) := by
  induction signals with
  | nil => intro v _; simp [compare_blocks, compared, unlines]
  | cons s ss ih =>
    intro v h
    have hs := h s (List.mem_cons_self _ _)
    have hss : ∀ x ∈ ss, NUL ∉ x.name := fun x hx => h x (List.mem_cons_of_mem _ hx)
    rw [List.foldl_cons, ih _ hss, compare_stmt_eq should_poke v s hs]
    by_cases hm : s.name ∈ should_poke
    · rw [if_pos hm]
      have e : compare_blocks should_poke (s :: ss) = compare_blocks should_poke ss := by
        simp [compare_blocks, compared, hm]
      rw [e]
      simp
    · rw [if_neg hm]
      have e : compare_blocks should_poke (s :: ss)
          = compare_lines s.name ++ compare_blocks should_poke ss := by
        simp [compare_blocks, compared, hm]
      rw [e, unlines_append]
      simp

theorem poke_compare_process_spec (should_poke : name_set) (signals : List generic_signal)
    (v : List Char) (h : ∀ s ∈ signals, NUL ∉ s.name) :
    poke_compare_process should_poke signals v
      = v ++ unlines (process_lines should_poke signals) := by
  unfold poke_compare_process
  simp only []
  rw [poke_loop_spec should_poke signals _ h, compare_loop_spec should_poke signals _ h]
  have e : ("  always @(posedge clk)\n" ++ "    begin\n" ++ "      reset <= 1'b0;\n").toList
      = unlines ["  always @(posedge clk)".toList, "    begin".toList,
          "      reset <= 1'b0;".toList] := by decide
  have e2 : "    end\n".toList = unlines ["    end".toList] := by decide
  rw [e, e2]
  simp only [process_lines, unlines_append, List.append_assoc]

theorem count_filter_split (should_poke : name_set) (signals : List generic_signal)
    (n : List Char) :
    ((poked should_poke signals).map generic_signal.name).count n
      + ((compared should_poke signals).map generic_signal.name).count n
      = (signals.map generic_signal.name).count n := by
  unfold poked compared
  induction signals with
  | nil => simp
  | cons s ss ih =>
    by_cases hm : s.name ∈ should_poke
    · have e1 : (s :: ss).filter (fun s => decide (s.name ∈ should_poke))
          = s :: ss.filter (fun s => decide (s.name ∈ should_poke)) := by simp [hm]
      have e2 : (s :: ss).filter (fun s => decide (s.name ∉ should_poke))
          = ss.filter (fun s => decide (s.name ∉ should_poke)) := by simp [hm]
      rw [e1, e2]
      simp only [List.map_cons, List.count_cons]
      omega
    · have e1 : (s :: ss).filter (fun s => decide (s.name ∈ should_poke))
          = ss.filter (fun s => decide (s.name ∈ should_poke)) := by simp [hm]
      have e2 : (s :: ss).filter (fun s => decide (s.name ∉ should_poke))
          = s :: ss.filter (fun s => decide (s.name ∉ should_poke)) := by simp [hm]
      rw [e1, e2]
      simp only [List.map_cons, List.count_cons]
      omega

theorem length_filter_split (should_poke : name_set) (signals : List generic_signal) :
    (poked should_poke signals).length + (compared should_poke signals).length
      = signals.length := by
  unfold poked compared
  induction signals with
  | nil => simp
  | cons s ss ih =>
    by_cases hm : s.name ∈ should_poke
    · have e1 : (s :: ss).filter (fun s => decide (s.name ∈ should_poke))
          = s :: ss.filter (fun s => decide (s.name ∈ should_poke)) := by simp [hm]
      have e2 : (s :: ss).filter (fun s => decide (s.name ∉ should_poke))
          = ss.filter (fun s => decide (s.name ∉ should_poke)) := by simp [hm]
      rw [e1, e2]
      simp only [List.length_cons]
      omega
    · have e1 : (s :: ss).filter (fun s => decide (s.name ∈ should_poke))
          = ss.filter (fun s => decide (s.name ∈ should_poke)) := by simp [hm]
      have e2 : (s :: ss).filter (fun s => decide (s.name ∉ should_poke))
          = s :: ss.filter (fun s => decide (s.name ∉ should_poke)) := by simp [hm]
      rw [e1, e2]
      simp only [List.length_cons]
      omega

theorem harness_text_ends (class_name : List Char) (should_poke : name_set)
    (signals : List generic_signal) (h : ∀ s ∈ signals, NUL ∉ s.name) :
    ∃ declarations, harness_text class_name should_poke signals
      = declarations ++ unlines (process_lines should_poke signals) ++ "endmodule\n".toList := by
  unfold harness_text
  simp only []
  rw [poke_compare_process_spec should_poke signals _ h]
  exact ⟨_, rfl⟩

theorem count_eq_one_of_nodup (l : List (List Char)) (a : List Char) (hnd : l.Nodup)
    (h : a ∈ l) : l.count a = 1 := by
  induction l with
  | nil => simp at h
  | cons b l ih =>
    rw [List.count_cons]
    have hb := (List.nodup_cons.1 hnd).1
    have hl := (List.nodup_cons.1 hnd).2
    by_cases e : b = a
    · subst e
      have h0 : l.count b = 0 := List.count_eq_zero.2 hb
      simp [h0]
    · have hm : a ∈ l := by
        rcases List.mem_cons.1 h with h1 | h1
        · exact absurd h1.symm e
        · exact h1
      simp [ih hl hm, e]

theorem harness_should_poke_IN (LINE_MAX : Nat) (d : List Char) (ops : List operation)
    (m : name_set) (n : List Char) (h : vcd2name LINE_MAX d = some n) :
    harness_should_poke LINE_MAX (⟨opcode.IN, d⟩ :: ops) m
      = harness_should_poke LINE_MAX ops (m.insert n) := by
  simp only [harness_should_poke, h, if_true]

theorem harness_should_poke_skip (LINE_MAX : Nat) (op : operation) (ops : List operation)
    (m : name_set) (h : op.op ≠ opcode.IN) :
    harness_should_poke LINE_MAX (op :: ops) m = harness_should_poke LINE_MAX ops m := by
  simp only [harness_should_poke, if_neg h]

theorem harness_should_poke_or_peek_IN (LINE_MAX : Nat) (d : List Char) (ops : List operation)
    (m : name_set) (n : List Char) (h : vcd2name LINE_MAX d = some n) :
    harness_should_poke_or_peek LINE_MAX (⟨opcode.IN, d⟩ :: ops) m
      = harness_should_poke_or_peek LINE_MAX ops (m.insert n) := by
  have hno : ¬ opcode.IN = opcode.OUT := by decide
  simp only [harness_should_poke_or_peek, h, if_true, if_neg hno]

theorem harness_should_poke_or_peek_OUT (LINE_MAX : Nat) (d : List Char) (ops : List operation)
    (m : name_set) (n : List Char) (h : vcd2name LINE_MAX d = some n) :
    harness_should_poke_or_peek LINE_MAX (⟨opcode.OUT, d⟩ :: ops) m
      = harness_should_poke_or_peek LINE_MAX ops (m.insert n) := by
  have hni : ¬ opcode.OUT = opcode.IN := by decide
  simp only [harness_should_poke_or_peek, h, if_true, if_neg hni]

/-- A complete run of the harness tool on a fresh directory: phase 1 ends in the state
described by `phase1_state`, and the harness file holds `harness_text` of its records. -/
theorem harness_main_spec (LINE_MAX : Nat) (openable : List Char → Bool)
    (dir class_name : List Char) (operations : List operation) (trace : vcd)
    (should_poke should_poke_or_peek : name_set)
    (h1 : harness_should_poke LINE_MAX operations [] = some should_poke)
    (h2 : harness_should_poke_or_peek LINE_MAX operations [] = some should_poke_or_peek)
    (hyp : ∀ c ∈ trace, ∀ nv ∈ c, nv.1.length < LINE_MAX
      ∧ (verilog_name_of nv.1 ∈ should_poke_or_peek →
          bit_string nv.2 ∧ openable (dat_path dir (verilog_name_of nv.1)) = true))
    (hv : openable (harness_path dir class_name) = true) :
    ∃ st, harness_cycles LINE_MAX openable dir should_poke_or_peek trace ⟨[], []⟩
          = Except.ok st
      ∧ phase1_state dir st (observations should_poke_or_peek trace)
      ∧ harness_main LINE_MAX openable true dir class_name operations trace
          = Except.ok ⟨st.signal2file, st.signals,
              ⟨harness_path dir class_name, harness_text class_name should_poke st.signals⟩⟩ := by
  obtain ⟨st, h3, h4⟩ := harness_cycles_spec LINE_MAX openable dir should_poke_or_peek trace
    ⟨[], []⟩ [] hyp (phase1_state_init dir)
  refine ⟨st, h3, by simpa using h4, ?_⟩
  have ho : fopen_w openable (dir ++ "/".toList ++ class_name ++ "_vcd2verilog.v".toList)
      = some ⟨harness_path dir class_name, []⟩ := by
    unfold fopen_w
    rw [show dir ++ "/".toList ++ class_name ++ "_vcd2verilog.v".toList
      = harness_path dir class_name from rfl, hv]
    rfl
  unfold harness_main
  rw [if_neg (by simp), h1]
  simp only []
  rw [h2]
  simp only []
  rw [h3]
  simp only []
  rw [ho]
  simp [fprintf, FILE.fprintf]

/-- Every complete run of the harness tool has the records of the first observations and
the harness file `harness_text` of them. -/
theorem harness_main_complete (LINE_MAX : Nat) (openable : List Char → Bool)
    (dir class_name : List Char) (operations : List operation) (trace : vcd)
    (should_poke should_poke_or_peek : name_set)
    (h1 : harness_should_poke LINE_MAX operations [] = some should_poke)
    (h2 : harness_should_poke_or_peek LINE_MAX operations [] = some should_poke_or_peek)
    (hyp : ∀ c ∈ trace, ∀ nv ∈ c, nv.1.length < LINE_MAX) (out : harness_output)
    (hout : harness_main LINE_MAX openable true dir class_name operations trace
      = Except.ok out) :
    out.signals = first_records [] (observations should_poke_or_peek trace)
      ∧ out.v = ⟨harness_path dir class_name,
          harness_text class_name should_poke out.signals⟩ := by
  obtain ⟨os1, more, e1, hrec, hmore⟩ := harness_cycles_records LINE_MAX openable dir
    should_poke_or_peek trace ⟨[], []⟩ [] hyp records_state_init
  unfold harness_main at hout
  rw [if_neg (by simp), h1] at hout
  simp only [] at hout
  rw [h2] at hout
  simp only [] at hout
  cases h3 : harness_cycles LINE_MAX openable dir should_poke_or_peek trace ⟨[], []⟩ with
  | error e =>
    rw [h3] at hout
    cases hout
  | ok st =>
    rw [h3] at hout hrec
    have hm := hmore st h3
    subst hm
    rw [List.append_nil] at e1
    rw [List.nil_append, ← e1] at hrec
    simp only [] at hout
    cases ho : openable (harness_path dir class_name) with
    | false =>
      have hn : fopen_w openable (dir ++ "/".toList ++ class_name ++ "_vcd2verilog.v".toList)
          = none := by
        unfold fopen_w
        rw [show dir ++ "/".toList ++ class_name ++ "_vcd2verilog.v".toList
          = harness_path dir class_name from rfl, ho]
        rfl
      rw [hn] at hout
      cases hout
    | true =>
      have hn : fopen_w openable (dir ++ "/".toList ++ class_name ++ "_vcd2verilog.v".toList)
          = some ⟨harness_path dir class_name, []⟩ := by
        unfold fopen_w
        rw [show dir ++ "/".toList ++ class_name ++ "_vcd2verilog.v".toList
          = harness_path dir class_name from rfl, ho]
        rfl
      rw [hn] at hout
      cases hout
      exact ⟨hrec.2, by simp [FILE.fprintf]⟩

theorem mem_observations (pp : name_set) (trace : vcd) (n : List Char) :
    n ∈ (observations pp trace).map Prod.fst
      ↔ n ∈ pp ∧ ∃ c ∈ trace, ∃ nv ∈ c, verilog_name_of nv.1 = n := by
  unfold observations
  simp only [List.map_map, List.mem_map, List.mem_filter, List.mem_flatten, Function.comp,
    decide_eq_true_eq]
  constructor
  · rintro ⟨nv, ⟨⟨c, hc, hnv⟩, hm⟩, e⟩
    exact ⟨e ▸ hm, c, hc, nv, hnv, e⟩
  · rintro ⟨hm, c, hc, nv, hnv, e⟩
    exact ⟨nv, ⟨⟨c, hc, hnv⟩, e ▸ hm⟩, e⟩

theorem dat_lines_observations (pp : name_set) (trace : vcd) (n : List Char) (hn : n ∈ pp) :
    dat_lines (observations pp trace) n
      = (trace.flatten.filter (fun nv => decide (verilog_name_of nv.1 = n))).map
          (fun nv => hex_of nv.2) := by
  unfold dat_lines observations
  rw [List.filter_map, List.map_map, List.filter_filter]
  congr 1
  apply List.filter_congr
  intro nv _
  simp only [Function.comp, Bool.decide_and, Bool.and_eq_true, decide_eq_true_eq]
  by_cases e : verilog_name_of nv.1 = n
  · simp [e, hn]
  · simp [e]

theorem example_cycle_ok :
    ∀ c ∈ example_cycle, ∀ nv ∈ c, nv.1.length < 2048 ∧ bit_string nv.2 := by
  intro c hc nv hnv
  simp only [example_cycle, List.mem_singleton] at hc
  subst hc
  simp only [List.mem_cons, List.mem_singleton, List.not_mem_nil, or_false] at hnv
  rcases hnv with rfl | rfl | rfl
  · exact ⟨by decide, ['1'], by decide, by decide, by decide⟩
  · exact ⟨by decide, ['1', '0', '1', '0'], by decide, by decide, by decide⟩
  · exact ⟨by decide, ['0'], by decide, by decide, by decide⟩


set_option maxRecDepth 100000 in
theorem example_harness_text :
    harness_text "Top".toList ["in".toList]
      [generic_signal.mk 1 "in".toList, generic_signal.mk 4 "out".toList] = example_harness := by
  decide


/-! ### Texts and their lines -/

theorem split_lines_from_line (l : List Char) : ∀ (cur rest : List Char), '\n' ∉ l →
    split_lines_from cur (l ++ '\n' :: rest) = (cur ++ l) :: split_lines_from [] rest := by
  induction l with
  | nil => intro cur rest _; simp [split_lines_from]
  | cons c cs ih =>
    intro cur rest h
    simp only [List.mem_cons, not_or] at h
    have hc : c ≠ '\n' := fun e => h.1 e.symm
    rw [List.cons_append]
    simp only [split_lines_from, if_neg hc]
    rw [ih _ _ h.2]
    simp

/-- Cutting at the newlines a text made of newline-free lines gives the lines back. -/
theorem split_lines_unlines (ls : List (List Char)) (h : ∀ l ∈ ls, '\n' ∉ l) :
    split_lines (unlines ls) = ls := by
  unfold split_lines
  induction ls with
  | nil => simp [unlines, split_lines_from]
  | cons l ls ih =>
    have hl := h l (List.mem_cons_self _ _)
    have hls : ∀ x ∈ ls, '\n' ∉ x := fun x hx => h x (List.mem_cons_of_mem _ hx)
    rw [unlines_cons]
    have e : l ++ "\n".toList ++ unlines ls = l ++ '\n' :: unlines ls := by simp
    rw [e, split_lines_from_line l [] _ hl, ih hls]
    simp

theorem toDigits_no_newline (b : Nat) (hb : 0 < b) (hb16 : b ≤ 16) (n : Nat) :
    '\n' ∉ Nat.toDigits b n := by
  intro h
  obtain ⟨k, hk, e⟩ := toDigits_mem b hb n '\n' h
  have hk16 : k < 16 := by omega
  revert e
  interval_cases k <;> decide

theorem hex_lines_no_newline (values : List (List Char × List Char)) :
    ∀ l ∈ values.map (fun nv => hex_of nv.2), '\n' ∉ l := by
  intro l hl
  obtain ⟨nv, _, e⟩ := List.mem_map.1 hl
  rw [← e]
  exact toDigits_no_newline 16 (by omega) (by omega) _

/-! ### Leading digits -/

theorem toDigits_zero (b : Nat) : Nat.toDigits b 0 = ['0'] := by
  simp only [Nat.toDigits, Nat.toDigitsCore, Nat.zero_div, Nat.zero_mod, if_true]
  rfl

theorem toDigitsCore_head (b : Nat) (hb : 2 ≤ b) (fuel : Nat) :
    ∀ (n : Nat), n < fuel → 0 < n →
    ∃ k rest, 0 < k ∧ k < b ∧ Nat.toDigitsCore b fuel n [] = Nat.digitChar k :: rest := by
  induction fuel with
  | zero => intro n h; omega
  | succ fuel ih =>
    intro n hn hpos
    simp only [Nat.toDigitsCore]
    split
    · rename_i h0
      have hlt : n < b := by
        rcases Nat.lt_or_ge n b with h | h
        · exact h
        · have : 0 < n / b := Nat.div_pos h (by omega)
          omega
      exact ⟨n, [], hpos, hlt, by rw [Nat.mod_eq_of_lt hlt]⟩
    · rename_i h0
      have hdiv : n / b < n := Nat.div_lt_self hpos (by omega)
      obtain ⟨k, rest, hk, hkb, e⟩ := ih (n / b) (by omega) (Nat.pos_of_ne_zero h0)
      rw [toDigitsCore_append, e]
      exact ⟨k, rest ++ [Nat.digitChar (n % b)], hk, hkb, rfl⟩

theorem toDigits_head (b : Nat) (hb : 2 ≤ b) (n : Nat) (hpos : 0 < n) :
    ∃ k rest, 0 < k ∧ k < b ∧ Nat.toDigits b n = Nat.digitChar k :: rest :=
  toDigitsCore_head b hb (n + 1) n (by omega) hpos

/-- A numeral printed by `Nat.toDigits` in base 10 is `0` or starts with one of `1`-`9`. -/
theorem toDigits_decimal_head (n : Nat) :
    Nat.toDigits 10 n = ['0']
      ∨ ∃ c rest, Nat.toDigits 10 n = c :: rest ∧ c ∈ "123456789".toList := by
  rcases Nat.eq_zero_or_pos n with h | h
  · left; rw [h, toDigits_zero]
  · right
    obtain ⟨k, rest, hk, hkb, e⟩ := toDigits_head 10 (by omega) n h
    refine ⟨_, rest, e, ?_⟩
    interval_cases k <;> decide

/-- A numeral printed by `Nat.toDigits` in base 16 is `0` or starts with one of `1`-`9`,
`a`-`f`. -/
theorem toDigits_hex_head (n : Nat) :
    Nat.toDigits 16 n = ['0']
      ∨ ∃ c rest, Nat.toDigits 16 n = c :: rest ∧ c ∈ "123456789abcdef".toList := by
  rcases Nat.eq_zero_or_pos n with h | h
  · left; rw [h, toDigits_zero]
  · right
    obtain ⟨k, rest, hk, hkb, e⟩ := toDigits_head 16 (by omega) n h
    refine ⟨_, rest, e, ?_⟩
    interval_cases k <;> decide

theorem binary_value_zeros_append (k : Nat) (bits : List Char) :
    binary_value (List.replicate k '0' ++ bits) = binary_value bits := by
  unfold binary_value
  rw [List.foldl_append]
  congr 1
  induction k with
  | zero => rfl
  | succ k ih =>
    rw [List.replicate_succ, List.foldl_cons]
    simpa using ih

theorem binary_value_zeros (k : Nat) : binary_value (List.replicate k '0') = 0 := by
  have := binary_value_zeros_append k []
  simpa [binary_value] using this

theorem zeros_append_bits (k : Nat) (bits : List Char)
    (h01 : ∀ c ∈ bits, c = '0' ∨ c = '1') :
    ∀ c ∈ List.replicate k '0' ++ bits, c = '0' ∨ c = '1' := by
  intro c hc
  rcases List.mem_append.1 hc with h | h
  · exact Or.inl (List.eq_of_mem_replicate h)
  · exact h01 c h

/-! ### The lines of the `.dat` files -/

/-- After phase 1 every file of `signal2file` is `<dir>/<n>.dat` and holds the hexadecimal
values of the observations of `n`, one per line, in trace order. -/
theorem harness_cycles_files (LINE_MAX : Nat) (openable : List Char → Bool) (dir : List Char)
    (pp : name_set) (trace : vcd)
    (hyp : ∀ c ∈ trace, ∀ nv ∈ c, nv.1.length < LINE_MAX
      ∧ (verilog_name_of nv.1 ∈ pp →
          bit_string nv.2 ∧ openable (dat_path dir (verilog_name_of nv.1)) = true)) :
    ∃ st, harness_cycles LINE_MAX openable dir pp trace ⟨[], []⟩ = Except.ok st
      ∧ phase1_state dir st (observations pp trace)
      ∧ ∀ n file, find st.signal2file n = some file →
          n ∈ pp ∧ (∃ c ∈ trace, ∃ nv ∈ c, verilog_name_of nv.1 = n)
            ∧ file = some ⟨dat_path dir n, unlines
                ((trace.flatten.filter (fun nv => decide (verilog_name_of nv.1 = n))).map
                  (fun nv => hex_of nv.2))⟩ := by
  obtain ⟨st, h1, h2⟩ := harness_cycles_spec LINE_MAX openable dir pp trace ⟨[], []⟩ [] hyp
    (phase1_state_init dir)
  rw [List.nil_append] at h2
  refine ⟨st, h1, h2, ?_⟩
  intro n file hf
  rw [h2.1 n] at hf
  by_cases hm : n ∈ (observations pp trace).map Prod.fst
  · rw [if_pos hm] at hf
    have hn := (mem_observations pp trace n).1 hm
    have e := Option.some.inj hf
    rw [← e, dat_lines_observations pp trace n hn.1]
    exact ⟨hn.1, hn.2, rfl⟩
  · rw [if_neg hm] at hf
    simp at hf

theorem value_in_of_filter (n : List Char) (c : cycle)
    (h : (c.filter (fun nv => decide (verilog_name_of nv.1 = n))).length = 1) :
    (c.filter (fun nv => decide (verilog_name_of nv.1 = n))).map (fun nv => hex_of nv.2)
      = [hex_of (value_in n c)] := by
  induction c with
  | nil => simp at h
  | cons x xs ih =>
    by_cases hx : verilog_name_of x.1 = n
    · have e : (x :: xs).filter (fun nv => decide (verilog_name_of nv.1 = n))
          = x :: xs.filter (fun nv => decide (verilog_name_of nv.1 = n)) := by simp [hx]
      rw [e] at h ⊢
      simp only [List.length_cons] at h
      have h0 : xs.filter (fun nv => decide (verilog_name_of nv.1 = n)) = [] :=
        List.length_eq_zero.1 (by omega)
      rw [h0]
      simp [value_in, hx]
    · have e : (x :: xs).filter (fun nv => decide (verilog_name_of nv.1 = n))
          = xs.filter (fun nv => decide (verilog_name_of nv.1 = n)) := by simp [hx]
      rw [e] at h ⊢
      rw [ih h]
      simp [value_in, hx]

theorem lines_of_single_observations (n : List Char) (trace : vcd)
    (h : ∀ c ∈ trace, (c.filter (fun nv => decide (verilog_name_of nv.1 = n))).length = 1) :
    (trace.flatten.filter (fun nv => decide (verilog_name_of nv.1 = n))).map
        (fun nv => hex_of nv.2)
      = trace.map (fun c => hex_of (value_in n c)) := by
  induction trace with
  | nil => rfl
  | cons c cs ih =>
    have hc := h c (List.mem_cons_self _ _)
    have hcs : ∀ c ∈ cs, (c.filter (fun nv => decide (verilog_name_of nv.1 = n))).length = 1 :=
      fun c1 hc1 => h c1 (List.mem_cons_of_mem _ hc1)
    rw [List.flatten_cons, List.filter_append, List.map_append, value_in_of_filter n c hc,
      ih hcs]
    rfl

theorem example_collision_ok :
    ∀ c ∈ example_collision, ∀ nv ∈ c, nv.1.length < 2048 ∧ bit_string nv.2 := by
  intro c hc nv hnv
  simp only [example_collision, List.mem_singleton] at hc
  subst hc
  simp only [List.mem_cons, List.mem_singleton, List.not_mem_nil, or_false] at hnv
  rcases hnv with rfl | rfl
  · exact ⟨by decide, ['1'], by decide, by decide, by decide⟩
  · exact ⟨by decide, ['0'], by decide, by decide, by decide⟩

/-! ### The declarations of the generated harness -/

theorem foldl_unlines {α : Type} (f : List Char → α → List Char) (g : α → List Char)
    (l : List α) :
    (∀ v, ∀ a ∈ l, f v a = v ++ (g a ++ "\n".toList)) →
    ∀ v, l.foldl f v = v ++ unlines (l.map g) := by
  induction l with
  | nil => intro _ v; simp [unlines]
  | cons a l ih =>
    intro h v
    have ha := h v a (List.mem_cons_self _ _)
    have hl : ∀ v, ∀ x ∈ l, f v x = v ++ (g x ++ "\n".toList) :=
      fun v x hx => h v x (List.mem_cons_of_mem _ hx)
    rw [List.foldl_cons, ih hl, ha, List.map_cons, unlines_cons]
    simp only [List.append_assoc]

theorem reg_decl_eq (v : List Char) (s : generic_signal) (h : NUL ∉ s.name) :
    reg_decl v s = v ++ (reg_line s ++ "\n".toList) := by
  have e : ";\n".toList = ";".toList ++ "\n".toList := by decide
  unfold reg_decl reg_line
  rw [fmt_s_of_no_NUL _ h, e]
  split <;> simp only [List.append_assoc]

theorem list_decl_eq (v : List Char) (s : generic_signal) (h : NUL ∉ s.name) :
    list_decl v s = v ++ (list_line s ++ "\n".toList) := by
  have e : " [0:`CYCLE_MAX];\n".toList = " [0:`CYCLE_MAX];".toList ++ "\n".toList := by decide
  unfold list_decl list_line
  rw [fmt_s_of_no_NUL _ h, e]
  split <;> simp only [List.append_assoc]

theorem port_decl_eq (v : List Char) (s : generic_signal) (h : NUL ∉ s.name) :
    port_decl v s = v ++ (port_line s ++ "\n".toList) := by
  have e : "),\n".toList = "),".toList ++ "\n".toList := by decide
  unfold port_decl port_line
  rw [fmt_s_of_no_NUL _ h, e]
  simp only [List.append_assoc]

theorem readmemh_decl_eq (v : List Char) (s : generic_signal) (h : NUL ∉ s.name) :
    readmemh_decl v s = v ++ (readmemh_line s.name s.name ++ "\n".toList) := by
  have e : ");\n".toList = ");".toList ++ "\n".toList := by decide
  unfold readmemh_decl readmemh_line
  rw [fmt_s_of_no_NUL _ h, e]
  simp only [List.append_assoc]

/-- The whole harness file, section by section. -/
theorem harness_text_sections (class_name : List Char) (should_poke : name_set)
    (signals : List generic_signal) (h : ∀ s ∈ signals, NUL ∉ s.name) :
    harness_text class_name should_poke signals
      = "// Auto-Generated by vcd2verilog\n".toList
        ++ ("module ".toList ++ fmt_s class_name ++ "_vcd2verilog;\n".toList)
        ++ "  reg clk = 0;\n".toList
        ++ unlines (signals.map reg_line)
        ++ unlines (signals.map list_line)
        ++ ("  ".toList ++ fmt_s class_name ++ " ".toList ++ fmt_s class_name
            ++ "\n  (\n".toList)
        ++ unlines (signals.map port_line)
        ++ "  );\n".toList
        ++ ("  initial begin\n" ++ "  end\n").toList
        ++ "  initial begin\n".toList
        ++ "    //$vcdpluson;\n".toList
        ++ unlines (signals.map (fun s => readmemh_line s.name s.name))
        ++ "  end\n".toList
        ++ cycle_process
        ++ unlines (process_lines should_poke signals)
        ++ "endmodule\n".toList := by
  unfold harness_text
  simp only []
  rw [poke_compare_process_spec should_poke signals _ h,
    foldl_unlines readmemh_decl (fun s => readmemh_line s.name s.name) signals
      (fun v s hs => readmemh_decl_eq v s (h s hs)),
    foldl_unlines port_decl port_line signals (fun v s hs => port_decl_eq v s (h s hs)),
    foldl_unlines list_decl list_line signals (fun v s hs => list_decl_eq v s (h s hs)),
    foldl_unlines reg_decl reg_line signals (fun v s hs => reg_decl_eq v s (h s hs))]
  simp only [List.append_assoc, List.nil_append]

/-! ### Segments -/

theorem after_dot_segment (s0 t : List Char) (h : '.' ∉ s0) :
    after_dot (s0 ++ '.' :: t) = t := by
  induction s0 with
  | nil => simp [after_dot]
  | cons c cs ih =>
    simp only [List.mem_cons, not_or] at h
    have hc : c ≠ '.' := fun e => h.1 e.symm
    rw [List.cons_append]
    simp only [after_dot, if_neg hc]
    exact ih h.2

theorem map_underscore_join (segments : List (List Char)) (h : ∀ s ∈ segments, '.' ∉ s) :
    (join_with '.' segments).map underscore = join_with '_' segments := by
  induction segments with
  | nil => rfl
  | cons s rest ih =>
    have hs := h s (List.mem_cons_self _ _)
    have hrest : ∀ x ∈ rest, '.' ∉ x := fun x hx => h x (List.mem_cons_of_mem _ hx)
    cases rest with
    | nil => simpa [join_with] using map_underscore_of_no_dot s hs
    | cons t rest2 =>
      simp only [join_with, List.map_append, List.map_cons]
      rw [map_underscore_of_no_dot s hs, ih hrest]
      simp [underscore]

/-- Flattening a dotted form of two or more segments drops the first segment and joins the
others with underscores. -/
theorem flatten_join (s0 : List Char) (s1 : List Char) (rest : List (List Char))
    (h : ∀ s ∈ s0 :: s1 :: rest, '.' ∉ s) :
    flatten (join_with '.' (s0 :: s1 :: rest)) = join_with '_' (s1 :: rest) := by
  have h0 := h s0 (List.mem_cons_self _ _)
  have hrest : ∀ x ∈ s1 :: rest, '.' ∉ x := fun x hx => h x (List.mem_cons_of_mem _ hx)
  have e : join_with '.' (s0 :: s1 :: rest) = s0 ++ '.' :: join_with '.' (s1 :: rest) := rfl
  rw [e, flatten, if_pos (by simp), after_dot_segment s0 _ h0, map_underscore_join _ hrest]

/-! ### The texts accepted by the big-integer parser -/

theorem digit_value_binary (c : Char) (d : Nat) (h : digit_value c = some d) (hd : d < 2) :
    c = '0' ∨ c = '1' := by
  have e0 : '0'.toNat = 48 := rfl
  have ea : 'a'.toNat = 97 := rfl
  have eA : 'A'.toNat = 65 := rfl
  unfold digit_value at h
  split at h
  · rename_i hr
    have h48 : 48 ≤ c.toNat := hr.1
    have hv := Option.some.inj h
    rw [e0] at hv
    have hc : c.toNat = 48 ∨ c.toNat = 49 := by omega
    rcases hc with hc | hc
    · left
      have := Char.ofNat_toNat c
      rw [hc] at this
      exact this.symm
    · right
      have := Char.ofNat_toNat c
      rw [hc] at this
      exact this.symm
  · split at h
    · have hv := Option.some.inj h
      omega
    · split at h
      · have hv := Option.some.inj h
        omega
      · simp at h

theorem digit_value_of_binary (c : Char) (h : binary_digit c = true) :
    ∃ d, digit_value c = some d ∧ d < 2 ∧ isspace c = false := by
  simp only [binary_digit, decide_eq_true_eq] at h
  rcases h with h | h
  · subst h; exact ⟨0, by decide, by decide, by decide⟩
  · subst h; exact ⟨1, by decide, by decide, by decide⟩

theorem binary_digit_of_digit_value (c : Char) (d : Nat) (h : digit_value c = some d)
    (hd : d < 2) : binary_digit c = true := by
  simp only [binary_digit, decide_eq_true_eq]
  exact digit_value_binary c d h hd

theorem mpz_digits_isSome (s : List Char) : ∀ acc,
    (mpz_digits 2 s acc).isSome = s.all (fun x => binary_digit x || isspace x) := by
  induction s with
  | nil => intro acc; rfl
  | cons c cs ih =>
    intro acc
    rw [List.all_cons]
    by_cases hsp : isspace c = true
    · simp only [mpz_digits, hsp, if_true, Bool.or_true, Bool.true_and]
      exact ih acc
    · have hsp2 : isspace c = false := by simpa using hsp
      cases hb : binary_digit c with
      | true =>
        obtain ⟨d, h1, h2, _⟩ := digit_value_of_binary c hb
        simp only [mpz_digits, hsp2, h1, if_pos h2, Bool.true_or, Bool.true_and]
        exact ih _
      | false =>
        simp only [hsp2, Bool.or_false, Bool.false_and]
        cases hdv : digit_value c with
        | none => simp [mpz_digits, hsp2, hdv]
        | some d =>
          have hd : ¬ d < 2 := by
            intro hlt
            rw [binary_digit_of_digit_value c d hdv hlt] at hb
            exact Bool.noConfusion hb
          simp [mpz_digits, hsp2, hdv, hd]

/-- The model of `mpz_set_str` in base 2 succeeds exactly on the texts of `parser_accepts`. -/
theorem mpz_set_str_isSome (rest : List Char) :
    (mpz_set_str rest 2).isSome = parser_accepts rest := by
  unfold mpz_set_str parser_accepts
  simp only []
  generalize (if (rest.dropWhile isspace).head? = some '-' then (rest.dropWhile isspace).drop 1
    else rest.dropWhile isspace) = t
  generalize decide ((rest.dropWhile isspace).head? = some '-') = neg
  cases t with
  | nil => rfl
  | cons c cs =>
    simp only []
    cases hb : binary_digit c with
    | true =>
      obtain ⟨d, h1, h2, h3⟩ := digit_value_of_binary c hb
      rw [h1]
      simp only [if_pos h2, Bool.true_and]
      have := mpz_digits_isSome (c :: cs) 0
      rw [List.all_cons, hb, Bool.true_or, Bool.true_and] at this
      rw [← this]
      cases mpz_digits 2 (c :: cs) 0 <;> rfl
    | false =>
      simp only [Bool.false_and]
      cases hdv : digit_value c with
      | none => rfl
      | some d =>
        have hd : ¬ d < 2 := by
          intro hlt
          rw [binary_digit_of_digit_value c d hdv hlt] at hb
          exact Bool.noConfusion hb
        simp only [if_neg hd]
        rfl

theorem value_accepted_false (value : List Char) (h : value_accepted value = false) :
    (c_str value).head? ≠ some 'b' ∨ mpz_set_str ((c_str value).drop 1) 2 = none := by
  unfold value_accepted at h
  cases hc : c_str value with
  | nil => left; simp
  | cons c rest =>
    rw [hc] at h
    simp only [Bool.and_eq_false_iff, decide_eq_false_iff_not] at h
    rcases h with h | h
    · left
      simpa using h
    · right
      have := mpz_set_str_isSome rest
      rw [h] at this
      simpa using this

theorem value_accepted_true (value : List Char) (h : value_accepted value = true) :
    (∃ text, bits2int value = Except.ok text) ∧ ∃ text, bits2hex value = Except.ok text := by
  unfold value_accepted at h
  cases hc : c_str value with
  | nil => rw [hc] at h; exact Bool.noConfusion h
  | cons c rest =>
    rw [hc] at h
    simp only [Bool.and_eq_true, decide_eq_true_eq] at h
    have hs := mpz_set_str_isSome rest
    rw [h.2] at hs
    obtain ⟨z, hz⟩ := Option.isSome_iff_exists.1 hs
    have hm : ¬ (c_str value).head? ≠ some 'b' := by
      rw [hc, h.1]
      simp
    have hd : (c_str value).drop 1 = rest := by rw [hc]; rfl
    exact ⟨⟨_, by unfold bits2int; rw [if_neg hm, hd, hz]⟩,
      ⟨_, by unfold bits2hex; rw [if_neg hm, hd, hz]⟩⟩

/-! ### The signal records -/

theorem first_records_not_seen (os : List (List Char × List Char)) :
    ∀ (seen : List (List Char)) (r : generic_signal), r ∈ first_records seen os →
    r.name ∉ seen ∧ r.name ∈ os.map Prod.fst := by
  induction os with
  | nil => intro seen r h; simp [first_records] at h
  | cons o os ih =>
    intro seen r h
    obtain ⟨n, v⟩ := o
    by_cases hn : n ∈ seen
    · simp only [first_records, if_pos hn] at h
      obtain ⟨h1, h2⟩ := ih seen r h
      exact ⟨h1, List.mem_cons_of_mem _ h2⟩
    · simp only [first_records, if_neg hn] at h
      rcases List.mem_cons.1 h with e | h
      · subst e
        exact ⟨hn, List.mem_cons_self _ _⟩
      · obtain ⟨h1, h2⟩ := ih (n :: seen) r h
        exact ⟨fun hm => h1 (List.mem_cons_of_mem _ hm), List.mem_cons_of_mem _ h2⟩

theorem first_records_mem (os : List (List Char × List Char)) :
    ∀ (seen : List (List Char)) (n : List Char), n ∈ os.map Prod.fst → n ∉ seen →
    n ∈ (first_records seen os).map generic_signal.name := by
  induction os with
  | nil => intro seen n h; simp at h
  | cons o os ih =>
    intro seen n h hs
    obtain ⟨m, v⟩ := o
    by_cases hm : m ∈ seen
    · simp only [first_records, if_pos hm]
      have hne : n ≠ m := fun e => hs (e ▸ hm)
      rcases List.mem_cons.1 h with e | h
      · exact absurd e hne
      · exact ih seen n h hs
    · simp only [first_records, if_neg hm, List.map_cons]
      by_cases e : n = m
      · rw [e]; exact List.mem_cons_self _ _
      · rcases List.mem_cons.1 h with e2 | h
        · exact absurd e2 e
        · refine List.mem_cons_of_mem _ (ih (m :: seen) n h ?_)
          intro hx
          rcases List.mem_cons.1 hx with e3 | hx
          · exact e e3
          · exact hs hx

theorem first_records_nodup (os : List (List Char × List Char)) :
    ∀ (seen : List (List Char)), ((first_records seen os).map generic_signal.name).Nodup := by
  induction os with
  | nil => intro seen; simp [first_records]
  | cons o os ih =>
    intro seen
    obtain ⟨n, v⟩ := o
    by_cases hn : n ∈ seen
    · simp only [first_records, if_pos hn]
      exact ih seen
    · simp only [first_records, if_neg hn, List.map_cons]
      refine List.nodup_cons.2 ⟨?_, ih (n :: seen)⟩
      intro hm
      obtain ⟨r, hr, e⟩ := List.mem_map.1 hm
      have := (first_records_not_seen os (n :: seen) r hr).1
      rw [e] at this
      exact this (List.mem_cons_self _ _)

theorem first_index_cons_ne (n m : List Char) (l : List (List Char)) (h : m ≠ n) :
    first_index n (m :: l) = first_index n l + 1 := by
  simp only [first_index, if_neg h]

theorem first_records_ordered (os : List (List Char × List Char)) :
    ∀ (seen : List (List Char)),
    List.Pairwise
      (fun a b => first_index a (os.map Prod.fst) < first_index b (os.map Prod.fst))
      ((first_records seen os).map generic_signal.name) := by
  induction os with
  | nil => intro seen; simp [first_records]
  | cons o os ih =>
    intro seen
    obtain ⟨n, v⟩ := o
    have shift : ∀ (seen1 : List (List Char)), n ∈ seen1 →
        ∀ a, a ∈ (first_records seen1 os).map generic_signal.name →
        first_index a (n :: os.map Prod.fst) = first_index a (os.map Prod.fst) + 1 := by
      intro seen1 hn a ha
      obtain ⟨r, hr, e⟩ := List.mem_map.1 ha
      have h1 := (first_records_not_seen os seen1 r hr).1
      rw [e] at h1
      exact first_index_cons_ne a n _ (fun e2 => h1 (e2 ▸ hn))
    by_cases hn : n ∈ seen
    · simp only [first_records, if_pos hn, List.map_cons]
      refine List.Pairwise.imp_of_mem ?_ (ih seen)
      intro a b ha hb hab
      rw [shift seen hn a ha, shift seen hn b hb]
      omega
    · simp only [first_records, if_neg hn, List.map_cons]
      refine List.pairwise_cons.2 ⟨?_, ?_⟩
      · intro b hb
        rw [shift (n :: seen) (List.mem_cons_self _ _) b hb]
        simp [first_index]
      · refine List.Pairwise.imp_of_mem ?_ (ih (n :: seen))
        intro a b ha hb hab
        rw [shift (n :: seen) (List.mem_cons_self _ _) a ha,
          shift (n :: seen) (List.mem_cons_self _ _) b hb]
        omega

theorem first_records_width (os : List (List Char × List Char)) :
    ∀ (seen : List (List Char)) (r : generic_signal), r ∈ first_records seen os →
    ∃ v, first_value r.name os = some v ∧ r.width = (v.length : Int) - 1 := by
  induction os with
  | nil => intro seen r h; simp [first_records] at h
  | cons o os ih =>
    intro seen r h
    obtain ⟨n, v⟩ := o
    by_cases hn : n ∈ seen
    · simp only [first_records, if_pos hn] at h
      obtain ⟨w, h1, h2⟩ := ih seen r h
      have hne : n ≠ r.name := fun e => (first_records_not_seen os seen r h).1 (e ▸ hn)
      exact ⟨w, by simp only [first_value, if_neg hne, h1], h2⟩
    · simp only [first_records, if_neg hn] at h
      rcases List.mem_cons.1 h with e | h
      · subst e
        exact ⟨v, by simp [first_value], rfl⟩
      · obtain ⟨w, h1, h2⟩ := ih (n :: seen) r h
        have hne : n ≠ r.name := fun e =>
          (first_records_not_seen os (n :: seen) r h).1 (e ▸ List.mem_cons_self _ _)
        exact ⟨w, by simp only [first_value, if_neg hne, h1], h2⟩

theorem first_records_prefix (os more : List (List Char × List Char)) :
    ∀ (seen : List (List Char)),
    ∃ extra, first_records seen (os ++ more) = first_records seen os ++ extra := by
  induction os with
  | nil => intro seen; exact ⟨first_records seen more, rfl⟩
  | cons o os ih =>
    intro seen
    obtain ⟨n, v⟩ := o
    by_cases hn : n ∈ seen
    · obtain ⟨extra, e⟩ := ih seen
      refine ⟨extra, ?_⟩
      rw [List.cons_append]
      simp only [first_records, if_pos hn]
      exact e
    · obtain ⟨extra, e⟩ := ih (n :: seen)
      refine ⟨extra, ?_⟩
      rw [List.cons_append]
      simp only [first_records, if_neg hn, List.cons_append]
      rw [e]

theorem observations_append (pp : name_set) (a b : vcd) :
    observations pp (a ++ b) = observations pp a ++ observations pp b := by
  simp [observations]


/-! ### Runs that stop, and the points of a run -/

theorem harness_names_split (LINE_MAX : Nat) (openable : List Char → Bool) (dir : List Char)
    (pp : name_set) (a b : cycle) :
    ∀ (st : harness_state),
    harness_names LINE_MAX openable dir pp (a ++ b) st
      = (harness_names LINE_MAX openable dir pp a st).bind
          (fun st1 => harness_names LINE_MAX openable dir pp b st1) := by
  induction a with
  | nil =>
    intro st
    simp [harness_names, Except.bind]
  | cons x xs ih =>
    intro st
    obtain ⟨vcd_name, value_bits⟩ := x
    simp only [List.cons_append, harness_names]
    cases hv : vcd2name LINE_MAX vcd_name with
    | none => rfl
    | some verilog_name =>
      simp only []
      by_cases hm : verilog_name ∉ pp
      · rw [if_pos hm, if_pos hm]
        exact ih st
      · rw [if_neg hm, if_neg hm]
        cases hb : bits2hex value_bits with
        | error f => rfl
        | ok value_int =>
          simp only []
          cases hr : harness_record openable dir st verilog_name value_bits value_int with
          | error e => rfl
          | ok st2 =>
            simp only []
            exact ih st2

theorem harness_cycles_split (LINE_MAX : Nat) (openable : List Char → Bool) (dir : List Char)
    (pp : name_set) (a b : vcd) :
    ∀ (st : harness_state),
    harness_cycles LINE_MAX openable dir pp (a ++ b) st
      = (harness_cycles LINE_MAX openable dir pp a st).bind
          (fun st1 => harness_cycles LINE_MAX openable dir pp b st1) := by
  induction a with
  | nil =>
    intro st
    simp [harness_cycles, Except.bind]
  | cons x xs ih =>
    intro st
    simp only [List.cons_append, harness_cycles]
    cases hx : harness_names LINE_MAX openable dir pp x st with
    | error e => rfl
    | ok st2 =>
      simp only []
      exact ih st2

/-- A run on a trace passes through the state reached after the cycles `before` and the
first names `pre` of the next cycle, or stops before. -/
theorem harness_cycles_point (LINE_MAX : Nat) (openable : List Char → Bool) (dir : List Char)
    (pp : name_set) (before after : vcd) (pre rest : cycle) (st : harness_state) :
    harness_cycles LINE_MAX openable dir pp (before ++ (pre ++ rest) :: after) st
      = (harness_cycles LINE_MAX openable dir pp (before ++ [pre]) st).bind
          (fun st1 => harness_cycles LINE_MAX openable dir pp (rest :: after) st1) := by
  rw [harness_cycles_split, harness_cycles_split LINE_MAX openable dir pp before [pre]]
  cases hb : harness_cycles LINE_MAX openable dir pp before st with
  | error e => rfl
  | ok st0 =>
    simp only [Except.bind, harness_cycles]
    rw [harness_names_split]
    cases hn : harness_names LINE_MAX openable dir pp pre st0 with
    | error e => rfl
    | ok st1 => rfl

theorem dat_lines_ne_nil (os : List (List Char × List Char)) (n : List Char)
    (h : n ∈ os.map Prod.fst) : dat_lines os n ≠ [] := by
  obtain ⟨o, ho, e⟩ := List.mem_map.1 h
  intro hnil
  unfold dat_lines at hnil
  rw [List.map_eq_nil_iff, List.filter_eq_nil_iff] at hnil
  exact hnil o ho (by simpa using e)

theorem value_in_mem (n : List Char) (c : cycle)
    (h : (c.filter (fun nv => decide (verilog_name_of nv.1 = n))).length = 1) :
    ∃ nv ∈ c, verilog_name_of nv.1 = n ∧ nv.2 = value_in n c := by
  induction c with
  | nil => simp at h
  | cons x xs ih =>
    by_cases hx : verilog_name_of x.1 = n
    · exact ⟨x, List.mem_cons_self _ _, hx, by simp [value_in, hx]⟩
    · have e : (x :: xs).filter (fun nv => decide (verilog_name_of nv.1 = n))
          = xs.filter (fun nv => decide (verilog_name_of nv.1 = n)) := by simp [hx]
      rw [e] at h
      obtain ⟨nv, hnv, h1, h2⟩ := ih h
      exact ⟨nv, List.mem_cons_of_mem _ hnv, h1, by simp [value_in, hx, h2]⟩

/-- What `records_state` says of the record list. -/
theorem records_state_facts (st : harness_state) (os : List (List Char × List Char))
    (h : records_state st os) :
    (st.signals.map generic_signal.name).Nodup
      ∧ (∀ n, n ∈ st.signals.map generic_signal.name ↔ n ∈ os.map Prod.fst)
      ∧ (∀ n, n ∈ st.signals.map generic_signal.name
          ↔ ∃ file, find st.signal2file n = some file)
      ∧ List.Pairwise
          (fun a b => first_index a (os.map Prod.fst) < first_index b (os.map Prod.fst))
          (st.signals.map generic_signal.name)
      ∧ (∀ r ∈ st.signals, ∃ v, first_value r.name os = some v
          ∧ r.width = (v.length : Int) - 1) := by
  have hmem : ∀ n, n ∈ st.signals.map generic_signal.name ↔ n ∈ os.map Prod.fst := by
    intro n
    rw [h.2]
    constructor
    · intro hn
      obtain ⟨r, hr, e⟩ := List.mem_map.1 hn
      exact e ▸ (first_records_not_seen _ [] r hr).2
    · intro hn
      exact first_records_mem _ [] n hn (by simp)
  refine ⟨?_, hmem, ?_, ?_, ?_⟩
  · rw [h.2]
    exact first_records_nodup _ []
  · intro n
    rw [hmem n, h.1 n]
  · rw [h.2]
    exact first_records_ordered _ []
  · intro r hr
    rw [h.2] at hr
    exact first_records_width _ [] r hr

theorem example_in_out_poke :
    harness_should_poke 2048 example_in_out [] = some ["in".toList] := by
  have ni : vcd2name 2048 "top::in".toList = some "in".toList :=
    (vcd2name_eq 2048 _ (by decide)).trans (by decide)
  unfold example_in_out
  rw [harness_should_poke_IN 2048 _ _ _ _ ni,
    harness_should_poke_skip 2048 _ _ _ (by decide)]
  rfl

theorem example_in_out_poke_or_peek :
    harness_should_poke_or_peek 2048 example_in_out [] = some ["out".toList, "in".toList] := by
  have ni : vcd2name 2048 "top::in".toList = some "in".toList :=
    (vcd2name_eq 2048 _ (by decide)).trans (by decide)
  have no : vcd2name 2048 "top::out".toList = some "out".toList :=
    (vcd2name_eq 2048 _ (by decide)).trans (by decide)
  unfold example_in_out
  rw [harness_should_poke_or_peek_IN 2048 _ _ _ _ ni,
    harness_should_poke_or_peek_OUT 2048 _ _ _ _ no]
  rfl

/-! ### What has been written in a run that goes on -/

theorem written_state_step (st st1 : harness_state) (os : List (List Char × List Char))
    (n v : List Char) (file : FILE) (h : written_state st os)
    (hn : find st1.signal2file n = some (some file)) (hd : file.data ≠ [])
    (hk : ∀ k, k ≠ n → find st1.signal2file k = find st.signal2file k) :
    written_state st1 (os ++ [(n, v)]) := by
  intro k hm
  by_cases e : k = n
  · subst e
    exact ⟨file, hn, hd⟩
  · rw [hk k e]
    apply h k
    simpa [e] using hm

theorem harness_record_written (openable : List Char → Bool) (dir : List Char)
    (st st1 : harness_state) (os : List (List Char × List Char))
    (n value_bits value_int : List Char) (h : written_state st os)
    (hr : harness_record openable dir st n value_bits value_int = Except.ok st1) :
    written_state st1 (os ++ [(n, value_bits)]) := by
  cases hf : find st.signal2file n with
  | some file =>
    cases file with
    | none =>
      rw [harness_record_found_null openable dir st n value_bits value_int hf] at hr
      cases hr
    | some stream =>
      rw [harness_record_found openable dir st n value_bits value_int stream hf] at hr
      cases hr
      exact written_state_step st _ os n value_bits _ h (find_assign_self _ _ _)
        (by simp [FILE.fprintf]) (fun k hk => find_assign_other _ _ _ _ hk)
  | none =>
    cases ho : openable (dat_path dir n) with
    | true =>
      rw [harness_record_new openable dir st n value_bits value_int hf ho] at hr
      cases hr
      refine written_state_step st _ os n value_bits _ h (find_assign_self _ _ _)
        (by simp [FILE.fprintf]) (fun k hk => ?_)
      show find (assign (assign st.signal2file n _) n _) k = _
      rw [find_assign_other _ _ _ _ hk, find_assign_other _ _ _ _ hk]
    | false =>
      rw [harness_record_null openable dir st n value_bits value_int hf ho] at hr
      cases hr

theorem harness_names_written (LINE_MAX : Nat) (openable : List Char → Bool) (dir : List Char)
    (pp : name_set) (c : cycle) :
    ∀ (st st1 : harness_state) (os : List (List Char × List Char)),
    (∀ nv ∈ c, nv.1.length < LINE_MAX) → written_state st os →
    harness_names LINE_MAX openable dir pp c st = Except.ok st1 →
    written_state st1 (os ++ observations pp [c]) := by
  induction c with
  | nil =>
    intro st st1 os _ h hr
    cases hr
    simpa [observations] using h
  | cons x xs ih =>
    intro st st1 os hyp h hr
    obtain ⟨vcd_name, value_bits⟩ := x
    have hx := hyp (vcd_name, value_bits) (List.mem_cons_self _ _)
    have hxs : ∀ nv ∈ xs, nv.1.length < LINE_MAX :=
      fun nv hnv => hyp nv (List.mem_cons_of_mem _ hnv)
    have hv : vcd2name LINE_MAX vcd_name = some (verilog_name_of vcd_name) :=
      vcd2name_eq LINE_MAX vcd_name (length_lt_of_c_str LINE_MAX vcd_name hx)
    simp only [harness_names, hv] at hr
    by_cases hm : verilog_name_of vcd_name ∈ pp
    · have e : observations pp [(vcd_name, value_bits) :: xs]
          = (verilog_name_of vcd_name, value_bits) :: observations pp [xs] := by
        simp [observations, hm]
      rw [if_neg (by simpa using hm)] at hr
      rw [e]
      cases hb : bits2hex value_bits with
      | error f =>
        rw [hb] at hr
        cases hr
      | ok value_int =>
        rw [hb] at hr
        simp only [] at hr
        cases hrec : harness_record openable dir st (verilog_name_of vcd_name) value_bits
            value_int with
        | error e1 =>
          rw [hrec] at hr
          cases hr
        | ok st2 =>
          rw [hrec] at hr
          simp only [] at hr
          have h2 := harness_record_written openable dir st st2 os _ value_bits value_int h
            hrec
          have h3 := ih st2 st1 _ hxs h2 hr
          simpa using h3
    · have e : observations pp [(vcd_name, value_bits) :: xs] = observations pp [xs] := by
        simp [observations, hm]
      rw [if_pos hm] at hr
      rw [e]
      exact ih st st1 os hxs h hr

theorem harness_cycles_written (LINE_MAX : Nat) (openable : List Char → Bool)
    (dir : List Char) (pp : name_set) (trace : vcd) :
    ∀ (st st1 : harness_state) (os : List (List Char × List Char)),
    (∀ c ∈ trace, ∀ nv ∈ c, nv.1.length < LINE_MAX) → written_state st os →
    harness_cycles LINE_MAX openable dir pp trace st = Except.ok st1 →
    written_state st1 (os ++ observations pp trace) := by
  induction trace with
  | nil =>
    intro st st1 os _ h hr
    cases hr
    simpa [observations] using h
  | cons c cs ih =>
    intro st st1 os hyp h hr
    have hc := hyp c (List.mem_cons_self _ _)
    have hcs : ∀ c ∈ cs, ∀ nv ∈ c, nv.1.length < LINE_MAX :=
      fun c1 hc1 => hyp c1 (List.mem_cons_of_mem _ hc1)
    simp only [harness_cycles] at hr
    cases hn : harness_names LINE_MAX openable dir pp c st with
    | error e =>
      rw [hn] at hr
      cases hr
    | ok st2 =>
      rw [hn] at hr
      simp only [] at hr
      have h2 := harness_names_written LINE_MAX openable dir pp c st st2 os hc h hn
      have h3 := ih st2 st1 _ hcs h2 hr
      rw [observations_cons, ← List.append_assoc]
      exact h3

theorem written_state_init : written_state ⟨[], []⟩ [] := by
  intro n hn
  simp at hn

/-! ### The loops inside the buffer -/

theorem collapse_while_exact (fuel : Nat) : ∀ (s pre pad : List Char), NUL ∉ s →
    s.length < fuel →
    ∃ k, k + (squash s).length = s.length
      ∧ collapse_while fuel (pre ++ (s ++ NUL :: pad)) pre.length
        = some (pre ++ (squash s ++ NUL :: (List.replicate k NUL ++ pad))) := by
  induction fuel with
  | zero => intro s pre pad _ h; omega
  | succ fuel ih =>
    intro s pre pad hs hlen
    cases s with
    | nil =>
      refine ⟨0, by simp [squash], ?_⟩
      rw [collapse_while_stop fuel _ _ NUL (by rw [getElem?_at_length0]; simp) NUL_ne_colon]
      simp [squash]
    | cons c cs =>
      simp only [List.mem_cons, not_or] at hs
      have h0 : (pre ++ (c :: cs ++ NUL :: pad))[pre.length]? = some c := by
        rw [getElem?_at_length0]; simp
      by_cases hc : c = ':'
      · subst hc
        cases cs with
        | nil =>
          refine ⟨0, by simp [squash], ?_⟩
          rw [collapse_while_last fuel _ _ NUL h0 (by rw [getElem?_at_length]; simp)
            NUL_ne_colon]
          simp [squash]
        | cons d ds =>
          have h1 : (pre ++ (':' :: d :: ds ++ NUL :: pad))[pre.length + 1]? = some d := by
            rw [getElem?_at_length]; simp
          by_cases hd : d = ':'
          · subst hd
            obtain ⟨k, hk, h2⟩ := ih (':' :: ds) pre (NUL :: pad) hs.2
              (by simp only [List.length_cons] at hlen ⊢; omega)
            have hsq : squash (':' :: ':' :: ds) = squash (':' :: ds) := by
              simp [squash]
            refine ⟨k + 1, ?_, ?_⟩
            · rw [hsq]
              simp only [List.length_cons] at hk ⊢
              omega
            · have hstr := strlen_append pre (':' :: ':' :: ds) pad (by simpa using hs)
              have hmv := memmove_shift pre (':' :: ds) pad ':'
              rw [collapse_while_step fuel _ _ _ _ h0 h1 hstr hmv, h2, hsq,
                List.replicate_succ']
              simp
          · refine ⟨0, by simp [squash, hd], ?_⟩
            rw [collapse_while_last fuel _ _ d h0 h1 hd]
            simp [squash, hd]
      · refine ⟨0, by simp [squash, hc], ?_⟩
        rw [collapse_while_stop fuel _ _ c h0 hc]
        simp [squash, hc]

theorem dot_runs_cons_length (c : Char) (cs : List Char)
    (hlast : ¬ (c = ':' ∧ cs.head? = some ':')) :
    (dot_runs (c :: cs)).length = (dot_runs cs).length + 1 := by
  by_cases hc : c = ':'
  · have hhd : ¬ cs.head? = some ':' := fun h => hlast ⟨hc, h⟩
    simp [dot_runs, hc, hhd]
  · simp [dot_runs, hc]

theorem collapse_for_exact (fuel : Nat) : ∀ (s pre pad : List Char), NUL ∉ pre → NUL ∉ s →
    s.length < fuel →
    ∃ k, k + (dot_runs s).length = s.length
      ∧ collapse_for fuel (pre ++ (s ++ NUL :: pad)) pre.length
        = some (pre ++ (dot_runs s ++ NUL :: (List.replicate k NUL ++ pad))) := by
  induction fuel with
  | zero => intro s pre pad _ _ h; omega
  | succ fuel ih =>
    intro s pre pad hp hs hlen
    have hn := strlen_whole pre s pad hp hs
    cases hs0 : s with
    | nil =>
      subst hs0
      refine ⟨0, by simp [dot_runs], ?_⟩
      rw [collapse_for_exit fuel _ _ _ hn (by simp)]
      simp [dot_runs]
    | cons a as =>
      have hi : pre.length < pre.length + s.length := by rw [hs0]; simp
      obtain ⟨k1, hk1, hw⟩ := collapse_while_exact ((pre ++ (s ++ NUL :: pad)).length + 1) s
        pre pad hs (by simp; omega)
      rcases squash_head s with ⟨_, h0⟩ | ⟨c, cs, hsq, hlast⟩
      · rw [hs0] at h0; cases h0
      · have hcs : NUL ∉ cs := fun h =>
          hs (squash_mem s NUL (by rw [hsq]; exact List.mem_cons_of_mem _ h))
        have hc0 : NUL ≠ c := fun h =>
          hs (squash_mem s NUL (by rw [hsq, h]; exact List.mem_cons_self _ _))
        rw [hsq] at hw hk1
        simp only [List.length_cons] at hk1
        have hlen2 : cs.length < fuel := by omega
        have hget : (pre ++ (c :: cs ++ NUL :: (List.replicate k1 NUL ++ pad)))[pre.length]?
            = some c := by
          rw [getElem?_at_length0]; simp
        have hdl : (dot_runs s).length = (dot_runs cs).length + 1 := by
          rw [← dot_runs_squash s, hsq]
          exact dot_runs_cons_length c cs hlast
        rw [← hs0]
        by_cases hc : c = ':'
        · subst hc
          have hst := store_at_length pre (cs ++ NUL :: (List.replicate k1 NUL ++ pad)) ':' '.'
          obtain ⟨k2, hk2, h2⟩ := ih cs (pre ++ ['.']) (List.replicate k1 NUL ++ pad)
            (by simp [hp, NUL_ne_dot]) hcs hlen2
          refine ⟨k2 + k1, by omega, ?_⟩
          rw [collapse_for_colon fuel _ _ _ _ _ hn hi hw hget hst]
          have hhd : ¬ cs.head? = some ':' := fun h => hlast ⟨rfl, h⟩
          simp only [List.length_append, List.length_singleton, List.append_assoc,
            List.singleton_append] at h2
          rw [h2, ← dot_runs_squash s, hsq, ← List.append_assoc (List.replicate k2 NUL),
            List.append_replicate_replicate]
          simp [dot_runs, hhd]
        · obtain ⟨k2, hk2, h2⟩ := ih cs (pre ++ [c]) (List.replicate k1 NUL ++ pad)
            (by simp [hp, hc0]) hcs hlen2
          refine ⟨k2 + k1, by omega, ?_⟩
          rw [collapse_for_other fuel _ _ _ _ c hn hi hw hget hc]
          simp only [List.length_append, List.length_singleton, List.append_assoc,
            List.singleton_append] at h2
          have e : pre ++ (c :: cs ++ NUL :: (List.replicate k1 NUL ++ pad))
              = pre ++ c :: (cs ++ NUL :: (List.replicate k1 NUL ++ pad)) := by simp
          rw [e, h2, ← dot_runs_squash s, hsq, ← List.append_assoc (List.replicate k2 NUL),
            List.append_replicate_replicate]
          simp [dot_runs, hc]

theorem strlenFrom_some (l : List Char) : ∀ (k : Nat), strlenFrom l = some k →
    ∃ text pad, l = text ++ NUL :: pad ∧ NUL ∉ text ∧ text.length = k := by
  induction l with
  | nil => intro k h; simp [strlenFrom] at h
  | cons c cs ih =>
    intro k h
    by_cases hc : c = NUL
    · simp only [strlenFrom, if_pos hc, Option.some.injEq] at h
      exact ⟨[], cs, by simp [hc], by simp, by simpa using h⟩
    · simp only [strlenFrom, if_neg hc] at h
      cases hr : strlenFrom cs with
      | none => rw [hr] at h; simp at h
      | some j =>
        rw [hr] at h
        simp only [Option.map_some', Option.some.injEq] at h
        obtain ⟨text, pad, e, hno, hl⟩ := ih j hr
        refine ⟨c :: text, pad, by rw [e]; rfl, ?_, by simp [hl, h]⟩
        simp only [List.mem_cons, not_or]
        exact ⟨fun e2 => hc e2.symm, hno⟩

/-- A position before the terminator splits a NUL-terminated buffer around it. -/
theorem split_at_index (buffer : List Char) (i len : Nat) (h : strlen buffer 0 = some len)
    (hi : i < len) :
    ∃ pre c s pad, buffer = pre ++ (c :: s ++ NUL :: pad) ∧ pre.length = i
      ∧ NUL ∉ pre ∧ c ≠ NUL ∧ NUL ∉ s ∧ i + s.length + 1 = len := by
  obtain ⟨text, pad, e, hno, hl⟩ := strlenFrom_some buffer len (by simpa [strlen] using h)
  have hit : i < text.length := by omega
  have ht : text = text.take i ++ (text.get ⟨i, hit⟩ :: text.drop (i + 1)) := by
    rw [List.get_eq_getElem, ← List.drop_eq_getElem_cons hit, List.take_append_drop]
  have hmem1 : NUL ∉ text.take i := fun hm => hno (List.mem_of_mem_take hm)
  have hmem2 : text.get ⟨i, hit⟩ ≠ NUL := fun e2 => hno (e2 ▸ List.get_mem text i hit)
  have hmem3 : NUL ∉ text.drop (i + 1) := fun hm => hno (List.mem_of_mem_drop hm)
  refine ⟨text.take i, text.get ⟨i, hit⟩, text.drop (i + 1), pad, ?_, ?_, hmem1, hmem2, hmem3, ?_⟩
  · rw [e]
    conv_lhs => rw [ht]
    simp only [List.append_assoc, List.cons_append]
  · simp [List.length_take]; omega
  · simp [List.length_drop]; omega

/-- Every position up to the terminator can be read. -/
theorem read_within (buffer : List Char) (i len : Nat) (h : strlen buffer 0 = some len)
    (hi : i ≤ len) : ∃ d, buffer[i]? = some d := by
  obtain ⟨text, pad, e, _, hl⟩ := strlenFrom_some buffer len (by simpa [strlen] using h)
  have hlt : i < buffer.length := by rw [e]; simp; omega
  exact ⟨buffer[i], List.getElem?_eq_getElem hlt⟩

/-- The `memmove` of the inner loop, under the guard of the outer loop: it stays in the
array, moves the terminator one place down and keeps the string NUL-terminated. -/
theorem memmove_keeps_terminator (buffer : List Char) (i len : Nat)
    (h : strlen buffer 0 = some len) (hi : i < len) :
    ∃ b1, strlen buffer i = some (len - i) ∧ memmove buffer i (i + 1) (len - i) = some b1
      ∧ strlen b1 0 = some (len - 1) ∧ b1.length = buffer.length := by
  obtain ⟨pre, c, s, pad, e, hpl, hp, hc, hs, hlen⟩ := split_at_index buffer i len h hi
  have hn : len - i = s.length + 1 := by omega
  have hcs : NUL ∉ c :: s := by
    simp only [List.mem_cons, not_or]
    exact ⟨fun e2 => hc e2.symm, hs⟩
  refine ⟨pre ++ (s ++ NUL :: NUL :: pad), ?_, ?_, ?_, ?_⟩
  · rw [hn, e, ← hpl]
    have := strlen_append pre (c :: s) pad hcs
    simpa using this
  · rw [hn, e, ← hpl]
    exact memmove_shift pre s pad c
  · have := strlen_whole pre s (NUL :: pad) hp hs
    rw [this]
    congr 1
    omega
  · rw [e]
    simp only [List.length_append, List.length_cons]
    omega

/-- The stores of both loops, under their guards: writing a character other than NUL before
the terminator stays in the array and leaves the string NUL-terminated at the same place. -/
theorem store_keeps_terminator (buffer : List Char) (i len : Nat) (d : Char)
    (h : strlen buffer 0 = some len) (hi : i < len) (hd : d ≠ NUL) :
    ∃ b1, store buffer i d = some b1 ∧ strlen b1 0 = some len
      ∧ b1.length = buffer.length := by
  obtain ⟨pre, c, s, pad, e, hpl, hp, hc, hs, hlen⟩ := split_at_index buffer i len h hi
  refine ⟨pre ++ (d :: s ++ NUL :: pad), ?_, ?_, ?_⟩
  · rw [e, ← hpl]
    exact store_at_length pre (s ++ NUL :: pad) c d
  · have hds : NUL ∉ d :: s := by
      simp only [List.mem_cons, not_or]
      exact ⟨fun e2 => hd e2.symm, hs⟩
    have := strlen_whole pre (d :: s) pad hp hds
    rw [this]
    congr 1
    simp only [List.length_cons]
    omega
  · rw [e]
    simp

/-- Where the flattening starts: a text is cut after its first period, or not at all when it
has none; `q` is what `strstr` finds. -/
theorem flatten_split (d : List Char) :
    ∃ (q : Option Nat) (pre s : List Char), d = pre ++ s ∧ flatten d = s.map underscore
      ∧ (match q with
          | none => 0
          | some j => j + 1) = pre.length
      ∧ q = (if '.' ∈ d then some (before_dot d).length else none)
      ∧ s.length ≤ d.length := by
  by_cases hm : '.' ∈ d
  · refine ⟨some (before_dot d).length, before_dot d ++ ['.'], after_dot d, ?_, ?_, ?_, ?_, ?_⟩
    · have := before_dot_append_after_dot d hm
      simpa using this.symm
    · rw [flatten, if_pos hm]
    · simp
    · rw [if_pos hm]
    · exact after_dot_length_le d
  · refine ⟨none, [], d, rfl, ?_, rfl, ?_, Nat.le_refl _⟩
    · rw [flatten, if_neg hm, map_underscore_of_no_dot d hm]
    · rw [if_neg hm]

/-- Both loops on a buffer that holds a NUL-terminated text followed by any bytes `pad`:
they succeed, `pad` is left alone, and what they do does not depend on it. -/
theorem loops_in_buffer (fuel : Nat) (text : List Char) (hno : NUL ∉ text)
    (hf : text.length < fuel) :
    ∃ (k : Nat) (q : Option Nat) (pre s : List Char),
      k + (dot_runs text).length = text.length
      ∧ dot_runs text = pre ++ s
      ∧ flatten (dot_runs text) = s.map underscore
      ∧ (match q with
          | none => 0
          | some j => j + 1) = pre.length
      ∧ ∀ pad,
          collapse_for fuel (text ++ NUL :: pad) 0
              = some (dot_runs text ++ NUL :: (List.replicate k NUL ++ pad))
            ∧ strstr_dot (dot_runs text ++ NUL :: (List.replicate k NUL ++ pad)) = some q
            ∧ flatten_for fuel (dot_runs text ++ NUL :: (List.replicate k NUL ++ pad))
                pre.length 0
              = some (pre ++ (s.map underscore ++ NUL :: (List.replicate k NUL ++ pad)))
            ∧ string_at (dot_runs text ++ NUL :: (List.replicate k NUL ++ pad)) 0
              = some (dot_runs text)
            ∧ string_at (pre ++ (s.map underscore ++ NUL :: (List.replicate k NUL ++ pad)))
                pre.length
              = some (s.map underscore) := by
  have hd : NUL ∉ dot_runs text := dot_runs_no_NUL text hno
  obtain ⟨k, hk, _⟩ := collapse_for_exact fuel text [] [] (by simp) hno hf
  obtain ⟨q, pre, s, e, hfl, hq, hqv, hsl⟩ := flatten_split (dot_runs text)
  have hpre : NUL ∉ pre := fun h => hd (by rw [e]; exact List.mem_append_left _ h)
  have hs : NUL ∉ s := fun h => hd (by rw [e]; exact List.mem_append_right _ h)
  have hsf : s.length < fuel := by omega
  refine ⟨k, q, pre, s, hk, e, hfl, hq, ?_⟩
  intro pad
  obtain ⟨k2, hk2, h2⟩ := collapse_for_exact fuel text [] pad (by simp) hno hf
  have hkk : k2 = k := by omega
  subst hkk
  simp only [List.nil_append, List.length_nil] at h2
  refine ⟨h2, ?_, ?_, ?_, ?_⟩
  · rw [strstr_dot, strstrFrom_spec (dot_runs text) _ hd, hqv]
  · have := flatten_for_spec fuel s pre [] (List.replicate k2 NUL ++ pad) (by simp) hs hsf
    simp only [List.nil_append, List.length_nil] at this
    rw [e, List.append_assoc]
    exact this
  · have := string_at_append [] (dot_runs text) (List.replicate k2 NUL ++ pad) hd
    simpa using this
  · exact string_at_append pre (s.map underscore) _ (underscore_ne_NUL s hs)

/-! ## Claims on the name canonicalisers -/

/-- C1: for every name shorter than `LINE_MAX` and without an embedded NUL, `vcd2chisel`
returns the name in which every maximal run of `':'` is replaced by exactly one `'.'` and
every other character is kept in place; a name without `':'` is returned unchanged. -/
theorem C1_vcd2chisel_replaces_runs (LINE_MAX : Nat) (name : List Char)
    (hlen : name.length < LINE_MAX) (hnul : NUL ∉ name) :
    vcd2chisel LINE_MAX name = some (replace_runs name)
      ∧ (':' ∉ name → vcd2chisel LINE_MAX name = some name) := by
  have h := vcd2chisel_eq LINE_MAX name (length_lt_of_c_str LINE_MAX name hlen)
  rw [c_str_of_not_mem name hnul] at h
  refine ⟨?_, ?_⟩
  · rw [h, dot_runs_eq_replace_runs]
  · intro hc
    rw [h, dot_runs_of_no_colon name hc]

/-- C1 at the name `a::b` with the POSIX value 2048 of `LINE_MAX`: the result is `a.b`. -/
theorem C1_vcd2chisel_replaces_runs_witness :
    ("a::b".toList.length < 2048 ∧ NUL ∉ "a::b".toList)
      ∧ vcd2chisel 2048 "a::b".toList = some "a.b".toList :=
  ⟨⟨by decide, by decide⟩,
    ((C1_vcd2chisel_replaces_runs 2048 "a::b".toList (by decide) (by decide)).1).trans
      (by decide)⟩

/-- C2: for every name shorter than `LINE_MAX`, `vcd2name` is `vcd2chisel` followed by the
flattening (keep a string without period, else take what follows the first period and turn
the remaining periods into underscores); a name with neither `':'` nor `'.'` comes back as
its C string, which is the name itself when it has no embedded NUL. -/
theorem C2_vcd2name_is_flatten_of_vcd2chisel (LINE_MAX : Nat) (name : List Char)
    (hlen : name.length < LINE_MAX) :
    (∃ dotted, vcd2chisel LINE_MAX name = some dotted
        ∧ vcd2name LINE_MAX name = some (flatten dotted))
      ∧ (':' ∉ name → '.' ∉ name → vcd2name LINE_MAX name = some (c_str name))
      ∧ (':' ∉ name → '.' ∉ name → NUL ∉ name → vcd2name LINE_MAX name = some name) := by
  have hc := length_lt_of_c_str LINE_MAX name hlen
  have key : ':' ∉ name → '.' ∉ name → vcd2name LINE_MAX name = some (c_str name) := by
    intro h1 h2
    have h1c : ':' ∉ c_str name := fun h => h1 (c_str_mem name _ h)
    have h2c : '.' ∉ c_str name := fun h => h2 (c_str_mem name _ h)
    rw [vcd2name_eq LINE_MAX name hc, dot_runs_of_no_colon _ h1c, flatten_of_no_dot _ h2c]
  refine ⟨⟨dot_runs (c_str name), vcd2chisel_eq LINE_MAX name hc, vcd2name_eq LINE_MAX name hc⟩,
    key, ?_⟩
  intro h1 h2 h3
  rw [key h1 h2, c_str_of_not_mem name h3]

/-- C2 at the name `a::b` with the POSIX value 2048 of `LINE_MAX`: the dotted form is `a.b`
and the harness form is `b`. -/
theorem C2_vcd2name_is_flatten_of_vcd2chisel_witness :
    "a::b".toList.length < 2048
      ∧ vcd2chisel 2048 "a::b".toList = some "a.b".toList
      ∧ vcd2name 2048 "a::b".toList = some "b".toList := by
  obtain ⟨dotted, h1, h2⟩ :=
    (C2_vcd2name_is_flatten_of_vcd2chisel 2048 "a::b".toList (by decide)).1
  have h3 : vcd2chisel 2048 "a::b".toList = some "a.b".toList :=
    (vcd2chisel_eq 2048 "a::b".toList (by decide)).trans (by decide)
  have h4 : dotted = "a.b".toList := Option.some.inj (h1.symm.trans h3)
  subst h4
  exact ⟨by decide, h1, h2.trans (by decide)⟩


/-! ## Claims on the value re-encoders -/

/-- C3: for every value made of the marker `b` and one or more `0`/`1` characters, of any
length, `bits2int` returns the base-10 numeral and `bits2hex` the lower-case base-16 numeral
of the unsigned integer written by the bits: read back in their base the outputs give exactly
that integer, the decimal output is made of the digits 0-9 (so holds no marker), the
hexadecimal output of the digits 0-9a-f. -/
theorem C3_reencoding_preserves_value (bits : List Char) (hne : bits ≠ [])
    (h01 : ∀ c ∈ bits, c = '0' ∨ c = '1') :
    ∃ dec hex, bits2int ('b' :: bits) = Except.ok dec ∧ bits2hex ('b' :: bits) = Except.ok hex
      ∧ read_numeral 10 dec = some (binary_value bits)
      ∧ read_numeral 16 hex = some (binary_value bits)
      ∧ (∀ c ∈ dec, c ∈ "0123456789".toList) ∧ 'b' ∉ dec
      ∧ (∀ c ∈ hex, c ∈ "0123456789abcdef".toList) :=
  ⟨Nat.toDigits 10 (binary_value bits), Nat.toDigits 16 (binary_value bits),
    bits2int_bits bits hne h01, bits2hex_bits bits hne h01,
    toDigits_read 10 (by omega) (by omega) _, toDigits_read 16 (by omega) (by omega) _,
    fun c hc => toDigits_decimal _ c hc,
    fun hb => absurd (toDigits_decimal _ 'b' hb) (by decide),
    fun c hc => toDigits_hex _ c hc⟩

/-- C3 at the value `b1010`: the outputs are `10` and `a`. -/
theorem C3_reencoding_preserves_value_witness :
    ("1010".toList ≠ [] ∧ ∀ c ∈ "1010".toList, c = '0' ∨ c = '1')
      ∧ bits2int "b1010".toList = Except.ok "10".toList
      ∧ bits2hex "b1010".toList = Except.ok "a".toList
      ∧ binary_value "1010".toList = 10 := by
  obtain ⟨dec, hex, h1, h2, _⟩ :=
    C3_reencoding_preserves_value "1010".toList (by decide) (by decide)
  have e1 : bits2int ('b' :: "1010".toList) = Except.ok "10".toList := by rfl
  have e2 : bits2hex ('b' :: "1010".toList) = Except.ok "a".toList := by rfl
  have d1 : dec = "10".toList := Except.ok.inj (h1.symm.trans e1)
  have d2 : hex = "a".toList := Except.ok.inj (h2.symm.trans e2)
  subst d1 d2
  exact ⟨⟨by decide, by decide⟩, h1, h2, by decide⟩

/-- C4: a value whose first character is not the marker `b` (the empty value included) makes
`bits2int` and `bits2hex` abort instead of returning text; and when an emitter meets such a
value for a signal it tracks, the run ends in that abort with exactly what the earlier
observations had produced: the step file has no line for it, and the harness state has no
`.dat` line, no new file and no new signal record for it. -/
theorem C4_abort_before_output (value : List Char) (hmark : value.head? ≠ some 'b') :
    bits2int value = Except.error Fault.abort
      ∧ bits2hex value = Except.error Fault.abort
      ∧ (∀ (LINE_MAX : Nat) (should_poke : name_set) (before after : vcd) (pre rest : cycle)
          (vcd_name chisel_name step0 step1 : List Char),
          step_cycles LINE_MAX should_poke before [] = Except.ok step0 →
          step_names LINE_MAX should_poke pre step0 = Except.ok step1 →
          vcd2chisel LINE_MAX vcd_name = some chisel_name → chisel_name ∈ should_poke →
          step_emit LINE_MAX should_poke (before ++ (pre ++ (vcd_name, value) :: rest) :: after)
            = Except.error (Fault.abort, step1))
      ∧ (∀ (LINE_MAX : Nat) (openable : List Char → Bool) (dir : List Char)
          (should_poke_or_peek : name_set) (before after : vcd) (pre rest : cycle)
          (vcd_name verilog_name : List Char) (st0 st1 : harness_state),
          harness_cycles LINE_MAX openable dir should_poke_or_peek before ⟨[], []⟩
            = Except.ok st0 →
          harness_names LINE_MAX openable dir should_poke_or_peek pre st0 = Except.ok st1 →
          vcd2name LINE_MAX vcd_name = some verilog_name → verilog_name ∈ should_poke_or_peek →
          harness_cycles LINE_MAX openable dir should_poke_or_peek
              (before ++ (pre ++ (vcd_name, value) :: rest) :: after) ⟨[], []⟩
            = Except.error (Fault.abort, st1)) := by
  refine ⟨bits2int_abort value hmark, bits2hex_abort value hmark, ?_, ?_⟩
  · intro LINE_MAX should_poke before after pre rest vcd_name chisel_name step0 step1 h0 h1 hc hm
    unfold step_emit
    rw [step_cycles_append LINE_MAX should_poke before _ [] step0 h0]
    simp only [step_cycles]
    rw [step_names_append LINE_MAX should_poke pre _ step0 step1 h1,
      step_names_abort LINE_MAX should_poke vcd_name value rest step1 chisel_name hmark hc hm]
  · intro LINE_MAX openable dir pp before after pre rest vcd_name verilog_name st0 st1 h0 h1
      hc hm
    rw [harness_cycles_append LINE_MAX openable dir pp before _ _ st0 h0]
    simp only [harness_cycles]
    rw [harness_names_append LINE_MAX openable dir pp pre _ st0 st1 h1,
      harness_names_abort LINE_MAX openable dir pp vcd_name value rest st1 verilog_name hmark
        hc hm]

/-- C4 at the value `x101`, with `LINE_MAX` = 2048: both re-encoders abort; a step run
that meets it in its second cycle stops with the two lines of the first cycle and nothing
else; a harness run that meets it as the first observation of `in` stops with no file and no
signal record. -/
theorem C4_abort_before_output_witness :
    "x101".toList.head? ≠ some 'b'
      ∧ bits2int "x101".toList = Except.error Fault.abort
      ∧ bits2hex "x101".toList = Except.error Fault.abort
      ∧ step_emit 2048 ["top.in".toList]
          [[("top::in".toList, "b0".toList)], [("top::in".toList, "x101".toList)]]
          = Except.error (Fault.abort, "wire_poke top.in 0\nstep 1\n".toList)
      ∧ harness_cycles 2048 (fun _ => true) "d".toList ["in".toList]
          [[("top::in".toList, "x101".toList)]] ⟨[], []⟩
          = Except.error (Fault.abort, ⟨[], []⟩) := by
  have hmark : "x101".toList.head? ≠ some 'b' := by decide
  have h := C4_abort_before_output "x101".toList hmark
  have hc : vcd2chisel 2048 "top::in".toList = some "top.in".toList :=
    (vcd2chisel_eq 2048 _ (by decide)).trans (by decide)
  have hn : vcd2name 2048 "top::in".toList = some "in".toList :=
    (vcd2name_eq 2048 _ (by decide)).trans (by decide)
  have h0 : step_cycles 2048 ["top.in".toList] [[("top::in".toList, "b0".toList)]] []
      = Except.ok "wire_poke top.in 0\nstep 1\n".toList := by
    rw [step_cycles_spec 2048 ["top.in".toList] [[("top::in".toList, "b0".toList)]] [] (by
      intro c hc nv hnv
      simp only [List.mem_singleton] at hc
      subst hc
      simp only [List.mem_singleton] at hnv
      subst hnv
      exact ⟨by decide, ['0'], by decide, by decide, by decide⟩)]
    exact congrArg Except.ok (by decide)
  refine ⟨hmark, h.1, h.2.1, ?_, ?_⟩
  · exact h.2.2.1 2048 ["top.in".toList] [[("top::in".toList, "b0".toList)]] [] [] []
      "top::in".toList "top.in".toList _ _ h0 rfl hc (by decide)
  · exact h.2.2.2 2048 (fun _ => true) "d".toList ["in".toList] [] [] [] [] "top::in".toList
      "in".toList ⟨[], []⟩ ⟨[], []⟩ rfl rfl hn (by decide)

/-! ## Claims on the direction classifier -/

/-- C5: for every operation list whose `IN` and `OUT` destinations have names shorter than
`LINE_MAX`, both tools build their sets, and a name is in the poke set iff it is the canonical
name of the destination of some `IN` operation (with `vcd2chisel` in the step tool, with
`vcd2name` in the harness tool), and in the poke-or-peek set iff it is the canonical name of
the destination of some `IN` or `OUT` operation; so the poke set is included in the
poke-or-peek set, other opcodes contribute nothing, no key is held twice, and inserting a
name that is already present changes nothing. -/
theorem C5_direction_sets (LINE_MAX : Nat) (operations : List operation)
    (hshort : ∀ op ∈ operations, op.op = opcode.IN ∨ op.op = opcode.OUT →
      op.d.length < LINE_MAX) :
    ∃ step_poke should_poke should_poke_or_peek,
      step_should_poke LINE_MAX operations [] = some step_poke
      ∧ harness_should_poke LINE_MAX operations [] = some should_poke
      ∧ harness_should_poke_or_peek LINE_MAX operations [] = some should_poke_or_peek
      ∧ (∀ n, n ∈ step_poke ↔
          ∃ op ∈ operations, op.op = opcode.IN ∧ vcd2chisel LINE_MAX op.d = some n)
      ∧ (∀ n, n ∈ should_poke ↔
          ∃ op ∈ operations, op.op = opcode.IN ∧ vcd2name LINE_MAX op.d = some n)
      ∧ (∀ n, n ∈ should_poke_or_peek ↔
          ∃ op ∈ operations, (op.op = opcode.IN ∨ op.op = opcode.OUT)
            ∧ vcd2name LINE_MAX op.d = some n)
      ∧ should_poke ⊆ should_poke_or_peek
      ∧ step_poke.Nodup ∧ should_poke.Nodup ∧ should_poke_or_peek.Nodup
      ∧ (∀ (m : name_set) (k : List Char), k ∈ m → m.insert k = m) := by
  have hin : ∀ op ∈ operations, op.op = opcode.IN → op.d.length < LINE_MAX :=
    fun op ho h => hshort op ho (Or.inl h)
  obtain ⟨sp, a1, a2, a3⟩ := step_should_poke_spec LINE_MAX operations [] hin
  obtain ⟨p, b1, b2, b3⟩ := harness_should_poke_spec LINE_MAX operations [] hin
  obtain ⟨pp, c1, c2, c3⟩ := harness_should_poke_or_peek_spec LINE_MAX operations [] hshort
  refine ⟨sp, p, pp, a1, b1, c1, ?_, ?_, ?_, ?_, a3 List.nodup_nil, b3 List.nodup_nil,
    c3 List.nodup_nil, name_set.insert_of_mem⟩
  · intro n; rw [a2 n]; simp
  · intro n; rw [b2 n]; simp
  · intro n; rw [c2 n]; simp
  · intro n hn
    rcases (b2 n).1 hn with h | ⟨op, ho, h1, h2⟩
    · simp at h
    · exact (c2 n).2 (Or.inr ⟨op, ho, Or.inl h1, h2⟩)

/-- C5 on `[{IN, a}, {OUT, b}, {IN, c}]` with `LINE_MAX` = 2048: the poke set is `{a, c}`
and the poke-or-peek set is `{a, b, c}`. -/
theorem C5_direction_sets_witness :
    (∀ op ∈ example_operations, op.op = opcode.IN ∨ op.op = opcode.OUT → op.d.length < 2048)
      ∧ ∃ step_poke should_poke should_poke_or_peek,
        step_should_poke 2048 example_operations [] = some step_poke
        ∧ harness_should_poke 2048 example_operations [] = some should_poke
        ∧ harness_should_poke_or_peek 2048 example_operations [] = some should_poke_or_peek
        ∧ (∀ n, n ∈ step_poke ↔ n = "a".toList ∨ n = "c".toList)
        ∧ (∀ n, n ∈ should_poke ↔ n = "a".toList ∨ n = "c".toList)
        ∧ (∀ n, n ∈ should_poke_or_peek ↔ n = "a".toList ∨ n = "b".toList ∨ n = "c".toList) := by
  have hs : ∀ op ∈ example_operations, op.op = opcode.IN ∨ op.op = opcode.OUT →
      op.d.length < 2048 := by decide
  obtain ⟨sp, p, pp, a1, b1, c1, a2, b2, c2, _⟩ := C5_direction_sets 2048 example_operations hs
  have ea : vcd2chisel 2048 ['a'] = some ['a'] :=
    (vcd2chisel_eq 2048 _ (by decide)).trans (by decide)
  have ec : vcd2chisel 2048 ['c'] = some ['c'] :=
    (vcd2chisel_eq 2048 _ (by decide)).trans (by decide)
  have na : vcd2name 2048 ['a'] = some ['a'] :=
    (vcd2name_eq 2048 _ (by decide)).trans (by decide)
  have nb : vcd2name 2048 ['b'] = some ['b'] :=
    (vcd2name_eq 2048 _ (by decide)).trans (by decide)
  have nc : vcd2name 2048 ['c'] = some ['c'] :=
    (vcd2name_eq 2048 _ (by decide)).trans (by decide)
  refine ⟨hs, sp, p, pp, a1, b1, c1, ?_, ?_, ?_⟩
  · intro n
    rw [a2 n]
    simp [example_operations, ea, ec, eq_comm]
  · intro n
    rw [b2 n]
    simp [example_operations, na, nc, eq_comm]
  · intro n
    rw [c2 n]
    simp [example_operations, na, nb, nc, eq_comm]

/-! ## Claims on the step-script emitter -/

/-- C7: for every trace whose names are shorter than `LINE_MAX` and whose values are
well-formed, and every poke-or-peek set, in a run in which the `.dat` files of the tracked
names that are observed can be opened, phase 1 of the harness tool ends with a file for
exactly the canonical names that are in the set and observed in the trace, and with no null
pointer in the map; the file of `n` is `<dir>/<n>.dat` and its lines are `bits2hex(value)` of
every observation whose canonical name is `n`, in trace order, the first one included (as
bytes, and as the lines obtained by cutting the file at its newlines); a name outside the set
has no file.  (Where the file of a first observation cannot be opened, the write goes through
the null pointer and the run stops there.) -/
theorem C7_dat_files (LINE_MAX : Nat) (openable : List Char → Bool) (dir : List Char)
    (should_poke_or_peek : name_set) (trace : vcd)
    (hyp : ∀ c ∈ trace, ∀ nv ∈ c, nv.1.length < LINE_MAX ∧ bit_string nv.2)
    (hopen : ∀ c ∈ trace, ∀ nv ∈ c, verilog_name_of nv.1 ∈ should_poke_or_peek →
      openable (dat_path dir (verilog_name_of nv.1)) = true) :
    ∃ st, harness_cycles LINE_MAX openable dir should_poke_or_peek trace ⟨[], []⟩
          = Except.ok st
      ∧ (∀ n, (∃ file, find st.signal2file n = some (some file))
          ↔ n ∈ should_poke_or_peek ∧ ∃ c ∈ trace, ∃ nv ∈ c, verilog_name_of nv.1 = n)
      ∧ (∀ n file, find st.signal2file n = some (some file) →
          file.path = dat_path dir n
            ∧ file.data = unlines
                ((trace.flatten.filter (fun nv => decide (verilog_name_of nv.1 = n))).map
                  (fun nv => hex_of nv.2)))
      ∧ (∀ n file, find st.signal2file n = some (some file) →
          split_lines file.data
            = (trace.flatten.filter (fun nv => decide (verilog_name_of nv.1 = n))).map
                (fun nv => hex_of nv.2))
      ∧ (∀ n, n ∉ should_poke_or_peek → find st.signal2file n = none)
      ∧ (∀ n, find st.signal2file n ≠ some none)
      ∧ (∀ c ∈ trace, ∀ nv ∈ c, vcd2name LINE_MAX nv.1 = some (verilog_name_of nv.1)
          ∧ bits2hex nv.2 = Except.ok (hex_of nv.2))
      ∧ (∀ (refusing : List Char → Bool) (st0 : harness_state) (n value_bits value_int :
            List Char),
          find st0.signal2file n = none → refusing (dat_path dir n) = false →
          harness_record refusing dir st0 n value_bits value_int
            = Except.error (Fault.null_stream, ⟨assign st0.signal2file n none,
                st0.signals ++ [generic_signal.mk ((value_bits.length : Int) - 1) n]⟩)) := by
  obtain ⟨st, h1, h2⟩ := harness_cycles_spec LINE_MAX openable dir should_poke_or_peek trace
    ⟨[], []⟩ [] (runs_of_well_formed LINE_MAX openable dir should_poke_or_peek trace hyp hopen)
    (phase1_state_init dir)
  rw [List.nil_append] at h2
  have hfind := h2.1
  have hdata : ∀ n file, find st.signal2file n = some (some file) →
      file.path = dat_path dir n
        ∧ file.data = unlines
            ((trace.flatten.filter (fun nv => decide (verilog_name_of nv.1 = n))).map
              (fun nv => hex_of nv.2)) := by
    intro n file hf
    rw [hfind n] at hf
    by_cases hm : n ∈ (observations should_poke_or_peek trace).map Prod.fst
    · rw [if_pos hm] at hf
      have hn := ((mem_observations should_poke_or_peek trace n).1 hm).1
      have e := Option.some.inj (Option.some.inj hf)
      rw [← e, dat_lines_observations should_poke_or_peek trace n hn]
      exact ⟨rfl, rfl⟩
    · rw [if_neg hm] at hf
      simp at hf
  refine ⟨st, h1, ?_, hdata, ?_, ?_, ?_, ?_,
    fun refusing st0 n value_bits value_int hf hr =>
      harness_record_null refusing dir st0 n value_bits value_int hf hr⟩
  · intro n
    rw [← mem_observations, hfind n]
    by_cases hm : n ∈ (observations should_poke_or_peek trace).map Prod.fst
    · simp [hm]
    · simp [hm]
  · intro n file hf
    rw [(hdata n file hf).2]
    exact split_lines_unlines _ (hex_lines_no_newline _)
  · intro n hn
    rw [hfind n, if_neg]
    intro hm
    exact hn ((mem_observations should_poke_or_peek trace n).1 hm).1
  · intro n
    rw [hfind n]
    by_cases hm : n ∈ (observations should_poke_or_peek trace).map Prod.fst
    · simp [hm]
    · simp [hm]
  · intro c hc nv hnv
    have hx := hyp c hc nv hnv
    exact ⟨vcd2name_eq LINE_MAX nv.1 (length_lt_of_c_str LINE_MAX nv.1 hx.1),
      bits2hex_of_bit_string nv.2 hx.2⟩

/-- C7 on the one-cycle trace with the poke-or-peek set `{in, out}`, `LINE_MAX` = 2048 and
every file openable: `d/in.dat` holds the line `1`, `d/out.dat` holds the line `a`, and `tmp`
has no file. -/
theorem C7_dat_files_witness :
    ((∀ c ∈ example_cycle, ∀ nv ∈ c, nv.1.length < 2048 ∧ bit_string nv.2)
        ∧ ∀ c ∈ example_cycle, ∀ nv ∈ c,
            verilog_name_of nv.1 ∈ ["out".toList, "in".toList] →
            (fun _ => true) (dat_path "d".toList (verilog_name_of nv.1)) = true)
      ∧ ∃ st, harness_cycles 2048 (fun _ => true) "d".toList ["out".toList, "in".toList]
            example_cycle ⟨[], []⟩
          = Except.ok st
        ∧ find st.signal2file "in".toList = some (some ⟨"d/in.dat".toList, "1\n".toList⟩)
        ∧ find st.signal2file "out".toList = some (some ⟨"d/out.dat".toList, "a\n".toList⟩)
        ∧ find st.signal2file "tmp".toList = none := by
  have hopen : ∀ c ∈ example_cycle, ∀ nv ∈ c,
      verilog_name_of nv.1 ∈ ["out".toList, "in".toList] →
      (fun _ => true) (dat_path "d".toList (verilog_name_of nv.1)) = true :=
    fun _ _ _ _ _ => rfl
  obtain ⟨st, h1, h2, h3, _, h4, _⟩ :=
    C7_dat_files 2048 (fun _ => true) "d".toList ["out".toList, "in".toList] example_cycle
      example_cycle_ok hopen
  refine ⟨⟨example_cycle_ok, hopen⟩, st, h1, ?_, ?_, h4 _ (by decide)⟩
  · obtain ⟨file, hf⟩ := (h2 "in".toList).2
      ⟨by decide, _, List.mem_singleton.2 rfl, ("top::in".toList, "b1".toList), by decide,
        by decide⟩
    obtain ⟨hp, hd⟩ := h3 _ _ hf
    have e : file = FILE.mk file.path file.data := rfl
    rw [hf, e, hp, hd]
    exact congrArg (fun f => some (some f)) (congrArg₂ FILE.mk (by decide) (by decide))
  · obtain ⟨file, hf⟩ := (h2 "out".toList).2
      ⟨by decide, _, List.mem_singleton.2 rfl, ("top::out".toList, "b1010".toList), by decide,
        by decide⟩
    obtain ⟨hp, hd⟩ := h3 _ _ hf
    have e : file = FILE.mk file.path file.data := rfl
    rw [hf, e, hp, hd]
    exact congrArg (fun f => some (some f)) (congrArg₂ FILE.mk (by decide) (by decide))

/-- C8: for every list of signal records with NUL-free names and every poke set, the clocked
process of the harness is its three opening lines, then one poke assignment
`<n> <= __list__<n>[cycle];` per record whose name is in the poke set, then one compare
`if (<n> != __list__<n>[cycle])` with `failed <= 1'b1;` per record whose name is not in the
poke set, then `end`; every record is driven or checked, never both; a checked name is never
in the poke set; and when the names are distinct each name has exactly one of the two. -/
theorem C8_poke_compare_process (should_poke : name_set) (signals : List generic_signal)
    (hnul : ∀ s ∈ signals, NUL ∉ s.name) :
    (∀ v, poke_compare_process should_poke signals v
        = v ++ unlines (process_lines should_poke signals))
      ∧ (∀ class_name, ∃ declarations, harness_text class_name should_poke signals
          = declarations ++ unlines (process_lines should_poke signals) ++ "endmodule\n".toList)
      ∧ (poked should_poke signals).length + (compared should_poke signals).length
          = signals.length
      ∧ (∀ s ∈ signals, (s ∈ poked should_poke signals ↔ s.name ∈ should_poke)
          ∧ (s ∈ compared should_poke signals ↔ s.name ∉ should_poke))
      ∧ (∀ s ∈ compared should_poke signals, s.name ∉ should_poke)
      ∧ ((signals.map generic_signal.name).Nodup → ∀ s ∈ signals,
          ((poked should_poke signals).map generic_signal.name).count s.name
            + ((compared should_poke signals).map generic_signal.name).count s.name = 1) := by
  refine ⟨fun v => poke_compare_process_spec should_poke signals v hnul,
    fun class_name => harness_text_ends class_name should_poke signals hnul,
    length_filter_split should_poke signals, ?_, ?_, ?_⟩
  · intro s hs
    simp [poked, compared, hs]
  · intro s hs
    simpa [compared] using (List.mem_filter.1 hs).2
  · intro hnd s hs
    rw [count_filter_split]
    exact count_eq_one_of_nodup _ _ hnd (List.mem_map.2 ⟨s, hs, rfl⟩)

/-- C8 on the one-cycle trace with one `IN` and one `OUT` signal, `LINE_MAX` = 2048 and
every file openable: the run leaves two `.dat` files of one line each and two signal records,
the harness file is `example_harness`, with two signal registers, and its clocked process has
one poke assignment, for `in`, and one compare, for `out`. -/
theorem C8_poke_compare_process_witness :
    (∀ s ∈ [generic_signal.mk 1 "in".toList, generic_signal.mk 4 "out".toList], NUL ∉ s.name)
      ∧ ∃ out, harness_main 2048 (fun _ => true) true "d".toList "Top".toList example_in_out
            example_cycle
          = Except.ok out
        ∧ out.signals = [generic_signal.mk 1 "in".toList, generic_signal.mk 4 "out".toList]
        ∧ find out.signal2file "in".toList = some (some ⟨"d/in.dat".toList, "1\n".toList⟩)
        ∧ find out.signal2file "out".toList = some (some ⟨"d/out.dat".toList, "a\n".toList⟩)
        ∧ (∀ n file, find out.signal2file n = some file → n = "in".toList ∨ n = "out".toList)
        ∧ out.v = ⟨"d/Top_vcd2verilog.v".toList, example_harness⟩
        ∧ ∃ declarations, out.v.data = declarations ++ unlines
            ["  always @(posedge clk)".toList,
             "    begin".toList,
             "      reset <= 1'b0;".toList,
             "      in <= __list__in[cycle];".toList,
             "      if (out != __list__out[cycle])".toList,
             "        failed <= 1'b1;".toList,
             "    end".toList] ++ "endmodule\n".toList := by
  have hnul : ∀ s ∈ [generic_signal.mk 1 "in".toList, generic_signal.mk 4 "out".toList],
      NUL ∉ s.name := by decide
  have ni : vcd2name 2048 "top::in".toList = some "in".toList :=
    (vcd2name_eq 2048 _ (by decide)).trans (by decide)
  have no : vcd2name 2048 "top::out".toList = some "out".toList :=
    (vcd2name_eq 2048 _ (by decide)).trans (by decide)
  have hsp : harness_should_poke 2048 example_in_out [] = some ["in".toList] := by
    unfold example_in_out
    rw [harness_should_poke_IN 2048 _ _ _ _ ni,
      harness_should_poke_skip 2048 _ _ _ (by decide)]
    rfl
  have hpp : harness_should_poke_or_peek 2048 example_in_out []
      = some ["out".toList, "in".toList] := by
    unfold example_in_out
    rw [harness_should_poke_or_peek_IN 2048 _ _ _ _ ni,
      harness_should_poke_or_peek_OUT 2048 _ _ _ _ no]
    rfl
  obtain ⟨st, _, hst, hmain⟩ := harness_main_spec 2048 (fun _ => true) "d".toList "Top".toList
    example_in_out example_cycle _ _ hsp hpp
    (runs_of_well_formed 2048 (fun _ => true) "d".toList _ example_cycle example_cycle_ok
      (fun _ _ _ _ _ => rfl)) rfl
  have hsig : st.signals
      = [generic_signal.mk 1 "in".toList, generic_signal.mk 4 "out".toList] :=
    hst.2.trans (by decide)
  obtain ⟨declarations, htext⟩ :=
    (C8_poke_compare_process ["in".toList] _ hnul).2.1 "Top".toList
  refine ⟨hnul, _, hmain, hsig, ?_, ?_, ?_, ?_, declarations, ?_⟩
  · rw [hst.1]
    exact (if_pos (by decide)).trans
      (congrArg (fun f => some (some f)) (congrArg₂ FILE.mk (by decide) (by decide)))
  · rw [hst.1]
    exact (if_pos (by decide)).trans
      (congrArg (fun f => some (some f)) (congrArg₂ FILE.mk (by decide) (by decide)))
  · intro n file hf
    rw [hst.1] at hf
    by_cases hm : n ∈ (observations ["out".toList, "in".toList] example_cycle).map Prod.fst
    · have e : (observations ["out".toList, "in".toList] example_cycle).map Prod.fst
          = ["in".toList, "out".toList] := by decide
      rw [e] at hm
      simpa using hm
    · rw [if_neg hm] at hf
      simp at hf
  · show FILE.mk _ (harness_text "Top".toList ["in".toList] st.signals) = _
    rw [hsig, example_harness_text]
    exact congrArg₂ FILE.mk (by decide) rfl
  · show harness_text "Top".toList ["in".toList] st.signals = _
    rw [hsig, htext]
    exact congrArg (fun t => declarations ++ unlines t ++ "endmodule\n".toList) (by decide)

/-! ## Further claims on the name canonicalisers -/

/-- C9: both canonicalisers are idempotent on names shorter than `LINE_MAX`: the result of
a first application is returned unchanged by a second one. -/
theorem C9_canonicalisers_idempotent (LINE_MAX : Nat) (name : List Char)
    (hlen : name.length < LINE_MAX) :
    (∃ r, vcd2chisel LINE_MAX name = some r ∧ vcd2chisel LINE_MAX r = some r)
      ∧ (∃ r, vcd2name LINE_MAX name = some r ∧ vcd2name LINE_MAX r = some r) := by
  have hc := length_lt_of_c_str LINE_MAX name hlen
  have hd : NUL ∉ dot_runs (c_str name) := dot_runs_no_NUL _ (c_str_not_mem _)
  have hdl : (dot_runs (c_str name)).length < LINE_MAX :=
    Nat.lt_of_le_of_lt (dot_runs_length_le _) hc
  constructor
  · refine ⟨dot_runs (c_str name), vcd2chisel_eq LINE_MAX name hc, ?_⟩
    rw [vcd2chisel_eq LINE_MAX _ (length_lt_of_c_str LINE_MAX _ hdl), c_str_of_not_mem _ hd,
      dot_runs_of_no_colon _ (dot_runs_no_colon _)]
  · have hf : NUL ∉ flatten (dot_runs (c_str name)) := by
      intro h
      rcases flatten_mem _ _ h with h1 | h1
      · exact hd h1
      · exact NUL_ne_underscore h1
    have hfl : (flatten (dot_runs (c_str name))).length < LINE_MAX :=
      Nat.lt_of_le_of_lt (flatten_length_le _) hdl
    have hfc : ':' ∉ flatten (dot_runs (c_str name)) := by
      intro h
      rcases flatten_mem _ _ h with h1 | h1
      · exact dot_runs_no_colon _ h1
      · exact absurd h1 (by decide)
    refine ⟨flatten (dot_runs (c_str name)), vcd2name_eq LINE_MAX name hc, ?_⟩
    rw [vcd2name_eq LINE_MAX _ (length_lt_of_c_str LINE_MAX _ hfl), c_str_of_not_mem _ hf,
      dot_runs_of_no_colon _ hfc, flatten_of_no_dot _ (flatten_no_dot _)]

/-- C9 at the name `top::a::b` with `LINE_MAX` = 2048. -/
theorem C9_canonicalisers_idempotent_witness :
    "top::a::b".toList.length < 2048
      ∧ (∃ r, vcd2chisel 2048 "top::a::b".toList = some r ∧ vcd2chisel 2048 r = some r)
      ∧ (∃ r, vcd2name 2048 "top::a::b".toList = some r ∧ vcd2name 2048 r = some r) :=
  ⟨by decide, C9_canonicalisers_idempotent 2048 "top::a::b".toList (by decide)⟩

/-- C10: for every name shorter than `LINE_MAX`, the result of `vcd2name` contains neither
`'.'` nor `':'`. -/
theorem C10_vcd2name_is_flat (LINE_MAX : Nat) (name : List Char)
    (hlen : name.length < LINE_MAX) :
    ∃ r, vcd2name LINE_MAX name = some r ∧ '.' ∉ r ∧ ':' ∉ r := by
  have hc := length_lt_of_c_str LINE_MAX name hlen
  refine ⟨flatten (dot_runs (c_str name)), vcd2name_eq LINE_MAX name hc, flatten_no_dot _, ?_⟩
  intro h
  rcases flatten_mem _ _ h with h1 | h1
  · exact dot_runs_no_colon _ h1
  · exact absurd h1 (by decide)

/-- C10 at the name `top::a::b::c` with `LINE_MAX` = 2048: the result is `a_b_c`. -/
theorem C10_vcd2name_is_flat_witness :
    "top::a::b::c".toList.length < 2048
      ∧ vcd2name 2048 "top::a::b::c".toList = some "a_b_c".toList
      ∧ '.' ∉ "a_b_c".toList ∧ ':' ∉ "a_b_c".toList := by
  obtain ⟨r, h1, h2, h3⟩ := C10_vcd2name_is_flat 2048 "top::a::b::c".toList (by decide)
  have h4 : vcd2name 2048 "top::a::b::c".toList = some "a_b_c".toList :=
    (vcd2name_eq 2048 "top::a::b::c".toList (by decide)).trans (by decide)
  have h5 : r = "a_b_c".toList := Option.some.inj (h1.symm.trans h4)
  subst h5
  exact ⟨by decide, h1, h2, h3⟩

/-! ## Claims on padding, file lengths and declarations -/

/-- C11: for every well-formed bit-string the outputs of `bits2int` and `bits2hex` are
exactly `0` or start with a non-zero digit; a value of `b` followed by one or more `0`
characters gives `0` in both bases; and prepending any number of `0` bits after the marker
leaves both outputs unchanged. -/
theorem C11_no_zero_padding (bits : List Char) (hne : bits ≠ [])
    (h01 : ∀ c ∈ bits, c = '0' ∨ c = '1') :
    ∃ dec hex, bits2int ('b' :: bits) = Except.ok dec ∧ bits2hex ('b' :: bits) = Except.ok hex
      ∧ (dec = ['0'] ∨ ∃ c rest, dec = c :: rest ∧ c ∈ "123456789".toList)
      ∧ (hex = ['0'] ∨ ∃ c rest, hex = c :: rest ∧ c ∈ "123456789abcdef".toList)
      ∧ (∀ n, 1 ≤ n →
          bits2int ('b' :: List.replicate n '0') = Except.ok ['0']
            ∧ bits2hex ('b' :: List.replicate n '0') = Except.ok ['0'])
      ∧ (∀ k, bits2int ('b' :: (List.replicate k '0' ++ bits)) = Except.ok dec
          ∧ bits2hex ('b' :: (List.replicate k '0' ++ bits)) = Except.ok hex) := by
  refine ⟨Nat.toDigits 10 (binary_value bits), Nat.toDigits 16 (binary_value bits),
    bits2int_bits bits hne h01, bits2hex_bits bits hne h01, toDigits_decimal_head _,
    toDigits_hex_head _, ?_, ?_⟩
  · intro n hn
    have hz : ∀ c ∈ List.replicate n '0', c = '0' ∨ c = '1' :=
      fun c hc => Or.inl (List.eq_of_mem_replicate hc)
    have hnn : List.replicate n '0' ≠ [] := by
      cases n with
      | zero => omega
      | succ m => simp [List.replicate_succ]
    rw [bits2int_bits _ hnn hz, bits2hex_bits _ hnn hz, binary_value_zeros, toDigits_zero,
      toDigits_zero]
    exact ⟨rfl, rfl⟩
  · intro k
    have hz := zeros_append_bits k bits h01
    have hnn : List.replicate k '0' ++ bits ≠ [] := by
      intro h
      exact hne (List.append_eq_nil.1 h).2
    rw [bits2int_bits _ hnn hz, bits2hex_bits _ hnn hz, binary_value_zeros_append]
    exact ⟨rfl, rfl⟩

/-- C11 at the value `b1010`: with three more leading zero bits, `b0001010`, the outputs are
still `10` and `a`, and `b000` gives `0` in both bases. -/
theorem C11_no_zero_padding_witness :
    ("1010".toList ≠ [] ∧ ∀ c ∈ "1010".toList, c = '0' ∨ c = '1')
      ∧ bits2int "b0001010".toList = Except.ok "10".toList
      ∧ bits2hex "b0001010".toList = Except.ok "a".toList
      ∧ bits2int "b000".toList = Except.ok "0".toList
      ∧ bits2hex "b000".toList = Except.ok "0".toList := by
  obtain ⟨dec, hex, h1, h2, _, _, h3, h4⟩ :=
    C11_no_zero_padding "1010".toList (by decide) (by decide)
  have e1 : bits2int ('b' :: "1010".toList) = Except.ok "10".toList := by rfl
  have e2 : bits2hex ('b' :: "1010".toList) = Except.ok "a".toList := by rfl
  have d1 : dec = "10".toList := Except.ok.inj (h1.symm.trans e1)
  have d2 : hex = "a".toList := Except.ok.inj (h2.symm.trans e2)
  subst d1 d2
  exact ⟨⟨by decide, by decide⟩, (h4 3).1, (h4 3).2, (h3 3 (by omega)).1, (h3 3 (by omega)).2⟩

/-- C12, as stated, fails: in the one-cycle trace `example_collision` the signals `top::a::b`
and `top::a_b` both have the canonical name `a_b`, so with `LINE_MAX` = 2048, the
poke-or-peek set `{a_b}` and every file openable, the file `d/a_b.dat` gets two lines, `1` and
`0`, for one cycle. -/
theorem C12_counterexample :
    ∃ st file, harness_cycles 2048 (fun _ => true) "d".toList ["a_b".toList] example_collision
          ⟨[], []⟩
        = Except.ok st
      ∧ find st.signal2file "a_b".toList = some (some file)
      ∧ file = ⟨"d/a_b.dat".toList, "1\n0\n".toList⟩
      ∧ split_lines file.data = ["1".toList, "0".toList]
      ∧ (split_lines file.data).length ≠ example_collision.length := by
  obtain ⟨st, h1, h2, _⟩ := harness_cycles_files 2048 (fun _ => true) "d".toList
    ["a_b".toList] example_collision
    (runs_of_well_formed 2048 (fun _ => true) "d".toList _ example_collision
      example_collision_ok (fun _ _ _ _ _ => rfl))
  have hf : find st.signal2file "a_b".toList
      = some (some ⟨"d/a_b.dat".toList, "1\n0\n".toList⟩) := by
    rw [h2.1]
    exact (if_pos (by decide)).trans
      (congrArg (fun f => some (some f)) (congrArg₂ FILE.mk (by decide) (by decide)))
  exact ⟨st, _, h1, hf, rfl, by decide, by decide⟩

/-- C12, amended: for every trace that phase 1 runs through (names shorter than `LINE_MAX`,
the values of the tracked signals well-formed, their `.dat` files openable) with at least one
cycle, and every tracked canonical name `n` that exactly one enumerated signal of each cycle
has: phase 1 ends, the file `<dir>/<n>.dat` is written, and it holds exactly one hexadecimal
value line per cycle: cut at its newlines it is the list of the `bits2hex` values of that
signal, cycle by cycle, so it has as many lines as the trace has cycles and line `k` is the
value in cycle `k`. -/
theorem C12_one_line_per_cycle (LINE_MAX : Nat) (openable : List Char → Bool)
    (dir : List Char) (should_poke_or_peek : name_set) (trace : vcd) (n : List Char)
    (hyp : ∀ c ∈ trace, ∀ nv ∈ c, nv.1.length < LINE_MAX
      ∧ (verilog_name_of nv.1 ∈ should_poke_or_peek →
          bit_string nv.2 ∧ openable (dat_path dir (verilog_name_of nv.1)) = true))
    (hn : n ∈ should_poke_or_peek) (hne : trace ≠ [])
    (hone : ∀ c ∈ trace,
      (c.filter (fun nv => decide (verilog_name_of nv.1 = n))).length = 1) :
    ∃ st file,
      harness_cycles LINE_MAX openable dir should_poke_or_peek trace ⟨[], []⟩ = Except.ok st
      ∧ find st.signal2file n = some (some file)
      ∧ file.path = dat_path dir n
      ∧ split_lines file.data = trace.map (fun c => hex_of (value_in n c))
      ∧ (split_lines file.data).length = trace.length
      ∧ (∀ k (hk : k < trace.length),
          (split_lines file.data)[k]? = some (hex_of (value_in n (trace.get ⟨k, hk⟩))))
      ∧ (∀ c ∈ trace, bits2hex (value_in n c) = Except.ok (hex_of (value_in n c))) := by
  obtain ⟨st, h1, h2, _⟩ := harness_cycles_files LINE_MAX openable dir should_poke_or_peek
    trace hyp
  have hobs : n ∈ (observations should_poke_or_peek trace).map Prod.fst := by
    rw [mem_observations]
    cases trace with
    | nil => exact absurd rfl hne
    | cons c cs =>
      obtain ⟨nv, hnv, e, _⟩ := value_in_mem n c (hone c (List.mem_cons_self _ _))
      exact ⟨hn, c, List.mem_cons_self _ _, nv, hnv, e⟩
  have hf : find st.signal2file n
      = some (some ⟨dat_path dir n,
          unlines (dat_lines (observations should_poke_or_peek trace) n)⟩) := by
    rw [h2.1 n, if_pos hobs]
  have hl : split_lines (unlines (dat_lines (observations should_poke_or_peek trace) n))
      = trace.map (fun c => hex_of (value_in n c)) := by
    rw [dat_lines_observations should_poke_or_peek trace n hn,
      lines_of_single_observations n trace hone]
    apply split_lines_unlines
    intro l hl
    obtain ⟨c, _, e⟩ := List.mem_map.1 hl
    rw [← e]
    exact toDigits_no_newline 16 (by omega) (by omega) _
  refine ⟨st, _, h1, hf, rfl, hl, by rw [hl, List.length_map], ?_, ?_⟩
  · intro k hk
    rw [hl, List.getElem?_map, List.getElem?_eq_getElem hk]
    rfl
  · intro c hc
    obtain ⟨nv, hnv, e, ev⟩ := value_in_mem n c (hone c hc)
    rw [← ev]
    exact bits2hex_of_bit_string nv.2 ((hyp c hc nv hnv).2 (e ▸ hn)).1

/-- C12, amended, on the two-cycle trace `example_toggle` with the name `in`, the
poke-or-peek set `{in}`, `LINE_MAX` = 2048 and every file openable: `d/in.dat` is written and
has the two lines `0` and `1`, one per cycle. -/
theorem C12_one_line_per_cycle_witness :
    ((∀ c ∈ example_toggle, ∀ nv ∈ c, nv.1.length < 2048
          ∧ (verilog_name_of nv.1 ∈ ["in".toList] →
              bit_string nv.2
                ∧ (fun _ => true) (dat_path "d".toList (verilog_name_of nv.1)) = true))
        ∧ "in".toList ∈ ["in".toList] ∧ example_toggle ≠ []
        ∧ ∀ c ∈ example_toggle,
          (c.filter (fun nv => decide (verilog_name_of nv.1 = "in".toList))).length = 1)
      ∧ ∃ st file,
          harness_cycles 2048 (fun _ => true) "d".toList ["in".toList] example_toggle ⟨[], []⟩
            = Except.ok st
        ∧ find st.signal2file "in".toList = some (some file)
        ∧ file.path = "d/in.dat".toList
        ∧ split_lines file.data = ["0".toList, "1".toList]
        ∧ (split_lines file.data).length = 2 := by
  have hyp : ∀ c ∈ example_toggle, ∀ nv ∈ c, nv.1.length < 2048
      ∧ (verilog_name_of nv.1 ∈ ["in".toList] →
          bit_string nv.2
            ∧ (fun _ => true) (dat_path "d".toList (verilog_name_of nv.1)) = true) := by
    intro c hc nv hnv
    simp only [example_toggle, List.mem_cons, List.mem_singleton, List.not_mem_nil,
      or_false] at hc
    rcases hc with rfl | rfl
    · simp only [List.mem_singleton] at hnv
      subst hnv
      exact ⟨by decide, fun _ => ⟨⟨['0'], by decide, by decide, by decide⟩, rfl⟩⟩
    · simp only [List.mem_singleton] at hnv
      subst hnv
      exact ⟨by decide, fun _ => ⟨⟨['1'], by decide, by decide, by decide⟩, rfl⟩⟩
  have hone : ∀ c ∈ example_toggle,
      (c.filter (fun nv => decide (verilog_name_of nv.1 = "in".toList))).length = 1 := by
    decide
  obtain ⟨st, file, h1, h2, h3, h4, h5, _⟩ := C12_one_line_per_cycle 2048 (fun _ => true)
    "d".toList ["in".toList] example_toggle "in".toList hyp (by decide) (by decide) hone
  exact ⟨⟨hyp, by decide, by decide, hone⟩, st, file, h1, h2, h3.trans (by decide),
    h4.trans (by decide), h5.trans (by decide)⟩

/-- C13: for every list of signal records with NUL-free names, the harness file is, section
by section and each in the order of the records: one register per record, `reg <name>;` when
the recorded width is 1 and `reg [<width-1>:0] <name>;` otherwise; one preload array
`__list__<name> [0:`CYCLE_MAX]` per record with the same rule; one port connection per record
in the module instance; one memory-preload directive per record; every complete run of the
tool (names shorter than `LINE_MAX`) has the records of the first observations, in that order,
and this text of them in its harness file; and the run is complete when the values of the
tracked signals are well-formed and the `.dat` files and the harness file can be opened. -/
theorem C13_harness_declarations (class_name : List Char) (should_poke : name_set)
    (signals : List generic_signal) (hnul : ∀ s ∈ signals, NUL ∉ s.name) :
    harness_text class_name should_poke signals
        = "// Auto-Generated by vcd2verilog\n".toList
          ++ ("module ".toList ++ fmt_s class_name ++ "_vcd2verilog;\n".toList)
          ++ "  reg clk = 0;\n".toList
          ++ unlines (signals.map reg_line)
          ++ unlines (signals.map list_line)
          ++ ("  ".toList ++ fmt_s class_name ++ " ".toList ++ fmt_s class_name
              ++ "\n  (\n".toList)
          ++ unlines (signals.map port_line)
          ++ "  );\n".toList
          ++ ("  initial begin\n" ++ "  end\n").toList
          ++ "  initial begin\n".toList
          ++ "    //$vcdpluson;\n".toList
          ++ unlines (signals.map (fun s => readmemh_line s.name s.name))
          ++ "  end\n".toList
          ++ cycle_process
          ++ unlines (process_lines should_poke signals)
          ++ "endmodule\n".toList
      ∧ (∀ s ∈ signals, s.width = 1 →
          reg_line s = "  reg ".toList ++ s.name ++ ";".toList
            ∧ list_line s = "  reg ".toList ++ list_name s.name ++ " [0:`CYCLE_MAX];".toList)
      ∧ (∀ s ∈ signals, s.width ≠ 1 →
          reg_line s = "  reg [".toList ++ fmt_d (s.width - 1) ++ ":0] ".toList ++ s.name
              ++ ";".toList
            ∧ list_line s = "  reg [".toList ++ fmt_d (s.width - 1) ++ ":0] ".toList
              ++ list_name s.name ++ " [0:`CYCLE_MAX];".toList)
      ∧ (signals.map reg_line).length = signals.length
      ∧ (signals.map list_line).length = signals.length
      ∧ (signals.map port_line).length = signals.length
      ∧ (signals.map (fun s => readmemh_line s.name s.name)).length = signals.length
      ∧ (∀ (LINE_MAX : Nat) (openable : List Char → Bool) (dir : List Char)
          (operations : List operation) (trace : vcd) (poke poke_or_peek : name_set)
          (out : harness_output),
          harness_should_poke LINE_MAX operations [] = some poke →
          harness_should_poke_or_peek LINE_MAX operations [] = some poke_or_peek →
          (∀ c ∈ trace, ∀ nv ∈ c, nv.1.length < LINE_MAX) →
          harness_main LINE_MAX openable true dir class_name operations trace
            = Except.ok out →
          out.signals = first_records [] (observations poke_or_peek trace)
            ∧ out.v.path = harness_path dir class_name
            ∧ out.v.data = harness_text class_name poke out.signals)
      ∧ (∀ (LINE_MAX : Nat) (openable : List Char → Bool) (dir : List Char)
          (operations : List operation) (trace : vcd) (poke poke_or_peek : name_set),
          harness_should_poke LINE_MAX operations [] = some poke →
          harness_should_poke_or_peek LINE_MAX operations [] = some poke_or_peek →
          (∀ c ∈ trace, ∀ nv ∈ c, nv.1.length < LINE_MAX
            ∧ (verilog_name_of nv.1 ∈ poke_or_peek →
                bit_string nv.2 ∧ openable (dat_path dir (verilog_name_of nv.1)) = true)) →
          openable (harness_path dir class_name) = true →
          ∃ out, harness_main LINE_MAX openable true dir class_name operations trace
            = Except.ok out) := by
  refine ⟨harness_text_sections class_name should_poke signals hnul, ?_, ?_, by simp, by simp,
    by simp, by simp, ?_, ?_⟩
  · intro s _ hw
    have e : "  reg __list__".toList = "  reg ".toList ++ "__list__".toList := by decide
    refine ⟨by simp only [reg_line, if_pos hw], ?_⟩
    simp only [list_line, list_name, if_pos hw, e, List.append_assoc]
  · intro s _ hw
    have e : ":0] __list__".toList = ":0] ".toList ++ "__list__".toList := by decide
    refine ⟨by simp only [reg_line, if_neg hw], ?_⟩
    simp only [list_line, list_name, if_neg hw, e, List.append_assoc]
  · intro LINE_MAX openable dir operations trace poke poke_or_peek out h1 h2 hyp hout
    obtain ⟨h3, h4⟩ := harness_main_complete LINE_MAX openable dir class_name operations
      trace poke poke_or_peek h1 h2 hyp out hout
    exact ⟨h3, by rw [h4], by rw [h4]⟩
  · intro LINE_MAX openable dir operations trace poke poke_or_peek h1 h2 hyp hv
    obtain ⟨st, _, _, h4⟩ := harness_main_spec LINE_MAX openable dir class_name operations
      trace poke poke_or_peek h1 h2 hyp hv
    exact ⟨_, h4⟩

/-- C13 on the two records of the worked example, `in` of width 1 and `out` of width 4: the
registers are `reg in;` and `reg [3:0] out;`, the arrays `reg __list__in [0:`CYCLE_MAX];` and
`reg [3:0] __list__out [0:`CYCLE_MAX];`, the harness file is `example_harness`; and the run
on the one-cycle trace with `LINE_MAX` = 2048 and every file openable is complete, has these
two records and writes this file. -/
theorem C13_harness_declarations_witness :
    (∀ s ∈ [generic_signal.mk 1 "in".toList, generic_signal.mk 4 "out".toList], NUL ∉ s.name)
      ∧ reg_line (generic_signal.mk 1 "in".toList) = "  reg in;".toList
      ∧ reg_line (generic_signal.mk 4 "out".toList) = "  reg [3:0] out;".toList
      ∧ [generic_signal.mk 1 "in".toList, generic_signal.mk 4 "out".toList].map list_line
          = ["  reg __list__in [0:`CYCLE_MAX];".toList,
              "  reg [3:0] __list__out [0:`CYCLE_MAX];".toList]
      ∧ [generic_signal.mk 1 "in".toList, generic_signal.mk 4 "out".toList].map port_line
          = ["    .in (in),".toList, "    .out (out),".toList]
      ∧ harness_text "Top".toList ["in".toList]
          [generic_signal.mk 1 "in".toList, generic_signal.mk 4 "out".toList]
        = example_harness
      ∧ ∃ out, harness_main 2048 (fun _ => true) true "d".toList "Top".toList example_in_out
            example_cycle
          = Except.ok out
        ∧ out.signals = [generic_signal.mk 1 "in".toList, generic_signal.mk 4 "out".toList]
        ∧ out.v.path = "d/Top_vcd2verilog.v".toList
        ∧ out.v.data = example_harness := by
  have hnul : ∀ s ∈ [generic_signal.mk 1 "in".toList, generic_signal.mk 4 "out".toList],
      NUL ∉ s.name := by decide
  obtain ⟨_, h2, h3, _, _, _, _, h8, h9⟩ :=
    C13_harness_declarations "Top".toList ["in".toList] _ hnul
  obtain ⟨out, hout⟩ := h9 2048 (fun _ => true) "d".toList example_in_out example_cycle _ _
    example_in_out_poke example_in_out_poke_or_peek
    (runs_of_well_formed 2048 (fun _ => true) "d".toList _ example_cycle example_cycle_ok
      (fun _ _ _ _ _ => rfl)) rfl
  obtain ⟨e1, e2, e3⟩ := h8 2048 (fun _ => true) "d".toList example_in_out example_cycle _ _
    out example_in_out_poke example_in_out_poke_or_peek
    (fun c hc nv hnv => (example_cycle_ok c hc nv hnv).1) hout
  have hsig : out.signals
      = [generic_signal.mk 1 "in".toList, generic_signal.mk 4 "out".toList] :=
    e1.trans (by decide)
  refine ⟨hnul, (h2 _ (by decide) rfl).1.trans (by decide),
    (h3 (generic_signal.mk 4 "out".toList) (by decide) (by decide)).1.trans (by decide),
    by decide, by decide, example_harness_text, out, hout, hsig, e2.trans (by decide), ?_⟩
  rw [e3, hsig, example_harness_text]

/-- C14: when the output directory path already exists, or cannot be created, the harness
tool aborts before anything else is done: no `.dat` file is opened, no signal record is made,
no harness file is written, and the set of existing paths is the one it started with. -/
theorem C14_existing_directory_aborts (LINE_MAX : Nat) (openable : List Char → Bool)
    (fs : file_system) (creatable : Bool) (dir class_name : List Char)
    (operations : List operation) (trace : vcd) (hfail : dir ∈ fs ∨ creatable = false) :
    mkdir fs dir creatable = none
      ∧ harness_run LINE_MAX openable fs creatable dir class_name operations trace
          = (Except.error (Fault.abort, ⟨[], []⟩), fs)
      ∧ harness_main LINE_MAX openable false dir class_name operations trace
          = Except.error (Fault.abort, ⟨[], []⟩)
      ∧ opened (harness_state.mk [] []).signal2file = [] := by
  have hm : mkdir fs dir creatable = none := by
    unfold mkdir
    rw [if_pos hfail]
  have hmain : harness_main LINE_MAX openable false dir class_name operations trace
      = Except.error (Fault.abort, ⟨[], []⟩) := by
    unfold harness_main
    rw [if_pos (by simp)]
  refine ⟨hm, ?_, hmain, rfl⟩
  unfold harness_run
  rw [hm]
  simp only []
  rw [hmain]

/-- C14 on a second run into the directory `d` of the worked example, which now exists
together with its files: the run aborts and the paths are unchanged. -/
theorem C14_existing_directory_aborts_witness :
    ("d".toList ∈ ["d/in.dat".toList, "d".toList] ∨ true = false)
      ∧ harness_run 2048 (fun _ => true) ["d/in.dat".toList, "d".toList] true "d".toList
          "Top".toList example_in_out example_cycle
        = (Except.error (Fault.abort, ⟨[], []⟩), ["d/in.dat".toList, "d".toList]) :=
  ⟨Or.inl (by decide),
    (C14_existing_directory_aborts 2048 (fun _ => true) ["d/in.dat".toList, "d".toList] true
      "d".toList "Top".toList example_in_out example_cycle (Or.inl (by decide))).2.1⟩

/-! ## Claims on the preload directive, the parser and the segments -/

/-- C16 at the signal record `in` of width 1: the directive printed for it is
`$readmemh("@@TEST_BASE_DIR@@/in.dat", in);`, whose target is the register `in`, while the
array declared for it and indexed by the clocked process is `__list__in`. -/
theorem C16_readmemh_target :
    readmemh_decl [] ⟨1, "in".toList⟩
        = "    $readmemh(\"@@TEST_BASE_DIR@@/in.dat\", in);\n".toList
      ∧ readmemh_decl [] ⟨1, "in".toList⟩
        = readmemh_line "in".toList "in".toList ++ "\n".toList
      ∧ readmemh_decl [] ⟨1, "in".toList⟩
        ≠ readmemh_line "in".toList (list_name "in".toList) ++ "\n".toList
      ∧ list_decl [] ⟨1, "in".toList⟩ = "  reg __list__in [0:`CYCLE_MAX];\n".toList
      ∧ poke_stmt ["in".toList] [] ⟨1, "in".toList⟩
        = "      in <= __list__in[cycle];\n".toList
      ∧ compare_stmt [] [] ⟨1, "in".toList⟩
        = "      if (in != __list__in[cycle])\n        failed <= 1'b1;\n".toList := by
  decide

/-- C18, as stated, fails: with `LINE_MAX` = 2048 the name `top::a::b` has the dotted form
`top.a.b` and `vcd2name` returns `a_b`, not `top.a_b`. -/
theorem C18_counterexample :
    vcd2chisel 2048 "top::a::b".toList = some (join_with '.' ["top".toList, "a".toList, "b".toList])
      ∧ vcd2name 2048 "top::a::b".toList = some "a_b".toList
      ∧ vcd2name 2048 "top::a::b".toList ≠ some "top.a_b".toList := by
  have h1 : vcd2chisel 2048 "top::a::b".toList
      = some (join_with '.' ["top".toList, "a".toList, "b".toList]) :=
    (vcd2chisel_eq 2048 _ (by decide)).trans (by decide)
  have h2 : vcd2name 2048 "top::a::b".toList = some "a_b".toList :=
    (vcd2name_eq 2048 _ (by decide)).trans (by decide)
  refine ⟨h1, h2, ?_⟩
  rw [h2]
  decide

/-- C18, amended: for every name shorter than `LINE_MAX` whose dotted form has the segments
`s0.s1. ... .sk` with `k ≥ 1`, `vcd2name` drops `s0` and its period and returns
`s1_ ... _sk`. -/
theorem C18_first_segment_dropped (LINE_MAX : Nat) (name s0 s1 : List Char)
    (rest : List (List Char)) (hlen : name.length < LINE_MAX)
    (hseg : ∀ s ∈ s0 :: s1 :: rest, '.' ∉ s)
    (hdotted : vcd2chisel LINE_MAX name = some (join_with '.' (s0 :: s1 :: rest))) :
    vcd2name LINE_MAX name = some (join_with '_' (s1 :: rest)) := by
  have hc := length_lt_of_c_str LINE_MAX name hlen
  rw [vcd2chisel_eq LINE_MAX name hc] at hdotted
  rw [vcd2name_eq LINE_MAX name hc, Option.some.inj hdotted, flatten_join s0 s1 rest hseg]

/-- C18, amended, at the name `top::a::b` with `LINE_MAX` = 2048: the segments are `top`,
`a`, `b` and the result is `a_b`. -/
theorem C18_first_segment_dropped_witness :
    ("top::a::b".toList.length < 2048
        ∧ (∀ s ∈ ["top".toList, "a".toList, "b".toList], '.' ∉ s)
        ∧ vcd2chisel 2048 "top::a::b".toList
          = some (join_with '.' ["top".toList, "a".toList, "b".toList]))
      ∧ vcd2name 2048 "top::a::b".toList = some "a_b".toList := by
  have h1 : vcd2chisel 2048 "top::a::b".toList
      = some (join_with '.' ["top".toList, "a".toList, "b".toList]) :=
    (vcd2chisel_eq 2048 _ (by decide)).trans (by decide)
  have hseg : ∀ s ∈ ["top".toList, "a".toList, "b".toList], '.' ∉ s := by decide
  exact ⟨⟨by decide, hseg, h1⟩,
    (C18_first_segment_dropped 2048 "top::a::b".toList "top".toList "a".toList ["b".toList]
      (by decide) hseg h1).trans (by decide)⟩

/-- C17, as stated, fails: `b-101` and `b 1` are not the marker followed by `0`/`1`
characters, yet the big-integer parser takes the sign and skips the blank, and both
re-encoders return text: the signed numeral `-5` and the numeral `1`. -/
theorem C17_counterexample :
    ¬ bit_string "b-101".toList ∧ ¬ bit_string "b 1".toList
      ∧ bits2int "b-101".toList = Except.ok "-5".toList
      ∧ bits2hex "b-101".toList = Except.ok "-5".toList
      ∧ bits2int "b 1".toList = Except.ok "1".toList
      ∧ bits2hex "b 1".toList = Except.ok "1".toList := by
  refine ⟨?_, ?_, by rfl, by rfl, by rfl, by rfl⟩
  · rintro ⟨bits, h, _, h01⟩
    have e : bits = "-101".toList := (List.cons.inj h).2.symm
    subst e
    rcases h01 '-' (by decide) with h1 | h1 <;> exact absurd h1 (by decide)
  · rintro ⟨bits, h, _, h01⟩
    have e : bits = " 1".toList := (List.cons.inj h).2.symm
    subst e
    rcases h01 ' ' (by decide) with h1 | h1 <;> exact absurd h1 (by decide)

/-- C17, amended: for every value string that is not the marker `b` followed by a text that
the big-integer parser accepts (optional white space, an optional `-`, a `0` or `1`, then
only `0`, `1` and white space), `bits2int` and `bits2hex` terminate the process, by `abort`
or by the uncaught exception of the parser, and return no text; every other value string
makes both return text. -/
theorem C17_rejected_values_terminate (value : List Char)
    (h : value_accepted value = false) :
    (bits2int value = Except.error Fault.abort
        ∨ bits2int value = Except.error Fault.invalid_argument)
      ∧ (bits2hex value = Except.error Fault.abort
        ∨ bits2hex value = Except.error Fault.invalid_argument)
      ∧ (∀ text, bits2int value ≠ Except.ok text)
      ∧ (∀ text, bits2hex value ≠ Except.ok text)
      ∧ (∀ other, value_accepted other = true →
          (∃ text, bits2int other = Except.ok text) ∧ ∃ text, bits2hex other = Except.ok text) := by
  have key : (bits2int value = Except.error Fault.abort
        ∨ bits2int value = Except.error Fault.invalid_argument)
      ∧ (bits2hex value = Except.error Fault.abort
        ∨ bits2hex value = Except.error Fault.invalid_argument) := by
    rcases value_accepted_false value h with h1 | h1
    · exact ⟨Or.inl (by unfold bits2int; rw [if_pos h1]),
        Or.inl (by unfold bits2hex; rw [if_pos h1])⟩
    · by_cases hm : (c_str value).head? ≠ some 'b'
      · exact ⟨Or.inl (by unfold bits2int; rw [if_pos hm]),
          Or.inl (by unfold bits2hex; rw [if_pos hm])⟩
      · exact ⟨Or.inr (by unfold bits2int; rw [if_neg hm, h1]),
          Or.inr (by unfold bits2hex; rw [if_neg hm, h1])⟩
  refine ⟨key.1, key.2, ?_, ?_, value_accepted_true⟩
  · intro text ht
    rcases key.1 with e | e <;> rw [e] at ht <;> exact Except.noConfusion ht
  · intro text ht
    rcases key.2 with e | e <;> rw [e] at ht <;> exact Except.noConfusion ht

/-- C17, amended, at the value `b10x1`: both re-encoders end in the uncaught exception; the
values `b` and `bz` are rejected in the same way. -/
theorem C17_rejected_values_terminate_witness :
    (value_accepted "b10x1".toList = false ∧ value_accepted "b".toList = false
        ∧ value_accepted "bz".toList = false)
      ∧ bits2int "b10x1".toList = Except.error Fault.invalid_argument
      ∧ bits2hex "b10x1".toList = Except.error Fault.invalid_argument
      ∧ (∀ text, bits2int "b".toList ≠ Except.ok text)
      ∧ (∀ text, bits2int "bz".toList ≠ Except.ok text) :=
  ⟨⟨by decide, by decide, by decide⟩, by rfl, by rfl,
    (C17_rejected_values_terminate "b".toList (by decide)).2.2.1,
    (C17_rejected_values_terminate "bz".toList (by decide)).2.2.1⟩

/-! ## Claims on the signal records and on buffer safety -/

/-- C15: at every point of phase 1 (after the cycles `before` and the first names `pre` of
the next cycle, hence also at its end), for traces with names shorter than `LINE_MAX`,
whatever the values are and whether the files can be opened or not: in the state `st` in
which the run is at that point, or in which it has stopped before, with `os` the observations
taken up so far, the record list holds one record per canonical name among `os`, with no name
twice, in the order of the first observations; the record names are the keys of
`signal2file`; the width of a record is the length of the first bit-string observed for its
name minus one; whatever is observed later only appends records, so no record changes; when
the run is at that point, every name with a record has a stream to which something has been
written; and when the values of the tracked signals are well-formed and their files can be
opened, the run does reach this point, and the lines written are those of the
observations. -/
theorem C15_signal_records (LINE_MAX : Nat) (openable : List Char → Bool) (dir : List Char)
    (should_poke_or_peek : name_set) (before : vcd) (pre : cycle)
    (hb : ∀ c ∈ before, ∀ nv ∈ c, nv.1.length < LINE_MAX)
    (hp : ∀ nv ∈ pre, nv.1.length < LINE_MAX) :
    ∃ st os more,
      final_state
          (harness_cycles LINE_MAX openable dir should_poke_or_peek (before ++ [pre]) ⟨[], []⟩)
        = st
      ∧ observations should_poke_or_peek (before ++ [pre]) = os ++ more
      ∧ (∀ st1, harness_cycles LINE_MAX openable dir should_poke_or_peek (before ++ [pre])
            ⟨[], []⟩ = Except.ok st1 → more = [])
      ∧ (∀ (rest : cycle) (after : vcd),
          harness_cycles LINE_MAX openable dir should_poke_or_peek
              (before ++ (pre ++ rest) :: after) ⟨[], []⟩
            = (harness_cycles LINE_MAX openable dir should_poke_or_peek (before ++ [pre])
                ⟨[], []⟩).bind
              (fun st1 =>
                harness_cycles LINE_MAX openable dir should_poke_or_peek (rest :: after) st1))
      ∧ st.signals = first_records [] os
      ∧ (st.signals.map generic_signal.name).Nodup
      ∧ (∀ n, n ∈ st.signals.map generic_signal.name ↔ n ∈ os.map Prod.fst)
      ∧ (∀ n, n ∈ st.signals.map generic_signal.name
          ↔ ∃ file, find st.signal2file n = some file)
      ∧ List.Pairwise
          (fun a b => first_index a (os.map Prod.fst) < first_index b (os.map Prod.fst))
          (st.signals.map generic_signal.name)
      ∧ (∀ r ∈ st.signals, ∃ v, first_value r.name os = some v
          ∧ r.width = (v.length : Int) - 1)
      ∧ (∀ (rest : cycle) (later : vcd),
          (∀ nv ∈ rest, nv.1.length < LINE_MAX) →
          (∀ c ∈ later, ∀ nv ∈ c, nv.1.length < LINE_MAX) →
          harness_cycles LINE_MAX openable dir should_poke_or_peek (before ++ [pre]) ⟨[], []⟩
            = Except.ok st →
          ∃ extra,
            (final_state (harness_cycles LINE_MAX openable dir should_poke_or_peek
              (rest :: later) st)).signals = st.signals ++ extra)
      ∧ (harness_cycles LINE_MAX openable dir should_poke_or_peek (before ++ [pre]) ⟨[], []⟩
            = Except.ok st →
          ∀ n, n ∈ st.signals.map generic_signal.name
            ↔ ∃ file, find st.signal2file n = some (some file) ∧ file.data ≠ [])
      ∧ ((∀ c ∈ before ++ [pre], ∀ nv ∈ c, verilog_name_of nv.1 ∈ should_poke_or_peek →
            bit_string nv.2 ∧ openable (dat_path dir (verilog_name_of nv.1)) = true) →
          harness_cycles LINE_MAX openable dir should_poke_or_peek (before ++ [pre]) ⟨[], []⟩
              = Except.ok st
            ∧ ∀ n ∈ st.signals.map generic_signal.name,
                ∃ file, find st.signal2file n = some (some file)
                  ∧ file.data = unlines (dat_lines os n) ∧ dat_lines os n ≠ []) := by
  have hall : ∀ c ∈ before ++ [pre], ∀ nv ∈ c, nv.1.length < LINE_MAX := by
    intro c hc
    rcases List.mem_append.1 hc with h | h
    · exact hb c h
    · rw [List.mem_singleton.1 h]
      exact hp
  obtain ⟨os, more, e1, hrec, hmore⟩ := harness_cycles_records LINE_MAX openable dir
    should_poke_or_peek (before ++ [pre]) ⟨[], []⟩ [] hall records_state_init
  rw [List.nil_append] at hrec
  generalize hst : final_state
    (harness_cycles LINE_MAX openable dir should_poke_or_peek (before ++ [pre]) ⟨[], []⟩)
    = st at hrec
  obtain ⟨f1, f2, f3, f4, f5⟩ := records_state_facts st os hrec
  refine ⟨st, os, more, rfl, e1, hmore,
    fun rest after => harness_cycles_point LINE_MAX openable dir should_poke_or_peek before
      after pre rest ⟨[], []⟩,
    hrec.2, f1, f2, f3, f4, f5, ?_, ?_, ?_⟩
  · intro rest later hr hl _
    have hrl : ∀ c ∈ rest :: later, ∀ nv ∈ c, nv.1.length < LINE_MAX := by
      intro c hc
      rcases List.mem_cons.1 hc with h | h
      · rw [h]
        exact hr
      · exact hl c h
    obtain ⟨os2, more2, _, hrec2, _⟩ := harness_cycles_records LINE_MAX openable dir
      should_poke_or_peek (rest :: later) _ os hrl hrec
    obtain ⟨extra, e⟩ := first_records_prefix os os2 []
    refine ⟨extra, ?_⟩
    rw [hrec2.2, e, hrec.2]
  · intro hok n
    have hm := hmore st hok
    subst hm
    rw [List.append_nil] at e1
    have hw := harness_cycles_written LINE_MAX openable dir should_poke_or_peek
      (before ++ [pre]) ⟨[], []⟩ st [] hall written_state_init hok
    rw [List.nil_append, e1] at hw
    constructor
    · intro hn
      exact hw n ((f2 n).1 hn)
    · rintro ⟨file, hf, _⟩
      exact (f3 n).2 ⟨some file, hf⟩
  · intro hyp
    obtain ⟨st1, h1, h2⟩ := harness_cycles_spec LINE_MAX openable dir should_poke_or_peek
      (before ++ [pre]) ⟨[], []⟩ []
      (fun c hc nv hnv => ⟨hall c hc nv hnv, hyp c hc nv hnv⟩) (phase1_state_init dir)
    have hm := hmore st1 h1
    subst hm
    rw [List.append_nil] at e1
    rw [List.nil_append, e1] at h2
    rw [h1] at hst
    have est : st1 = st := hst
    subst est
    refine ⟨h1, ?_⟩
    intro n hn
    have ho : n ∈ os.map Prod.fst := (f2 n).1 hn
    refine ⟨⟨dat_path dir n, unlines (dat_lines os n)⟩, ?_, rfl, dat_lines_ne_nil os n ho⟩
    rw [h2.1 n, if_pos ho]

/-- C15 with `LINE_MAX` = 2048.  With the poke-or-peek set `{out, in}` and every file
openable, after the one-cycle trace `example_cycle` and a later observation `b11` of `out`:
the run is at that point, and the records are `in` of width 1 and `out` of width 4, the width
of `out` being that of its first value `b1010`.  And in the run that stops at the first
observation of `x/y` because `d/x/y.dat` cannot be opened, the state has the null pointer
under `x/y` and the record names are still the keys of the map. -/
theorem C15_signal_records_witness :
    ((∀ c ∈ example_cycle, ∀ nv ∈ c, nv.1.length < 2048)
        ∧ ∀ nv ∈ [("top::out".toList, "b11".toList)], nv.1.length < 2048)
      ∧ ∃ st,
          harness_cycles 2048 (fun _ => true) "d".toList ["out".toList, "in".toList]
              (example_cycle ++ [[("top::out".toList, "b11".toList)]]) ⟨[], []⟩
            = Except.ok st
        ∧ st.signals = [generic_signal.mk 1 "in".toList, generic_signal.mk 4 "out".toList]
        ∧ (∀ n, n ∈ ["in".toList, "out".toList]
            ↔ ∃ file, find st.signal2file n = some file)
        ∧ ∃ st2,
            final_state
                (harness_cycles 2048 (fun path => decide (path ≠ "d/x/y.dat".toList))
                  "d".toList ["x/y".toList] [[("top::x/y".toList, "b1".toList)]] ⟨[], []⟩)
              = st2
          ∧ find st2.signal2file "x/y".toList = some none
          ∧ st2.signals = [generic_signal.mk 1 "x/y".toList]
          ∧ (∀ n, n ∈ st2.signals.map generic_signal.name
              ↔ ∃ file, find st2.signal2file n = some file) := by
  have hb : ∀ c ∈ example_cycle, ∀ nv ∈ c, nv.1.length < 2048 :=
    fun c hc nv hnv => (example_cycle_ok c hc nv hnv).1
  have hp : ∀ nv ∈ [("top::out".toList, "b11".toList)], nv.1.length < 2048 := by decide
  obtain ⟨st, os, more, _, e1, hmore, _, hsig, _, _, hkeys, _, _, _, _, hrun⟩ :=
    C15_signal_records 2048 (fun _ => true) "d".toList ["out".toList, "in".toList]
      example_cycle [("top::out".toList, "b11".toList)] hb hp
  have hyp : ∀ c ∈ example_cycle ++ [[("top::out".toList, "b11".toList)]], ∀ nv ∈ c,
      verilog_name_of nv.1 ∈ ["out".toList, "in".toList] →
      bit_string nv.2
        ∧ (fun _ => true) (dat_path "d".toList (verilog_name_of nv.1)) = true := by
    intro c hc nv hnv _
    rcases List.mem_append.1 hc with h | h
    · exact ⟨(example_cycle_ok c h nv hnv).2, rfl⟩
    · rw [List.mem_singleton.1 h] at hnv
      rw [List.mem_singleton.1 hnv]
      exact ⟨⟨['1', '1'], by decide, by decide, by decide⟩, rfl⟩
  obtain ⟨hok, _⟩ := hrun hyp
  have hm := hmore st hok
  subst hm
  rw [List.append_nil] at e1
  have hs : st.signals
      = [generic_signal.mk 1 "in".toList, generic_signal.mk 4 "out".toList] := by
    rw [hsig, ← e1]
    decide
  obtain ⟨st2, _, _, hfin, _, _, _, _, _, _, hkeys2, _⟩ :=
    C15_signal_records 2048 (fun path => decide (path ≠ "d/x/y.dat".toList)) "d".toList
      ["x/y".toList] [] [("top::x/y".toList, "b1".toList)] (by decide) (by decide)
  have est : st2 = ⟨[("x/y".toList, none)], [generic_signal.mk 1 "x/y".toList]⟩ :=
    hfin.symm.trans (congrArg final_state harness_cycles_unopenable)
  refine ⟨⟨hb, hp⟩, st, hok, hs, ?_, st2, hfin, ?_, ?_, hkeys2⟩
  · intro n
    rw [← hkeys n, hs]
    rfl
  · rw [est]
    rfl
  · rw [est]

/-- C19: for every name shorter than `LINE_MAX` both canonicalisers return a result, not
longer than the name, and stay inside the NUL-terminated copy: with `len` the length of the
copied text, the collapse loop and the flattening loop succeed on the array cut down to the
positions `0..len` (where any read or write at a later position, the look-ahead
`buffer[i+1]` and the `memmove` included, would be a fault), end there with a NUL-terminated
string, and on the whole buffer do the same while the bytes after position `len` are left
alone.  Each write of the loops, under its guard, keeps the string NUL-terminated: the
`memmove` moves the terminator one place down, the stores leave it in place; and every
position up to the terminator can be read. -/
theorem C19_canonicalisers_stay_in_buffer (LINE_MAX : Nat) (name : List Char)
    (hlen : name.length < LINE_MAX) :
    ∃ (pad b1 b2 chisel verilog : List Char) (q : Option Nat) (p : Nat),
      strncpy LINE_MAX name = c_str name ++ NUL :: pad
      ∧ collapse_for (LINE_MAX + 1) (c_str name ++ [NUL]) 0 = some b1
      ∧ b1.length = (c_str name).length + 1
      ∧ collapse_for (LINE_MAX + 1) (c_str name ++ NUL :: pad) 0 = some (b1 ++ pad)
      ∧ strstr_dot b1 = some q ∧ strstr_dot (b1 ++ pad) = some q
      ∧ p = (match q with
              | none => 0
              | some j => j + 1)
      ∧ flatten_for (LINE_MAX + 1) b1 p 0 = some b2
      ∧ b2.length = (c_str name).length + 1
      ∧ flatten_for (LINE_MAX + 1) (b1 ++ pad) p 0 = some (b2 ++ pad)
      ∧ string_at b1 0 = some chisel ∧ string_at (b1 ++ pad) 0 = some chisel
      ∧ string_at b2 p = some verilog ∧ string_at (b2 ++ pad) p = some verilog
      ∧ vcd2chisel LINE_MAX name = some chisel ∧ chisel.length ≤ name.length
      ∧ vcd2name LINE_MAX name = some verilog ∧ verilog.length ≤ name.length
      ∧ (∀ (buffer : List Char) (i len : Nat), strlen buffer 0 = some len → i ≤ len →
          ∃ d, buffer[i]? = some d)
      ∧ (∀ (buffer : List Char) (i len : Nat), strlen buffer 0 = some len → i < len →
          ∃ b, strlen buffer i = some (len - i)
            ∧ memmove buffer i (i + 1) (len - i) = some b
            ∧ strlen b 0 = some (len - 1) ∧ b.length = buffer.length)
      ∧ (∀ (buffer : List Char) (i len : Nat) (d : Char), strlen buffer 0 = some len →
          i < len → d ≠ NUL →
          ∃ b, store buffer i d = some b ∧ strlen b 0 = some len
            ∧ b.length = buffer.length) := by
  have hc := length_lt_of_c_str LINE_MAX name hlen
  have hno := c_str_not_mem name
  obtain ⟨k, q, pre, s, hk, e, hfl, hq, hall⟩ :=
    loops_in_buffer (LINE_MAX + 1) (c_str name) hno (by omega)
  have hcopy := strncpy_spec LINE_MAX name hc
  obtain ⟨a1, a2, a3, a4, a5⟩ := hall []
  obtain ⟨c1, c2, c3, c4, c5⟩ :=
    hall (List.replicate (LINE_MAX - (c_str name).length - 1) NUL)
  simp only [List.append_nil] at a1 a2 a3 a4 a5
  have e1 : ∀ (x y : List Char),
      x ++ NUL :: (List.replicate k NUL ++ y) = (x ++ NUL :: List.replicate k NUL) ++ y := by
    intro x y; simp
  have e2 : ∀ (y : List Char),
      pre ++ (s.map underscore ++ NUL :: (List.replicate k NUL ++ y))
        = (pre ++ (s.map underscore ++ NUL :: List.replicate k NUL)) ++ y := by
    intro y; simp
  rw [e1] at c1 c2 c3 c4
  rw [e2] at c3 c5
  have hdl : (dot_runs (c_str name)).length ≤ name.length :=
    Nat.le_trans (dot_runs_length_le _) (c_str_length_le name)
  have hsl : (s.map underscore).length ≤ name.length := by
    have : s.length ≤ (dot_runs (c_str name)).length := by rw [e]; simp
    simp only [List.length_map]
    omega
  refine ⟨_, _, _, _, _, q, pre.length, hcopy, a1, ?_, c1, a2, c2, hq.symm, a3, ?_, c3, a4,
    c4, a5, c5, vcd2chisel_eq LINE_MAX name hc, hdl, ?_, hsl, read_within,
    memmove_keeps_terminator, store_keeps_terminator⟩
  · simp only [List.length_append, List.length_cons, List.length_replicate]
    omega
  · have : pre.length + s.length = (dot_runs (c_str name)).length := by rw [e]; simp
    simp only [List.length_append, List.length_cons, List.length_replicate, List.length_map]
    omega
  · rw [vcd2name_eq LINE_MAX name hc, hfl]

/-- C19 at the name `top:::a::b` with `LINE_MAX` = 2048: both canonicalisers return a
result not longer than the name, namely `top.a.b` and `a_b`, and the collapse loop run on
the eleven bytes of the NUL-terminated copy alone ends with `top.a.b` and its terminator. -/
theorem C19_canonicalisers_stay_in_buffer_witness :
    "top:::a::b".toList.length < 2048
      ∧ (∃ chisel verilog : List Char,
          vcd2chisel 2048 "top:::a::b".toList = some chisel
            ∧ chisel.length ≤ "top:::a::b".toList.length
            ∧ vcd2name 2048 "top:::a::b".toList = some verilog
            ∧ verilog.length ≤ "top:::a::b".toList.length)
      ∧ (∃ b1 : List Char,
          collapse_for 2049 (c_str "top:::a::b".toList ++ [NUL]) 0 = some b1
            ∧ b1.length = (c_str "top:::a::b".toList).length + 1)
      ∧ vcd2chisel 2048 "top:::a::b".toList = some "top.a.b".toList
      ∧ vcd2name 2048 "top:::a::b".toList = some "a_b".toList
      ∧ collapse_for 2049 ("top:::a::b".toList ++ [NUL]) 0
        = some ("top.a.b".toList ++ [NUL, NUL, NUL, NUL]) := by
  obtain ⟨pad, b1, b2, chisel, verilog, q, p, _, h2, hb, _, _, _, _, _, _, _, _, _, _, _, h3,
    hl3, h4, hl4, _⟩ := C19_canonicalisers_stay_in_buffer 2048 "top:::a::b".toList (by decide)
  have e3 : vcd2chisel 2048 "top:::a::b".toList = some "top.a.b".toList :=
    (vcd2chisel_eq 2048 _ (by decide)).trans (by decide)
  have e4 : vcd2name 2048 "top:::a::b".toList = some "a_b".toList :=
    (vcd2name_eq 2048 _ (by decide)).trans (by decide)
  refine ⟨by decide, ⟨chisel, verilog, h3, hl3, h4, hl4⟩, ⟨b1, h2, hb⟩, e3, e4, ?_⟩
  obtain ⟨k, hk, h5⟩ := collapse_for_exact 2049 "top:::a::b".toList [] [] (by simp)
    (by decide) (by decide)
  have hk3 : k = 3 := by
    have e : (dot_runs "top:::a::b".toList).length = 7 := by decide
    have e6 : "top:::a::b".toList.length = 10 := by decide
    omega
  subst hk3
  exact h5.trans (congrArg some (by decide))

end Vcd2Step
